import Mathlib

/-!
Verification development for the Pinenut logging engine (Rust).

The definitions below are a shallow embedding of the Rust sources:
bytes are modelled as `Nat` (kept below 256 by construction where it
matters), byte slices as `List Nat`, fallible operations as `Except`,
and stateful streaming components as explicit state-passing functions.
Source locations are cited next to each definition.
-/

set_option maxHeartbeats 1000000

namespace Pinenut

/-! ## Byte-level helpers -/

/-- Little-endian byte representation of a value in `n` bytes
(models `u32::to_le_bytes` and friends). -/
def leBytes : Nat → Nat → List Nat
  | 0, _ => []
  | n + 1, v => (v % 256) :: leBytes n (v / 256)

/-- Read `n` little-endian bytes starting at offset `off` of a byte list,
out-of-range bytes read as 0 (models `u32::from_le_bytes` on a slice). -/
def leRead (d : List Nat) (off n : Nat) : Nat :=
  match n with
  | 0 => 0
  | m + 1 => d.getD off 0 + 256 * leRead d (off + 1) m

/-- Overwrite the bytes of `d` starting at `off` with `bs`
(models `slice::copy_from_slice` at an offset). -/
def writeBytes (d : List Nat) (off : Nat) (bs : List Nat) : List Nat :=
  match bs with
  | [] => d
  | b :: rest => writeBytes (d.set off b) (off + 1) rest

theorem writeBytes_length (d : List Nat) (off : Nat) (bs : List Nat) :
    (writeBytes d off bs).length = d.length := by
  induction bs generalizing d off with
  | nil => rfl
  | cons b rest ih => simp [writeBytes, ih]

theorem getD_set_ne (d : List Nat) (j i b : Nat) (h : j ≠ i) :
    (d.set j b).getD i 0 = d.getD i 0 := by
  simp [List.getD_eq_getElem?_getD, List.getElem?_set_ne h]

/-- A byte untouched by `writeBytes` keeps its value. -/
theorem writeBytes_getD_of_lt (d : List Nat) (off : Nat) (bs : List Nat)
    (i : Nat) (h : i < off) : (writeBytes d off bs).getD i 0 = d.getD i 0 := by
  induction bs generalizing d off with
  | nil => rfl
  | cons b rest ih =>
    rw [writeBytes, ih _ _ (Nat.lt_succ_of_lt h)]
    exact getD_set_ne _ _ _ _ (by omega)

theorem writeBytes_getD_of_ge (d : List Nat) (off : Nat) (bs : List Nat)
    (i : Nat) (h : off + bs.length ≤ i) :
    (writeBytes d off bs).getD i 0 = d.getD i 0 := by
  induction bs generalizing d off with
  | nil => rfl
  | cons b rest ih =>
    rw [writeBytes, ih _ _ (by simp at h ⊢; omega)]
    exact getD_set_ne d off i b (by simp at h; omega)

/-- Inside the written range, `writeBytes` stores the new bytes. -/
theorem writeBytes_getD_of_mem (d : List Nat) (off : Nat) (bs : List Nat)
    (i : Nat) (hlo : off ≤ i) (hhi : i < off + bs.length)
    (hin : i < d.length) :
    (writeBytes d off bs).getD i 0 = bs.getD (i - off) 0 := by
  induction bs generalizing d off with
  | nil => simp at hhi; omega
  | cons b rest ih =>
    rw [writeBytes]
    rcases Nat.eq_or_lt_of_le hlo with heq | hlt
    · subst heq
      rw [writeBytes_getD_of_lt _ _ _ _ (Nat.lt_succ_self _)]
      simp [List.getD_eq_getElem?_getD, List.getElem?_set_eq_of_lt _ hin]
    · have h2 := ih (d.set off b) (off + 1) hlt (by simp at hhi ⊢; omega)
        (by simpa using hin)
      rw [h2]
      have h3 : i - off = (i - (off + 1)) + 1 := by omega
      rw [h3]
      simp [List.getD_cons_succ]

/-- Splicing a value `b` shifted past the low `s` bits of `a` is plain
addition (used to rewrite the Rust bit operations arithmetically). -/
theorem lor_shiftLeft_eq_add (a b s : Nat) (ha : a < 2 ^ s) :
    a ||| (b <<< s) = a + b * 2 ^ s := by
  have h : a + b * 2 ^ s = 2 ^ s * b + a := by ring
  rw [h]
  apply Nat.eq_of_testBit_eq
  intro i
  rw [Nat.testBit_lor, Nat.testBit_mul_pow_two_add b ha i, Nat.shiftLeft_eq]
  by_cases hi : i < s
  · simp only [hi, if_pos]
    have hz : (b * 2 ^ s).testBit i = false := by
      have := Nat.testBit_mul_pow_two_add b (b := 0) (i := s) (by positivity) i
      simpa [hi, Nat.mul_comm] using this
    simp [hz]
  · simp only [hi, if_neg]
    have hat : a.testBit i = false :=
      Nat.testBit_eq_false_of_lt
        (lt_of_lt_of_le ha (Nat.pow_le_pow_right (by norm_num) (by omega)))
    have hb : (b * 2 ^ s).testBit i = b.testBit (i - s) := by
      have := Nat.testBit_mul_pow_two_add b (b := 0) (i := s) (by positivity) i
      simpa [hi, Nat.mul_comm] using this
    simp [hb, hat]

theorem and_127_eq_mod (v : Nat) : v &&& 127 = v % 128 := by
  have h : (127 : Nat) = 2 ^ 7 - 1 := by norm_num
  have h2 : (128 : Nat) = 2 ^ 7 := by norm_num
  rw [h, h2, Nat.and_pow_two_sub_one_eq_mod]

theorem and_128_eq_zero_of_lt (v : Nat) (h : v < 128) : v &&& 128 = 0 := by
  have h2 : (128 : Nat) = 2 ^ 7 := by norm_num
  rw [h2, Nat.and_two_pow, Nat.testBit_eq_false_of_lt (by omega)]
  rfl

theorem add_128_and_128 (v : Nat) (h : v < 128) : (v + 128) &&& 128 = 128 := by
  have h2 : (128 : Nat) = 2 ^ 7 := by norm_num
  have ht : (v + 128).testBit 7 = true := by
    have := Nat.testBit_mul_pow_two_add 1 (b := v) (i := 7) (by omega) 7
    simpa [Nat.add_comm] using this
  rw [h2, Nat.and_two_pow]
  rw [h2] at ht
  rw [ht]
  simp

/-! ## Codec (src/pinenut/src/codec.rs)

Bytes are `Nat` values below 256; a decoding source is a byte list and
decoders return the decoded value together with the unconsumed tail,
mirroring `Source for &[u8]`. -/

/-- Decidable equality on `Except`, so concrete decoder runs can be checked
by `decide`. -/
instance {e a : Type} [DecidableEq e] [DecidableEq a] : DecidableEq (Except e a)
  | .error e1, .error e2 =>
    if h : e1 = e2 then isTrue (by rw [h])
    else isFalse (fun hc => h (Except.error.inj hc))
  | .error _, .ok _ => isFalse (fun hc => Except.noConfusion hc)
  | .ok _, .error _ => isFalse (fun hc => Except.noConfusion hc)
  | .ok a1, .ok a2 =>
    if h : a1 = a2 then isTrue (by rw [h])
    else isFalse (fun hc => h (Except.ok.inj hc))

/-- Errors of `codec.rs` `DecodingError`. The `type_name` diagnostic payload
of `UnexpectedVariant` and the `Utf8Error` payload are dropped. -/
inductive DecodingError where
  | unexpectedEnd (extraLen : Nat)
  | unexpectedVariant (foundByte : Nat)
  | utf8
  | integerOverflow
  | dateTime
deriving DecidableEq, Repr

/-- Reading from a byte-slice source (`impl Source for &[u8]`): take the
first `len` bytes, else fail with `UnexpectedEnd` carrying the missing
count. -/
def readBytes (len : Nat) (src : List Nat) :
    Except DecodingError (List Nat × List Nat) :=
  if len ≤ src.length then .ok (src.take len, src.drop len)
  else .error (.unexpectedEnd (len - src.length))

/-- Encoding a `u8`: the byte itself. -/
def encodeU8 (v : Nat) : List Nat := [v]

/-- Decoding a `u8`: one byte from the source. -/
def decodeU8 (src : List Nat) : Except DecodingError (Nat × List Nat) :=
  match readBytes 1 src with
  | .error e => .error e
  | .ok (bs, rest) => .ok (bs.headD 0, rest)

/-- Varint encoding loop (`integral_type_codec_impl`, encode arm): seven
data bits per byte, continuation bit `0x80`, low group first. The Rust loop
shifts `val >>= 7` until `val ≤ 0x7F`; the structural bound `fuel` can never
be exhausted when it exceeds `v`, since `v >>> 7 < v` — see
`encodeVarint_eq`, which recovers the unbounded recursion equation. -/
def encodeVarintF : Nat → Nat → List Nat
  | 0, _ => []
  | fuel + 1, v =>
    if v ≤ 0x7F then [v]
    else ((v &&& 0x7F) ||| 0x80) :: encodeVarintF fuel (v >>> 7)

/-- Varint encoding of an unsigned integer. -/
def encodeVarint (v : Nat) : List Nat := encodeVarintF (v + 1) v

theorem encodeVarintF_irrel (f1 : Nat) : ∀ (f2 v : Nat), v < f1 → v < f2 →
    encodeVarintF f1 v = encodeVarintF f2 v := by
  induction f1 with
  | zero => intro f2 v h1; omega
  | succ f ih =>
    intro f2 v h1 h2
    cases f2 with
    | zero => omega
    | succ f2 =>
      show encodeVarintF (f + 1) v = encodeVarintF (f2 + 1) v
      rw [encodeVarintF, encodeVarintF]
      by_cases h7 : v ≤ 0x7F
      · rw [if_pos h7, if_pos h7]
      · rw [if_neg h7, if_neg h7]
        have hlt : v >>> 7 < v := by
          rw [Nat.shiftRight_eq_div_pow]
          have : (2:Nat) ^ 7 = 128 := by norm_num
          rw [this]
          omega
        rw [ih f2 (v >>> 7) (by omega) (by omega)]

/-- The unbounded recursion equation of the Rust varint encoding loop. -/
theorem encodeVarint_eq (v : Nat) : encodeVarint v =
    if v ≤ 0x7F then [v]
    else ((v &&& 0x7F) ||| 0x80) :: encodeVarint (v >>> 7) := by
  show encodeVarintF (v + 1) v = _
  rw [encodeVarintF]
  by_cases h7 : v ≤ 0x7F
  · rw [if_pos h7, if_pos h7]
  · rw [if_neg h7, if_neg h7]
    have hlt : v >>> 7 < v := by
      rw [Nat.shiftRight_eq_div_pow]
      have : (2:Nat) ^ 7 = 128 := by norm_num
      rw [this]
      omega
    rw [encodeVarintF_irrel v (v >>> 7 + 1) (v >>> 7) (by omega) (by omega)]
    rfl

/-- Varint decoding loop (`integral_type_codec_impl`, decode arm) at target
bit width `w` with accumulator `val` and current `shift`. The leading `u8`
decode is inlined as the list pattern match. -/
def decodeVarintGo (w val shift : Nat) :
    List Nat → Except DecodingError (Nat × List Nat)
  | [] => .error (.unexpectedEnd 1)
  | b :: rest =>
    let highBits := b &&& 0x7F
    if w - Nat.size highBits < shift then .error .integerOverflow
    else
      let val' := val ||| (highBits <<< shift)
      if b &&& 0x80 = 0 then .ok (val', rest)
      else decodeVarintGo w val' (shift + 7) rest

/-- Varint decoding of an unsigned integer of bit width `w` (32 for `u32`,
64 for `u64` and for `usize` on a 64-bit target). -/
def decodeVarint (w : Nat) (src : List Nat) :
    Except DecodingError (Nat × List Nat) :=
  decodeVarintGo w 0 0 src

/-- Byte-string encoding (`impl Encode for &[u8]`): varint length prefix,
then the raw bytes. -/
def encodeBytes (bs : List Nat) : List Nat := encodeVarint bs.length ++ bs

/-- Byte-string decoding (`impl Decode for &[u8]`): varint length (as
`usize`, width 64), then that many raw bytes. -/
def decodeBytes (src : List Nat) :
    Except DecodingError (List Nat × List Nat) := do
  let (len, s1) ← decodeVarint 64 src
  readBytes len s1

/-- Continuation byte of a UTF-8 sequence. -/
def isCont (b : Nat) : Bool := 0x80 ≤ b && b ≤ 0xBF

/-- UTF-8 validity of a byte list, following the table used by
`str::from_utf8` (RFC 3629 well-formed sequences). -/
def validUtf8 : List Nat → Bool
  | [] => true
  | b :: rest =>
    if b ≤ 0x7F then validUtf8 rest
    else if 0xC2 ≤ b && b ≤ 0xDF then
      match rest with
      | c1 :: r => isCont c1 && validUtf8 r
      | [] => false
    else if 0xE0 ≤ b && b ≤ 0xEF then
      match rest with
      | c1 :: c2 :: r =>
        (if b = 0xE0 then decide (0xA0 ≤ c1 ∧ c1 ≤ 0xBF)
         else if b = 0xED then decide (0x80 ≤ c1 ∧ c1 ≤ 0x9F)
         else isCont c1) && isCont c2 && validUtf8 r
      | _ => false
    else if 0xF0 ≤ b && b ≤ 0xF4 then
      match rest with
      | c1 :: c2 :: c3 :: r =>
        (if b = 0xF0 then decide (0x90 ≤ c1 ∧ c1 ≤ 0xBF)
         else if b = 0xF4 then decide (0x80 ≤ c1 ∧ c1 ≤ 0x8F)
         else isCont c1) && isCont c2 && isCont c3 && validUtf8 r
      | _ => false
    else false

/-- String encoding (`impl Encode for &str`): as its UTF-8 bytes. -/
def encodeStr (s : List Nat) : List Nat := encodeBytes s

/-- String decoding (`impl Decode for &str`): decode the byte string, then
validate UTF-8 (`str::from_utf8`), failing with the UTF-8 error. -/
def decodeStr (src : List Nat) :
    Except DecodingError (List Nat × List Nat) := do
  let (bs, rest) ← decodeBytes src
  if validUtf8 bs then .ok (bs, rest) else .error .utf8

/-- Option encoding: tag byte `0x00` for `None`, `0x01` then the payload for
`Some`. -/
def encodeOption (enc : α → List Nat) : Option α → List Nat
  | none => encodeU8 0
  | some v => encodeU8 1 ++ enc v

/-- Option decoding: tag byte, then the payload when the tag is `Some`; any
other tag fails with `UnexpectedVariant`. -/
def decodeOption (dec : List Nat → Except DecodingError (α × List Nat))
    (src : List Nat) : Except DecodingError (Option α × List Nat) := do
  let (tag, s1) ← decodeU8 src
  match tag with
  | 0 => .ok (none, s1)
  | 1 => do
    let (v, s2) ← dec s1
    .ok (some v, s2)
  | _ => .error (.unexpectedVariant tag)

/-- Logging levels (record.rs `Level`). -/
inductive Level where
  | error
  | warn
  | info
  | debug
  | verbose
deriving DecidableEq, Repr

/-- Underlying primitive representation of a level (record.rs
`Level::primitive`). -/
def Level.primitive : Level → Nat
  | .error => 1
  | .warn => 2
  | .info => 3
  | .debug => 4
  | .verbose => 5

/-- Level from its primitive representation (record.rs
`Level::from_primitive`). -/
def Level.fromPrimitive : Nat → Option Level
  | 1 => some .error
  | 2 => some .warn
  | 3 => some .info
  | 4 => some .debug
  | 5 => some .verbose
  | _ => none

/-- Level encoding: its primitive byte. -/
def encodeLevel (l : Level) : List Nat := encodeU8 l.primitive

/-- Level decoding: one byte through `from_primitive`, unknown bytes fail
with `UnexpectedVariant`. -/
def decodeLevel (src : List Nat) : Except DecodingError (Level × List Nat) := do
  let (b, s1) ← decodeU8 src
  match Level.fromPrimitive b with
  | some l => .ok (l, s1)
  | none => .error (.unexpectedVariant b)

/-- Model of `chrono::DateTime<Utc>`: whole seconds since the Unix epoch and
the sub-second nanoseconds (0 ≤ nsecs < 2·10⁹, values ≥ 10⁹ representing a
leap second). -/
structure DateTime where
  secs : Int
  nsecs : Nat
deriving DecidableEq, Repr

/-- Timestamp of `chrono::DateTime::<Utc>::MIN_UTC`. -/
def minDateTimeSecs : Int := -8334601228800

/-- Timestamp of `chrono::DateTime::<Utc>::MAX_UTC`. -/
def maxDateTimeSecs : Int := 8210266876799

/-- Model of `chrono::DateTime::from_timestamp`: defined exactly for
in-range seconds and nanoseconds. -/
def fromTimestamp (secs : Int) (nsecs : Nat) : Option DateTime :=
  if minDateTimeSecs ≤ secs ∧ secs ≤ maxDateTimeSecs ∧ nsecs < 2000000000 then
    some ⟨secs, nsecs⟩
  else none

/-- A representable `chrono` datetime. -/
def DateTime.Valid (dt : DateTime) : Prop :=
  minDateTimeSecs ≤ dt.secs ∧ dt.secs ≤ maxDateTimeSecs ∧ dt.nsecs < 2000000000

instance (dt : DateTime) : Decidable dt.Valid := by
  unfold DateTime.Valid; infer_instance

/-- DateTime encoding (codec.rs `impl Encode for DateTime`): the seconds as
a `u64` varint — `timestamp().try_into().unwrap_or(0u64)` clamps negative
timestamps to 0 — then the sub-second nanoseconds as a `u32` varint. -/
def encodeDateTime (dt : DateTime) : List Nat :=
  encodeVarint (if 0 ≤ dt.secs then dt.secs.toNat else 0) ++ encodeVarint dt.nsecs

/-- DateTime decoding (codec.rs `impl Decode for DateTime`): `u64` varint
seconds — failing with `IntegerOverflow` when the value does not fit in an
`i64` — then `u32` varint nanoseconds, then `DateTime::from_timestamp`,
failing with the `DateTime` error when out of range. -/
def decodeDateTime (src : List Nat) :
    Except DecodingError (DateTime × List Nat) := do
  let (secsU, s1) ← decodeVarint 64 src
  if 2 ^ 63 ≤ secsU then .error .integerOverflow
  else do
    let (nsecs, s2) ← decodeVarint 32 s1
    match fromTimestamp (Int.ofNat secsU) nsecs with
    | some dt => .ok (dt, s2)
    | none => .error .dateTime

/-- Model of record.rs `Location`: strings are UTF-8 byte lists. -/
structure Location where
  file : Option (List Nat)
  func : Option (List Nat)
  line : Option Nat
deriving DecidableEq, Repr

/-- Model of record.rs `Meta`. -/
structure Meta where
  level : Level
  datetime : DateTime
  location : Location
  tag : Option (List Nat)
  threadId : Option Nat
deriving DecidableEq, Repr

/-- Model of record.rs `Record`. -/
structure Record where
  meta : Meta
  content : List Nat
deriving DecidableEq, Repr

/-- Derived `Location` encoding: fields in declaration order
(`#[derive(Encode)]`). -/
def encodeLocation (loc : Location) : List Nat :=
  encodeOption encodeStr loc.file ++ encodeOption encodeStr loc.func ++
    encodeOption encodeVarint loc.line

/-- Derived `Location` decoding: fields in declaration order
(`#[derive(Decode)]`). The `line` field is a `u32` varint. -/
def decodeLocation (src : List Nat) :
    Except DecodingError (Location × List Nat) := do
  let (file, s1) ← decodeOption decodeStr src
  let (func, s2) ← decodeOption decodeStr s1
  let (line, s3) ← decodeOption (decodeVarint 32) s2
  .ok (⟨file, func, line⟩, s3)

/-- Derived `Meta` encoding: fields in declaration order. The `thread_id`
field is a `u64` varint. -/
def encodeMeta (m : Meta) : List Nat :=
  encodeLevel m.level ++ encodeDateTime m.datetime ++ encodeLocation m.location ++
    encodeOption encodeStr m.tag ++ encodeOption encodeVarint m.threadId

/-- Derived `Meta` decoding: fields in declaration order. -/
def decodeMeta (src : List Nat) : Except DecodingError (Meta × List Nat) := do
  let (level, s1) ← decodeLevel src
  let (datetime, s2) ← decodeDateTime s1
  let (location, s3) ← decodeLocation s2
  let (tag, s4) ← decodeOption decodeStr s3
  let (threadId, s5) ← decodeOption (decodeVarint 64) s4
  .ok (⟨level, datetime, location, tag, threadId⟩, s5)

/-- Derived `Record` encoding: meta then content. -/
def encodeRecord (r : Record) : List Nat :=
  encodeMeta r.meta ++ encodeStr r.content

/-- Derived `Record` decoding: meta then content. -/
def decodeRecord (src : List Nat) :
    Except DecodingError (Record × List Nat) := do
  let (meta, s1) ← decodeMeta src
  let (content, s2) ← decodeStr s1
  .ok (⟨meta, content⟩, s2)

/-! ## Codec laws -/

/-- The two codec laws for one encoded value: decoding the encoding followed
by any tail returns the value and exactly that tail, and decoding any strict
prefix of the encoding fails with `UnexpectedEnd`. -/
def RoundTrips (dec : List Nat → Except DecodingError (α × List Nat))
    (v : α) (e : List Nat) : Prop :=
  (∀ r, dec (e ++ r) = .ok (v, r)) ∧
  (∀ k, k < e.length → ∃ m, dec (e.take k) = .error (.unexpectedEnd m))

theorem varint_eq_74 (v : Nat) (h : 127 < v) :
    encodeVarint v = ((v &&& 0x7F) ||| 0x80) :: encodeVarint (v >>> 7) := by
  rw [encodeVarint_eq]
  simp [Nat.not_le.2 h]

theorem varint_head_eq (v : Nat) :
    (v &&& 0x7F) ||| 0x80 = v % 128 + 128 := by
  rw [and_127_eq_mod]
  have h2 := lor_shiftLeft_eq_add (v % 128) 1 7 (Nat.mod_lt _ (by norm_num))
  simpa [Nat.shiftLeft_eq] using h2

theorem varint_ws (w v shift : Nat) (h7 : 127 < v) (hv : v < 2 ^ (w - shift)) :
    7 < w - shift := by
  by_contra hc
  push_neg at hc
  have : (2 : Nat) ^ (w - shift) ≤ 2 ^ 7 := Nat.pow_le_pow_right (by norm_num) hc
  omega

theorem varint_head_and127 (v : Nat) :
    ((v &&& 0x7F) ||| 0x80) &&& 0x7F = v % 128 := by
  rw [varint_head_eq, and_127_eq_mod, Nat.add_mod_right]
  omega

theorem varint_head_and128 (v : Nat) :
    ((v &&& 0x7F) ||| 0x80) &&& 0x80 = 128 := by
  rw [varint_head_eq]
  exact add_128_and_128 _ (Nat.mod_lt _ (by norm_num))

theorem varint_shift7 (v : Nat) : v >>> 7 = v / 128 := by
  rw [Nat.shiftRight_eq_div_pow]

theorem varint_tail_lt (w v shift : Nat) (hv : v < 2 ^ (w - shift))
    (hws : 7 < w - shift) : v >>> 7 < 2 ^ (w - (shift + 7)) := by
  rw [varint_shift7, Nat.div_lt_iff_lt_mul (by norm_num : (0:Nat) < 128)]
  have he : (2:Nat) ^ (w - (shift + 7)) * 128 = 2 ^ (w - shift) := by
    have h : w - shift = (w - (shift + 7)) + 7 := by omega
    rw [h, pow_add]
    norm_num
  omega

/-- Decoding loop inverts the varint encoder: with `shift ≤ w`, a remaining
value fitting in the remaining width and an accumulator occupying only the
low `shift` bits, the loop returns the spliced value. -/
theorem decodeVarintGo_encode (w v : Nat) : ∀ (shift val : Nat) (r : List Nat),
    shift ≤ w → v < 2 ^ (w - shift) → val < 2 ^ shift →
    decodeVarintGo w val shift (encodeVarint v ++ r) =
      .ok (val + v * 2 ^ shift, r) := by
  induction v using Nat.strong_induction_on with
  | _ v ih =>
    intro shift val r hsw hv hval
    by_cases h7 : v ≤ 127
    · rw [encodeVarint_eq, if_pos h7, List.singleton_append, decodeVarintGo]
      have hhb : v &&& 0x7F = v := by
        rw [and_127_eq_mod, Nat.mod_eq_of_lt (by omega)]
      have hsz : Nat.size (v &&& 0x7F) ≤ w - shift := by
        rw [hhb]; exact Nat.size_le.2 hv
      rw [if_neg (by omega)]
      have hcont : v &&& 0x80 = 0 := and_128_eq_zero_of_lt v (by omega)
      rw [if_pos hcont, hhb, lor_shiftLeft_eq_add _ _ _ hval]
    · push_neg at h7
      rw [varint_eq_74 v h7, List.cons_append, decodeVarintGo]
      have hmod : v % 128 < 128 := Nat.mod_lt _ (by norm_num)
      have hws : 7 < w - shift := varint_ws w v shift h7 hv
      have hsz : Nat.size (((v &&& 0x7F) ||| 0x80) &&& 0x7F) ≤ 7 := by
        rw [varint_head_and127]; exact Nat.size_le.2 (by norm_num [hmod])
      rw [if_neg (by omega)]
      rw [if_neg (by rw [varint_head_and128]; norm_num)]
      rw [varint_head_and127, lor_shiftLeft_eq_add _ _ _ hval]
      have hval2 : val + v % 128 * 2 ^ shift < 2 ^ (shift + 7) := by
        have he : (2:Nat) ^ (shift + 7) = 2 ^ shift * 128 := by
          rw [pow_add]; norm_num
        have hm : v % 128 * 2 ^ shift ≤ 127 * 2 ^ shift :=
          Nat.mul_le_mul_right _ (by omega)
        have hp : (0:Nat) < 2 ^ shift := Nat.pos_pow_of_pos _ (by norm_num)
        nlinarith
      rw [ih (v >>> 7) (by rw [varint_shift7]; omega) (shift + 7)
        (val + v % 128 * 2 ^ shift) r (by omega) (varint_tail_lt w v shift hv hws)
        hval2]
      have harith : val + v % 128 * 2 ^ shift + v >>> 7 * 2 ^ (shift + 7) =
          val + v * 2 ^ shift := by
        rw [varint_shift7, pow_add]
        have h128 : (2:Nat) ^ 7 = 128 := by norm_num
        nlinarith [Nat.div_add_mod v 128]
      rw [harith]

/-- Decoding any strict prefix of a varint encoding fails with
`UnexpectedEnd`. -/
theorem decodeVarintGo_take (w v : Nat) : ∀ (shift val k : Nat),
    shift ≤ w → v < 2 ^ (w - shift) → k < (encodeVarint v).length →
    decodeVarintGo w val shift ((encodeVarint v).take k) =
      .error (.unexpectedEnd 1) := by
  induction v using Nat.strong_induction_on with
  | _ v ih =>
    intro shift val k hsw hv hk
    by_cases h7 : v ≤ 127
    · rw [encodeVarint_eq, if_pos h7] at hk ⊢
      have hk0 : k = 0 := by simpa [Nat.lt_one_iff] using hk
      subst hk0
      rfl
    · push_neg at h7
      rw [varint_eq_74 v h7] at hk ⊢
      cases k with
      | zero => rfl
      | succ j =>
        rw [List.take_succ_cons, decodeVarintGo]
        have hmod : v % 128 < 128 := Nat.mod_lt _ (by norm_num)
        have hws : 7 < w - shift := varint_ws w v shift h7 hv
        have hsz : Nat.size (((v &&& 0x7F) ||| 0x80) &&& 0x7F) ≤ 7 := by
          rw [varint_head_and127]; exact Nat.size_le.2 (by norm_num [hmod])
        rw [if_neg (by omega)]
        rw [if_neg (by rw [varint_head_and128]; norm_num)]
        exact ih (v >>> 7) (by rw [varint_shift7]; omega) (shift + 7) _ j
          (by omega) (varint_tail_lt w v shift hv hws) (by simpa using hk)

/-- Codec laws for the varint encoding of a `w`-bit unsigned integer. -/
theorem roundTrips_varint (w v : Nat) (hv : v < 2 ^ w) :
    RoundTrips (decodeVarint w) v (encodeVarint v) := by
  constructor
  · intro r
    have := decodeVarintGo_encode w v 0 0 r (Nat.zero_le _) (by simpa using hv)
      (by norm_num)
    simpa [decodeVarint] using this
  · intro k hk
    exact ⟨1, decodeVarintGo_take w v 0 0 k (Nat.zero_le _) (by simpa using hv) hk⟩

/-- Reduction of `Except` bind on a success value. -/
theorem ebind_ok {α β : Type} (x : α) (f : α → Except DecodingError β) :
    (Except.ok x >>= f) = f x := rfl

/-- Reduction of `Except` bind on an error value. -/
theorem ebind_error {α β : Type} (e : DecodingError)
    (f : α → Except DecodingError β) :
    ((Except.error e : Except DecodingError α) >>= f) = .error e := rfl

theorem decodeU8_cons (b : Nat) (rest : List Nat) :
    decodeU8 (b :: rest) = .ok (b, rest) := by
  simp [decodeU8, readBytes]

theorem decodeU8_nil : decodeU8 [] = .error (.unexpectedEnd 1) := rfl

/-- Sequencing preserves the codec laws: decode a first value, then continue
with a decoder that may depend on it. -/
theorem RoundTrips.bindStep {α β : Type}
    {dec₁ : List Nat → Except DecodingError (α × List Nat)}
    {g : α → List Nat → Except DecodingError (β × List Nat)}
    {v₁ : α} {e₁ : List Nat} {v₂ : β} {e₂ : List Nat}
    (h₁ : RoundTrips dec₁ v₁ e₁) (h₂ : RoundTrips (g v₁) v₂ e₂) :
    RoundTrips (fun src => do
      let (a, s) ← dec₁ src
      g a s) v₂ (e₁ ++ e₂) := by
  constructor
  · intro r
    show (do
      let (a, s) ← dec₁ (e₁ ++ e₂ ++ r)
      g a s) = _
    rw [List.append_assoc, h₁.1 (e₂ ++ r)]
    exact h₂.1 r
  · intro k hk
    by_cases hke : k < e₁.length
    · obtain ⟨m, hm⟩ := h₁.2 k hke
      refine ⟨m, ?_⟩
      show (do
        let (a, s) ← dec₁ ((e₁ ++ e₂).take k)
        g a s) = _
      rw [List.take_append_of_le_length (by omega), hm]
      rfl
    · push_neg at hke
      obtain ⟨j, rfl⟩ : ∃ j, k = e₁.length + j := ⟨k - e₁.length, by omega⟩
      have hj : j < e₂.length := by
        simp at hk
        omega
      obtain ⟨m, hm⟩ := h₂.2 j hj
      refine ⟨m, ?_⟩
      show (do
        let (a, s) ← dec₁ ((e₁ ++ e₂).take (e₁.length + j))
        g a s) = _
      rw [List.take_append, h₁.1 (e₂.take j)]
      exact hm

/-- A decoder that consumes nothing and returns a fixed value satisfies the
codec laws with the empty encoding. -/
theorem RoundTrips.pureStep {β : Type} (f : β) :
    RoundTrips (fun s => (.ok (f, s) : Except DecodingError (β × List Nat)))
      f [] :=
  ⟨fun _ => rfl, fun k hk => by simp at hk⟩

/-- Codec laws for `u8`. -/
theorem roundTrips_u8 (v : Nat) : RoundTrips decodeU8 v (encodeU8 v) := by
  constructor
  · intro r
    simp [decodeU8, encodeU8, readBytes]
  · intro k hk
    simp [encodeU8] at hk
    subst hk
    exact ⟨1, rfl⟩

/-- Codec laws for raw fixed-length reads. -/
theorem roundTrips_readBytes (bs : List Nat) :
    RoundTrips (readBytes bs.length) bs bs := by
  constructor
  · intro r
    simp [readBytes]
  · intro k hk
    refine ⟨bs.length - k, ?_⟩
    have hlen : (bs.take k).length = k := by simp; omega
    simp [readBytes, hlen]
    omega

/-- Codec laws for the length-prefixed byte string. -/
theorem roundTrips_bytes (bs : List Nat) (hlen : bs.length < 2 ^ 64) :
    RoundTrips decodeBytes bs (encodeBytes bs) := by
  unfold decodeBytes encodeBytes
  exact RoundTrips.bindStep (roundTrips_varint 64 bs.length hlen)
    (roundTrips_readBytes bs)

/-- Codec laws for UTF-8 strings: the byte string laws plus validation. -/
theorem roundTrips_str (s : List Nat) (hv : validUtf8 s = true)
    (hlen : s.length < 2 ^ 64) : RoundTrips decodeStr s (encodeStr s) := by
  have hb := roundTrips_bytes s hlen
  constructor
  · intro r
    show (do
      let (bs, rest) ← decodeBytes (encodeStr s ++ r)
      if validUtf8 bs then (.ok (bs, rest) : Except DecodingError _)
      else .error .utf8) = _
    rw [show encodeStr s = encodeBytes s from rfl, hb.1 r, ebind_ok]
    simp [hv]
  · intro k hk
    obtain ⟨m, hm⟩ := hb.2 k hk
    refine ⟨m, ?_⟩
    show (do
      let (bs, rest) ← decodeBytes ((encodeStr s).take k)
      if validUtf8 bs then (.ok (bs, rest) : Except DecodingError _)
      else .error .utf8) = _
    rw [show encodeStr s = encodeBytes s from rfl, hm]
    rfl

/-- Codec laws for `Option`: `None` is the single tag byte 0. -/
theorem roundTrips_option_none {α : Type}
    (dec : List Nat → Except DecodingError (α × List Nat))
    (enc : α → List Nat) :
    RoundTrips (decodeOption dec) (none : Option α) (encodeOption enc none) := by
  constructor
  · intro r
    show decodeOption dec ([0] ++ r) = _
    simp only [List.singleton_append]
    simp only [decodeOption, decodeU8_cons, ebind_ok]
  · intro k hk
    simp [encodeOption, encodeU8] at hk
    subst hk
    exact ⟨1, rfl⟩

/-- Codec laws for `Option`: `Some v` is tag byte 1 followed by the payload
encoding. -/
theorem roundTrips_option_some {α : Type}
    {dec : List Nat → Except DecodingError (α × List Nat)}
    {enc : α → List Nat} {v : α} (h : RoundTrips dec v (enc v)) :
    RoundTrips (decodeOption dec) (some v) (encodeOption enc (some v)) := by
  constructor
  · intro r
    show decodeOption dec (([1] ++ enc v) ++ r) = _
    simp only [List.singleton_append, List.cons_append, List.nil_append]
    simp only [decodeOption, decodeU8_cons, ebind_ok]
    rw [h.1 r]
    rfl
  · intro k hk
    cases k with
    | zero => exact ⟨1, rfl⟩
    | succ j =>
      have hj : j < (enc v).length := by
        simpa [encodeOption, encodeU8] using hk
      obtain ⟨m, hm⟩ := h.2 j hj
      refine ⟨m, ?_⟩
      show decodeOption dec (((1 :: enc v) : List Nat).take (j + 1)) = _
      rw [List.take_succ_cons]
      simp only [decodeOption, decodeU8_cons, ebind_ok]
      rw [hm]
      rfl

/-- Codec laws for `Level`. -/
theorem roundTrips_level (l : Level) :
    RoundTrips decodeLevel l (encodeLevel l) := by
  constructor
  · intro r
    show decodeLevel (encodeU8 l.primitive ++ r) = _
    simp only [encodeU8, List.singleton_append]
    simp only [decodeLevel, decodeU8_cons, ebind_ok]
    cases l <;> rfl
  · intro k hk
    simp [encodeLevel, encodeU8] at hk
    subst hk
    exact ⟨1, rfl⟩

/-- Codec laws for `DateTime`, for representable datetimes with nonnegative
timestamps (the encoder clamps negative timestamps to 0, so only
nonnegative ones round-trip). -/
theorem roundTrips_datetime (dt : DateTime) (hval : dt.Valid)
    (hnn : 0 ≤ dt.secs) : RoundTrips decodeDateTime dt (encodeDateTime dt) := by
  obtain ⟨hmin, hmax, hns⟩ := hval
  have hsecs : dt.secs.toNat < 2 ^ 63 := by
    have h64 : (maxDateTimeSecs : Int) < 2 ^ 63 := by norm_num [maxDateTimeSecs]
    omega
  have hns32 : dt.nsecs < 2 ^ 32 := by omega
  have h1 := roundTrips_varint 64 dt.secs.toNat (by
    have h2p : (2:Nat) ^ 63 < 2 ^ 64 := by norm_num
    omega)
  have h2 := roundTrips_varint 32 dt.nsecs hns32
  have henc : encodeDateTime dt =
      encodeVarint dt.secs.toNat ++ encodeVarint dt.nsecs := by
    simp [encodeDateTime, if_pos hnn]
  have hts : fromTimestamp (Int.ofNat dt.secs.toNat) dt.nsecs = some dt := by
    have hto : (Int.ofNat dt.secs.toNat) = dt.secs := Int.toNat_of_nonneg hnn
    rw [hto]
    simp only [fromTimestamp, if_pos (show _ ∧ _ ∧ _ from ⟨hmin, hmax, hns⟩)]
  rw [henc]
  constructor
  · intro r
    simp only [decodeDateTime, List.append_assoc]
    rw [h1.1 (encodeVarint dt.nsecs ++ r)]
    simp only [ebind_ok]
    rw [if_neg (by omega), h2.1 r]
    simp only [ebind_ok]
    rw [hts]
  · intro k hk
    by_cases hke : k < (encodeVarint dt.secs.toNat).length
    · obtain ⟨m, hm⟩ := h1.2 k hke
      refine ⟨m, ?_⟩
      simp only [decodeDateTime]
      rw [List.take_append_of_le_length (by omega), hm]
      rfl
    · push_neg at hke
      obtain ⟨j, rfl⟩ : ∃ j, k = (encodeVarint dt.secs.toNat).length + j :=
        ⟨k - (encodeVarint dt.secs.toNat).length, by omega⟩
      have hj : j < (encodeVarint dt.nsecs).length := by
        simp at hk
        omega
      obtain ⟨m, hm⟩ := h2.2 j hj
      refine ⟨m, ?_⟩
      simp only [decodeDateTime]
      rw [List.take_append, h1.1 ((encodeVarint dt.nsecs).take j)]
      simp only [ebind_ok]
      rw [if_neg (by omega), hm]
      rfl

/-! ## Representable values -/

/-- A representable `&str` value: valid UTF-8 whose length fits a `usize`. -/
def WFStr (s : List Nat) : Prop := validUtf8 s = true ∧ s.length < 2 ^ 64

instance (s : List Nat) : Decidable (WFStr s) := by
  unfold WFStr; infer_instance

/-- Representable optional string. -/
def WFOptStr : Option (List Nat) → Prop
  | none => True
  | some s => WFStr s

instance (o : Option (List Nat)) : Decidable (WFOptStr o) := by
  cases o <;> unfold WFOptStr <;> infer_instance

/-- Representable `Location`: the `line` field is a `u32`. -/
def Location.WF (loc : Location) : Prop :=
  WFOptStr loc.file ∧ WFOptStr loc.func ∧ ∀ n ∈ loc.line, n < 2 ^ 32

instance (loc : Location) : Decidable loc.WF := by
  unfold Location.WF; infer_instance

/-- Representable `Meta`: the `thread_id` field is a `u64`. -/
def Meta.WF (m : Meta) : Prop :=
  m.datetime.Valid ∧ m.location.WF ∧ WFOptStr m.tag ∧ ∀ n ∈ m.threadId, n < 2 ^ 64

instance (m : Meta) : Decidable m.WF := by
  unfold Meta.WF; infer_instance

/-- Representable `Record`. -/
def Record.WF (r : Record) : Prop := r.meta.WF ∧ WFStr r.content

instance (r : Record) : Decidable r.WF := by
  unfold Record.WF; infer_instance

theorem roundTrips_optStr (o : Option (List Nat)) (h : WFOptStr o) :
    RoundTrips (decodeOption decodeStr) o (encodeOption encodeStr o) := by
  cases o with
  | none => exact roundTrips_option_none _ _
  | some s => exact roundTrips_option_some (roundTrips_str s h.1 h.2)

theorem roundTrips_optVarint (w : Nat) (o : Option Nat)
    (h : ∀ n ∈ o, n < 2 ^ w) :
    RoundTrips (decodeOption (decodeVarint w)) o (encodeOption encodeVarint o) := by
  cases o with
  | none => exact roundTrips_option_none _ _
  | some n => exact roundTrips_option_some (roundTrips_varint w n (h n rfl))

/-- Codec laws for `Location`. -/
theorem roundTrips_location (loc : Location) (hwf : loc.WF) :
    RoundTrips decodeLocation loc (encodeLocation loc) := by
  obtain ⟨file, func, line⟩ := loc
  obtain ⟨hf, hfn, hl⟩ := hwf
  have h1 := roundTrips_optStr file hf
  have h2 := roundTrips_optStr func hfn
  have h3 := roundTrips_optVarint 32 line hl
  have hmain : RoundTrips decodeLocation (⟨file, func, line⟩ : Location)
      (encodeOption encodeStr file ++ (encodeOption encodeStr func ++
        (encodeOption encodeVarint line ++ []))) := by
    unfold decodeLocation
    refine RoundTrips.bindStep
      (g := fun file s1 => do
        let (func, s2) ← decodeOption decodeStr s1
        let (line, s3) ← decodeOption (decodeVarint 32) s2
        (Except.ok (⟨file, func, line⟩, s3) :
          Except DecodingError (Location × List Nat))) h1 ?_
    refine RoundTrips.bindStep
      (g := fun func s2 => do
        let (line, s3) ← decodeOption (decodeVarint 32) s2
        (Except.ok (⟨file, func, line⟩, s3) :
          Except DecodingError (Location × List Nat))) h2 ?_
    refine RoundTrips.bindStep
      (g := fun line s3 =>
        (Except.ok (⟨file, func, line⟩, s3) :
          Except DecodingError (Location × List Nat))) h3 ?_
    exact RoundTrips.pureStep _
  simpa [encodeLocation, List.append_assoc] using hmain

/-- Codec laws for `Meta`. -/
theorem roundTrips_meta (m : Meta) (hwf : m.WF) (hnn : 0 ≤ m.datetime.secs) :
    RoundTrips decodeMeta m (encodeMeta m) := by
  obtain ⟨level, datetime, location, tag, threadId⟩ := m
  obtain ⟨hdt, hloc, htag, htid⟩ := hwf
  have h1 := roundTrips_level level
  have h2 := roundTrips_datetime datetime hdt hnn
  have h3 := roundTrips_location location hloc
  have h4 := roundTrips_optStr tag htag
  have h5 := roundTrips_optVarint 64 threadId htid
  have hmain : RoundTrips decodeMeta
      (⟨level, datetime, location, tag, threadId⟩ : Meta)
      (encodeLevel level ++ (encodeDateTime datetime ++ (encodeLocation location ++
        (encodeOption encodeStr tag ++ (encodeOption encodeVarint threadId ++ []))))) := by
    unfold decodeMeta
    refine RoundTrips.bindStep
      (g := fun level s1 => do
        let (datetime, s2) ← decodeDateTime s1
        let (location, s3) ← decodeLocation s2
        let (tag, s4) ← decodeOption decodeStr s3
        let (threadId, s5) ← decodeOption (decodeVarint 64) s4
        (Except.ok (⟨level, datetime, location, tag, threadId⟩, s5) :
          Except DecodingError (Meta × List Nat))) h1 ?_
    refine RoundTrips.bindStep
      (g := fun datetime s2 => do
        let (location, s3) ← decodeLocation s2
        let (tag, s4) ← decodeOption decodeStr s3
        let (threadId, s5) ← decodeOption (decodeVarint 64) s4
        (Except.ok (⟨level, datetime, location, tag, threadId⟩, s5) :
          Except DecodingError (Meta × List Nat))) h2 ?_
    refine RoundTrips.bindStep
      (g := fun location s3 => do
        let (tag, s4) ← decodeOption decodeStr s3
        let (threadId, s5) ← decodeOption (decodeVarint 64) s4
        (Except.ok (⟨level, datetime, location, tag, threadId⟩, s5) :
          Except DecodingError (Meta × List Nat))) h3 ?_
    refine RoundTrips.bindStep
      (g := fun tag s4 => do
        let (threadId, s5) ← decodeOption (decodeVarint 64) s4
        (Except.ok (⟨level, datetime, location, tag, threadId⟩, s5) :
          Except DecodingError (Meta × List Nat))) h4 ?_
    refine RoundTrips.bindStep
      (g := fun threadId s5 =>
        (Except.ok (⟨level, datetime, location, tag, threadId⟩, s5) :
          Except DecodingError (Meta × List Nat))) h5 ?_
    exact RoundTrips.pureStep _
  simpa [encodeMeta, List.append_assoc] using hmain

/-- Codec laws for `Record`. -/
theorem roundTrips_record (r : Record) (hwf : r.WF) (hnn : 0 ≤ r.meta.datetime.secs) :
    RoundTrips decodeRecord r (encodeRecord r) := by
  obtain ⟨meta, content⟩ := r
  obtain ⟨hm, hc⟩ := hwf
  have h1 := roundTrips_meta meta hm hnn
  have h2 := roundTrips_str content hc.1 hc.2
  have hmain : RoundTrips decodeRecord (⟨meta, content⟩ : Record)
      (encodeMeta meta ++ (encodeStr content ++ [])) := by
    unfold decodeRecord
    refine RoundTrips.bindStep
      (g := fun meta s1 => do
        let (content, s2) ← decodeStr s1
        (Except.ok (⟨meta, content⟩, s2) :
          Except DecodingError (Record × List Nat))) h1 ?_
    refine RoundTrips.bindStep
      (g := fun content s2 =>
        (Except.ok (⟨meta, content⟩, s2) :
          Except DecodingError (Record × List Nat))) h2 ?_
    exact RoundTrips.pureStep _
  simpa [encodeRecord, List.append_assoc] using hmain

/-! ## Fixed byte arrays

codec.rs implements `Encode for &[u8; N]` via `self.as_slice().encode(sink)`,
which is the length-prefixed byte-string encoding, while `Decode for &[u8; N]`
reads exactly `N` raw bytes with no prefix. -/

/-- Fixed array encoding (`impl Encode for &[u8; N]`): `as_slice()` routes to
the length-prefixed `&[u8]` encoder. -/
def encodeByteArray (bs : List Nat) : List Nat := encodeBytes bs

/-- Fixed array decoding (`impl Decode for &[u8; N]`): exactly `n` raw
bytes. -/
def decodeByteArray (n : Nat) (src : List Nat) :
    Except DecodingError (List Nat × List Nat) :=
  readBytes n src

/-- The prefix half of the codec laws, as the spec phrases it: whenever the
input starts with a valid encoding, decoding succeeds and re-encoding the
result (followed by the unconsumed tail) reproduces the input, i.e. the
re-encoding is a prefix of the input. -/
def PrefixLaw {α : Type} (dec : List Nat → Except DecodingError (α × List Nat))
    (enc : α → List Nat) (P : α → Prop) : Prop :=
  ∀ v rest, P v →
    ∃ w rest2, dec (enc v ++ rest) = .ok (w, rest2) ∧ enc w ++ rest2 = enc v ++ rest

theorem prefixLaw_of_roundTrips {α : Type}
    {dec : List Nat → Except DecodingError (α × List Nat)}
    {enc : α → List Nat} {P : α → Prop}
    (h : ∀ v, P v → RoundTrips dec v (enc v)) : PrefixLaw dec enc P :=
  fun v rest hp => ⟨v, rest, (h v hp).1 rest, rfl⟩

/-- Sample record used by concrete witnesses. -/
def sampleRecord : Record :=
  { meta :=
      { level := .info
        datetime := { secs := 1700000000, nsecs := 123 }
        location := { file := some [109, 97, 105, 110], func := none, line := some 7 }
        tag := some [116]
        threadId := some 42 }
    content := [104, 105] }

/-- C2 counterexample helper: the pre-1970 datetime one second before the
epoch. -/
def negDateTime : DateTime := { secs := -1, nsecs := 0 }

/-- C2: the claim fails as stated, at two of the listed codec types.
A `DateTime` with a negative (pre-1970) timestamp is clamped to 0 by the
encoder, so decoding its encoding returns the epoch instead of the value;
and the fixed byte array codec does not round-trip at all: its encoder
length-prefixes (via `as_slice()`), while its decoder reads raw `N` bytes. -/
theorem C2_counterexample :
    (decodeDateTime (encodeDateTime negDateTime) = .ok (⟨0, 0⟩, []) ∧
      negDateTime ≠ ⟨0, 0⟩ ∧ negDateTime.Valid) ∧
    (encodeByteArray [7, 9] = [2, 7, 9] ∧
      decodeByteArray 2 (encodeByteArray [7, 9]) = .ok ([2, 7], [9]) ∧
      ([2, 7] : List Nat) ≠ [7, 9]) := by
  constructor
  · refine ⟨by decide, by decide, by decide⟩
  · exact ⟨by decide, by decide, by decide⟩

/-- C2 (amended): for every representable value of each codec type —
`u8`, `u32`, `u64`/`usize`, byte string, UTF-8 string, `Option<T>` at the
payload types the records use, `Level`, and the derived structs `Location`,
`Meta`, `Record`, and with `DateTime` restricted to nonnegative (post-epoch)
timestamps — `decode (encode v ++ rest) = ok (v, rest)`, and whenever input
bytes start with a valid encoding, re-encoding the decoded value is a prefix
of the input. The fixed byte array codec is excluded: its encoder and
decoder disagree (see the counterexample). -/
theorem C2_codec_roundtrip :
    (∀ v, v < 2 ^ 8 → RoundTrips decodeU8 v (encodeU8 v)) ∧
    (∀ v, v < 2 ^ 32 → RoundTrips (decodeVarint 32) v (encodeVarint v)) ∧
    (∀ v, v < 2 ^ 64 → RoundTrips (decodeVarint 64) v (encodeVarint v)) ∧
    (∀ bs : List Nat, bs.length < 2 ^ 64 → RoundTrips decodeBytes bs (encodeBytes bs)) ∧
    (∀ s, WFStr s → RoundTrips decodeStr s (encodeStr s)) ∧
    (∀ o, WFOptStr o → RoundTrips (decodeOption decodeStr) o (encodeOption encodeStr o)) ∧
    (∀ w o, (∀ n ∈ o, n < 2 ^ w) →
      RoundTrips (decodeOption (decodeVarint w)) o (encodeOption encodeVarint o)) ∧
    (∀ l : Level, RoundTrips decodeLevel l (encodeLevel l)) ∧
    (∀ dt : DateTime, dt.Valid → 0 ≤ dt.secs →
      RoundTrips decodeDateTime dt (encodeDateTime dt)) ∧
    (∀ loc : Location, loc.WF → RoundTrips decodeLocation loc (encodeLocation loc)) ∧
    (∀ m : Meta, m.WF → 0 ≤ m.datetime.secs → RoundTrips decodeMeta m (encodeMeta m)) ∧
    (∀ r : Record, r.WF → 0 ≤ r.meta.datetime.secs →
      RoundTrips decodeRecord r (encodeRecord r)) ∧
    PrefixLaw decodeRecord encodeRecord
      (fun r => r.WF ∧ 0 ≤ r.meta.datetime.secs) ∧
    PrefixLaw decodeDateTime encodeDateTime
      (fun dt => dt.Valid ∧ 0 ≤ dt.secs) ∧
    PrefixLaw decodeStr encodeStr WFStr := by
  refine ⟨fun v _ => roundTrips_u8 v, roundTrips_varint 32, roundTrips_varint 64,
    roundTrips_bytes, fun s h => roundTrips_str s h.1 h.2, roundTrips_optStr,
    roundTrips_optVarint, roundTrips_level, roundTrips_datetime,
    roundTrips_location, roundTrips_meta, roundTrips_record,
    prefixLaw_of_roundTrips (fun r h => roundTrips_record r h.1 h.2),
    prefixLaw_of_roundTrips (fun dt h => roundTrips_datetime dt h.1 h.2),
    prefixLaw_of_roundTrips (fun s h => roundTrips_str s h.1 h.2)⟩

/-- C2 witness: the amended theorem applied to the concrete sample record
and a concrete `u32`. -/
theorem C2_witness :
    decodeRecord (encodeRecord sampleRecord ++ [9]) = .ok (sampleRecord, [9]) ∧
    decodeVarint 32 (encodeVarint 300) = .ok (300, []) := by
  constructor
  · exact (C2_codec_roundtrip.2.2.2.2.2.2.2.2.2.2.2.1 sampleRecord (by decide)
      (by decide)).1 [9]
  · have h := (C2_codec_roundtrip.2.1 300 (by norm_num)).1 []
    simpa using h

/-! ## Logfile names (src/pinenut/src/logfile.rs)

File names are modelled as `List Char`. `Logfile::name` renders
`<identifier>-<unix_seconds>.pine`; `Logfile::from_entry` parses a directory
entry name back, using `Path::extension` / `Path::file_stem` semantics and
`str::split_once` (which splits at the FIRST separator occurrence). -/

/-- The `pine` log file extension (lib.rs `FILE_EXTENSION`). -/
def pineExt : List Char := ['p', 'i', 'n', 'e']

/-- Index of the last occurrence of a character. -/
def lastIdxOf (c : Char) : List Char → Option Nat
  | [] => none
  | x :: xs =>
    match lastIdxOf c xs with
    | some i => some (i + 1)
    | none => if x = c then some 0 else none

/-- `Path::file_stem` and `Path::extension` of a bare file name: split at the
last `.`; a name without a dot, or whose only dot leads, has no extension. -/
def fileStemExt (name : List Char) : List Char × Option (List Char) :=
  match lastIdxOf '.' name with
  | none => (name, none)
  | some 0 => (name, none)
  | some (i + 1) => (name.take (i + 1), some (name.drop (i + 2)))

/-- `str::split_once`: split at the first occurrence of the separator. -/
def splitOnce (c : Char) : List Char → Option (List Char × List Char)
  | [] => none
  | x :: xs =>
    if x = c then some ([], xs)
    else
      match splitOnce c xs with
      | some (a, b) => some (x :: a, b)
      | none => none

/-- Numeric value of an ASCII digit character. -/
def digitVal (c : Char) : Option Nat :=
  if '0' ≤ c ∧ c ≤ '9' then some (c.toNat - 48) else none

def parseDigitsGo (acc : Nat) : List Char → Option Nat
  | [] => some acc
  | c :: rest =>
    match digitVal c with
    | some d => parseDigitsGo (acc * 10 + d) rest
    | none => none

/-- Digit-string parsing: at least one character, all ASCII digits. -/
def parseDigits : List Char → Option Nat
  | [] => none
  | s => parseDigitsGo 0 s

/-- Model of `str::parse::<i64>()`: optional sign, one or more digits, and
the value must fit an `i64`. -/
def parseI64 (s : List Char) : Option Int :=
  match s with
  | [] => none
  | c :: rest =>
    if c = '-' then
      match parseDigits rest with
      | some n => if n ≤ 2 ^ 63 then some (-(n : Int)) else none
      | none => none
    else if c = '+' then
      match parseDigits rest with
      | some n => if n ≤ 2 ^ 63 - 1 then some (n : Int) else none
      | none => none
    else
      match parseDigits s with
      | some n => if n ≤ 2 ^ 63 - 1 then some (n : Int) else none
      | none => none

/-- Decimal digits of a natural number, most significant first. The
structural bound `fuel` is never exhausted above `n` since `n / 10 < n`. -/
def natDigitsF : Nat → Nat → List Char
  | 0, _ => []
  | fuel + 1, n =>
    if n < 10 then [Char.ofNat (48 + n)]
    else natDigitsF fuel (n / 10) ++ [Char.ofNat (48 + n % 10)]

def natDigits (n : Nat) : List Char := natDigitsF (n + 1) n

/-- Decimal rendering of an `i64` (`std::fmt::Display`). -/
def intToChars (i : Int) : List Char :=
  if i < 0 then '-' :: natDigits i.natAbs else natDigits i.toNat

/-- logfile.rs `Logfile::name`:
`format!("{identifier}-{timestamp}.pine")`. -/
def logfileName (identifier : List Char) (timestampSecs : Int) : List Char :=
  identifier ++ ['-'] ++ intToChars timestampSecs ++ ('.' :: pineExt)

/-- logfile.rs `Logfile::from_entry`: ignore entries whose extension is not
the log extension; split the stem with `split_once("-")`; reject on
identifier mismatch; parse the remainder as `i64` seconds and build the
datetime with `DateTime::from_timestamp(secs, 0)`. -/
def fromEntry (fileName : List Char) (identifier : List Char) :
    Option DateTime :=
  let (stem, ext) := fileStemExt fileName
  if ext ≠ some pineExt then none
  else
    match splitOnce '-' stem with
    | none => none
    | some (id1, tsStr) =>
      if id1 ≠ identifier then none
      else
        match parseI64 tsStr with
        | none => none
        | some ts => fromTimestamp ts 0

theorem lastIdxOf_append (c : Char) (xs ys : List Char) :
    lastIdxOf c (xs ++ ys) =
      match lastIdxOf c ys with
      | some i => some (xs.length + i)
      | none => lastIdxOf c xs := by
  induction xs with
  | nil =>
    cases h : lastIdxOf c ys <;> simp [h, lastIdxOf]
  | cons x xs ih =>
    show lastIdxOf c (x :: (xs ++ ys)) = _
    rw [lastIdxOf, ih]
    cases h : lastIdxOf c ys with
    | some i => simp [Nat.add_assoc, Nat.add_comm 1 i]
    | none => cases h2 : lastIdxOf c xs <;> simp [lastIdxOf, h2]

theorem lastIdxOf_eq_none (c : Char) (xs : List Char) (h : c ∉ xs) :
    lastIdxOf c xs = none := by
  induction xs with
  | nil => rfl
  | cons x xs ih =>
    simp only [List.mem_cons, not_or] at h
    rw [lastIdxOf, ih h.2]
    show (if x = c then (some 0 : Option Nat) else none) = none
    rw [if_neg (fun he => h.1 he.symm)]

theorem splitOnce_sep (id rest : List Char) (h : '-' ∉ id) :
    splitOnce '-' (id ++ '-' :: rest) = some (id, rest) := by
  induction id with
  | nil => simp [splitOnce]
  | cons x xs ih =>
    simp only [List.mem_cons, not_or] at h
    show splitOnce '-' (x :: (xs ++ '-' :: rest)) = _
    rw [splitOnce, if_neg (fun he => h.1 he.symm), ih h.2]

theorem parseDigitsGo_append (acc : Nat) (xs ys : List Char) :
    parseDigitsGo acc (xs ++ ys) =
      match parseDigitsGo acc xs with
      | some a => parseDigitsGo a ys
      | none => none := by
  induction xs generalizing acc with
  | nil => rfl
  | cons x xs ih =>
    cases h : digitVal x with
    | some d =>
      have hl : parseDigitsGo acc (x :: (xs ++ ys)) =
          parseDigitsGo (acc * 10 + d) (xs ++ ys) := by
        rw [parseDigitsGo, h]
      have hr : parseDigitsGo acc (x :: xs) =
          parseDigitsGo (acc * 10 + d) xs := by
        rw [parseDigitsGo, h]
      show parseDigitsGo acc (x :: (xs ++ ys)) = _
      rw [hl, hr, ih]
    | none =>
      have hl : parseDigitsGo acc (x :: (xs ++ ys)) = none := by
        rw [parseDigitsGo, h]
      have hr : parseDigitsGo acc (x :: xs) = none := by
        rw [parseDigitsGo, h]
      show parseDigitsGo acc (x :: (xs ++ ys)) = _
      rw [hl, hr]

theorem digitVal_ofNat (n : Nat) (h : n < 10) :
    digitVal (Char.ofNat (48 + n)) = some n := by
  interval_cases n <;> decide

theorem natDigitsF_digits (fuel : Nat) : ∀ n c, n < fuel →
    c ∈ natDigitsF fuel n → 48 ≤ c.toNat ∧ c.toNat ≤ 57 := by
  induction fuel with
  | zero => intro n c h; omega
  | succ fuel ih =>
    intro n c h hm
    rw [natDigitsF] at hm
    by_cases h10 : n < 10
    · rw [if_pos h10] at hm
      simp at hm
      subst hm
      interval_cases n <;> decide
    · rw [if_neg h10] at hm
      rcases List.mem_append.1 hm with hm1 | hm2
      · exact ih (n / 10) c (by omega) hm1
      · simp at hm2
        subst hm2
        have hmod : n % 10 < 10 := Nat.mod_lt _ (by norm_num)
        obtain ⟨m, hm⟩ : ∃ m, n % 10 = m := ⟨_, rfl⟩
        rw [hm] at hmod
        rw [hm]
        interval_cases m <;> decide

theorem natDigitsF_ne_nil (fuel n : Nat) (h : n < fuel) :
    natDigitsF fuel n ≠ [] := by
  cases fuel with
  | zero => omega
  | succ fuel =>
    rw [natDigitsF]
    by_cases h10 : n < 10
    · simp [h10]
    · simp [h10]

theorem parseDigitsGo_natDigitsF (fuel : Nat) : ∀ n acc, n < fuel →
    parseDigitsGo acc (natDigitsF fuel n) =
      some (acc * 10 ^ (natDigitsF fuel n).length + n) := by
  induction fuel with
  | zero => intro n acc h; omega
  | succ fuel ih =>
    intro n acc h
    rw [natDigitsF]
    by_cases h10 : n < 10
    · rw [if_pos h10]
      have hl : parseDigitsGo acc [Char.ofNat (48 + n)] =
          parseDigitsGo (acc * 10 + n) [] := by
        conv_lhs => rw [parseDigitsGo]
        rw [digitVal_ofNat n h10]
      rw [hl]
      simp [parseDigitsGo]
    · rw [if_neg h10, parseDigitsGo_append, ih (n / 10) acc (by omega)]
      have hmod : n % 10 < 10 := Nat.mod_lt _ (by norm_num)
      show parseDigitsGo (acc * 10 ^ (natDigitsF fuel (n / 10)).length + n / 10)
        [Char.ofNat (48 + n % 10)] = _
      have hl : parseDigitsGo (acc * 10 ^ (natDigitsF fuel (n / 10)).length + n / 10)
          [Char.ofNat (48 + n % 10)] =
          parseDigitsGo ((acc * 10 ^ (natDigitsF fuel (n / 10)).length + n / 10) * 10
            + n % 10) [] := by
        conv_lhs => rw [parseDigitsGo]
        rw [digitVal_ofNat _ hmod]
      rw [hl]
      show some _ = some (acc * 10 ^ (natDigitsF fuel (n / 10) ++
        [Char.ofNat (48 + n % 10)]).length + n)
      congr 1
      have hlen : (natDigitsF fuel (n / 10) ++ [Char.ofNat (48 + n % 10)]).length =
          (natDigitsF fuel (n / 10)).length + 1 := by simp
      rw [hlen]
      have harith : ∀ q : Nat, (q + n / 10) * 10 + n % 10 = q * 10 + n := by
        intro q
        omega
      calc (acc * 10 ^ (natDigitsF fuel (n / 10)).length + n / 10) * 10 + n % 10 =
            (acc * 10 ^ (natDigitsF fuel (n / 10)).length) * 10 + n := harith _
        _ = acc * 10 ^ ((natDigitsF fuel (n / 10)).length + 1) + n := by
            rw [pow_succ]
            ring

theorem parseDigits_natDigits (n : Nat) : parseDigits (natDigits n) = some n := by
  have hne := natDigitsF_ne_nil (n + 1) n (by omega)
  unfold natDigits at hne ⊢
  cases hd : natDigitsF (n + 1) n with
  | nil => exact absurd hd hne
  | cons c rest =>
    have := parseDigitsGo_natDigitsF (n + 1) n 0 (by omega)
    rw [hd] at this
    rw [show parseDigits (c :: rest) = parseDigitsGo 0 (c :: rest) from rfl]
    simpa using this

theorem parseI64_intToChars (ts : Int) (hlo : -(2 ^ 63) ≤ ts)
    (hhi : ts ≤ 2 ^ 63 - 1) : parseI64 (intToChars ts) = some ts := by
  by_cases hneg : ts < 0
  · have : intToChars ts = '-' :: natDigits ts.natAbs := by
      simp [intToChars, hneg]
    rw [this, parseI64, if_pos rfl, parseDigits_natDigits]
    show (if ts.natAbs ≤ 2 ^ 63 then some (-(ts.natAbs : Int)) else none) = some ts
    rw [if_pos (by omega)]
    congr 1
    omega
  · push_neg at hneg
    have hch : intToChars ts = natDigits ts.toNat := by
      simp [intToChars, Int.not_lt.2 hneg]
    have hne := natDigitsF_ne_nil (ts.toNat + 1) ts.toNat (by omega)
    rw [hch]
    unfold natDigits at hne ⊢
    cases hd : natDigitsF (ts.toNat + 1) ts.toNat with
    | nil => exact absurd hd hne
    | cons c rest =>
      have hc := natDigitsF_digits (ts.toNat + 1) ts.toNat c (by omega)
        (by rw [hd]; exact List.mem_cons_self _ _)
      rw [parseI64]
      rw [if_neg (by intro he; subst he; revert hc; decide)]
      rw [if_neg (by intro he; subst he; revert hc; decide)]
      have hp : parseDigits (c :: rest) = some ts.toNat := by
        have := parseDigits_natDigits ts.toNat
        unfold natDigits at this
        rw [hd] at this
        exact this
      rw [hp]
      show (if ts.toNat ≤ 2 ^ 63 - 1 then some ((ts.toNat : Int)) else none) = some ts
      rw [if_pos (by omega)]
      congr 1
      omega

theorem natDigits_no_dot (n : Nat) : '.' ∉ natDigits n := by
  intro hm
  have := natDigitsF_digits (n + 1) n '.' (by omega) hm
  revert this
  decide

theorem intToChars_no_dot (ts : Int) : '.' ∉ intToChars ts := by
  unfold intToChars
  by_cases hneg : ts < 0
  · rw [if_pos hneg]
    intro hm
    rcases List.mem_cons.1 hm with h | h
    · exact absurd h (by decide)
    · exact natDigits_no_dot _ h
  · rw [if_neg hneg]
    exact natDigits_no_dot _

theorem intToChars_ne_nil (ts : Int) : intToChars ts ≠ [] := by
  unfold intToChars
  by_cases hneg : ts < 0
  · simp [hneg]
  · rw [if_neg hneg]
    exact natDigitsF_ne_nil _ _ (by omega)

/-- Stem and extension of a writer-produced log file name whose identifier
contains no dot: everything before the final dot, and `pine`. -/
theorem fileStemExt_logfileName (id : List Char) (ts : Int) (hdot : '.' ∉ id) :
    fileStemExt (logfileName id ts) =
      (id ++ '-' :: intToChars ts, some pineExt) := by
  have hpre : lastIdxOf '.' (id ++ '-' :: intToChars ts) = none := by
    apply lastIdxOf_eq_none
    intro hm
    rcases List.mem_append.1 hm with h1 | h2
    · exact hdot h1
    · rcases List.mem_cons.1 h2 with h3 | h4
      · exact absurd h3 (by decide)
      · exact intToChars_no_dot ts h4
  have hname : logfileName id ts =
      (id ++ '-' :: intToChars ts) ++ ('.' :: pineExt) := by
    simp [logfileName]
  have hlen : (id ++ '-' :: intToChars ts).length =
      id.length + 1 + (intToChars ts).length := by
    simp
    omega
  have hlast : lastIdxOf '.' (logfileName id ts) =
      some (id.length + 1 + (intToChars ts).length) := by
    rw [hname, lastIdxOf_append]
    have hsuf : lastIdxOf '.' ('.' :: pineExt) = some 0 := by decide
    rw [hsuf]
    show some ((id ++ '-' :: intToChars ts).length + 0) = _
    simp [hlen]
  obtain ⟨i, hi⟩ : ∃ i, id.length + 1 + (intToChars ts).length = i + 1 :=
    ⟨id.length + (intToChars ts).length, by omega⟩
  have htake : (logfileName id ts).take (i + 1) = id ++ '-' :: intToChars ts := by
    rw [hname, ← hi, ← hlen, List.take_left]
  have hdrop : (logfileName id ts).drop (i + 2) = pineExt := by
    rw [hname]
    have h2 : i + 2 = (id ++ '-' :: intToChars ts).length + 1 := by
      rw [hlen]
      omega
    rw [h2, List.drop_append]
    rfl
  rw [fileStemExt, hlast, hi]
  show ((logfileName id ts).take (i + 1), some ((logfileName id ts).drop (i + 2))) = _
  rw [htake, hdrop]

/-- C3 counterexample: for the identifier `a-b` (which contains a `-`), the
writer-produced name `a-b-5.pine` is rejected by `from_entry` — the stem is
split at the FIRST `-` (`str::split_once`), yielding identifier `a`, not at
the last one as the claim states. -/
theorem C3_counterexample :
    fromEntry (logfileName ['a', '-', 'b'] 5) ['a', '-', 'b'] = none ∧
    logfileName ['a', '-', 'b'] 5 =
      ['a', '-', 'b', '-', '5', '.', 'p', 'i', 'n', 'e'] ∧
    minDateTimeSecs ≤ 5 ∧ (5 : Int) ≤ maxDateTimeSecs := by
  refine ⟨by decide, by decide, by decide, by decide⟩

/-- C3 (amended): logfile enumeration ignores entries whose extension is not
the log extension; splits the stem at the FIRST `-` (not the last);
rejects the entry when the part before the split differs from the domain
identifier; parses the part after the split as `i64` seconds; and for any
identifier free of `-` and `.`, a writer-produced name
`<identifier>-<secs>.pine` is accepted with its timestamp recovered
(identifiers containing `-` are rejected, see the counterexample). -/
theorem fromEntry_eq (name id stem : List Char) (ext : Option (List Char))
    (h : fileStemExt name = (stem, ext)) :
    fromEntry name id =
      if ext ≠ some pineExt then none
      else
        match splitOnce '-' stem with
        | none => none
        | some (id1, tsStr) =>
          if id1 ≠ id then none
          else
            match parseI64 tsStr with
            | none => none
            | some ts => fromTimestamp ts 0 := by
  unfold fromEntry
  rw [h]

/-- C3 (amended): logfile enumeration ignores entries whose extension is not
the log extension; splits the stem at the FIRST `-` (not the last) via
`str::split_once`; rejects the entry when there is no `-`, or when the part
before the split differs from the domain identifier; parses the part after
the split as `i64` seconds; and for any identifier free of `-` and `.`, a
writer-produced name `<identifier>-<secs>.pine` is accepted with its
timestamp recovered (identifiers containing `-` are rejected — see the
counterexample). -/
theorem C3_logfile_enumeration :
    (∀ name id, (fileStemExt name).2 ≠ some pineExt → fromEntry name id = none) ∧
    (∀ name id, (fileStemExt name).2 = some pineExt →
      splitOnce '-' (fileStemExt name).1 = none → fromEntry name id = none) ∧
    (∀ name id a b, (fileStemExt name).2 = some pineExt →
      splitOnce '-' (fileStemExt name).1 = some (a, b) → a ≠ id →
      fromEntry name id = none) ∧
    (∀ name id b, (fileStemExt name).2 = some pineExt →
      splitOnce '-' (fileStemExt name).1 = some (id, b) →
      fromEntry name id =
        match parseI64 b with
        | some ts => fromTimestamp ts 0
        | none => none) ∧
    (∀ id ts, '-' ∉ id → '.' ∉ id →
      minDateTimeSecs ≤ ts → ts ≤ maxDateTimeSecs →
      fromEntry (logfileName id ts) id = some ⟨ts, 0⟩) := by
  refine ⟨?_, ?_, ?_, ?_, ?_⟩
  · intro name id hext
    rcases hfe : fileStemExt name with ⟨stem, ext⟩
    rw [hfe] at hext
    rw [fromEntry_eq name id stem ext hfe, if_pos hext]
  · intro name id hext hsp
    rcases hfe : fileStemExt name with ⟨stem, ext⟩
    rw [hfe] at hext hsp
    simp only at hext hsp
    rw [fromEntry_eq name id stem ext hfe, if_neg (by simp [hext]), hsp]
  · intro name id a b hext hsp hne
    rcases hfe : fileStemExt name with ⟨stem, ext⟩
    rw [hfe] at hext hsp
    simp only at hext hsp
    rw [fromEntry_eq name id stem ext hfe, if_neg (by simp [hext]), hsp]
    show (if a ≠ id then none
      else
        match parseI64 b with
        | none => none
        | some ts => fromTimestamp ts 0) = none
    rw [if_pos hne]
  · intro name id b hext hsp
    rcases hfe : fileStemExt name with ⟨stem, ext⟩
    rw [hfe] at hext hsp
    simp only at hext hsp
    rw [fromEntry_eq name id stem ext hfe, if_neg (by simp [hext]), hsp]
    show (if id ≠ id then none
      else
        match parseI64 b with
        | none => none
        | some ts => fromTimestamp ts 0) = _
    rw [if_neg (by simp)]
    cases parseI64 b <;> rfl
  · intro id ts hdash hdot hlo hhi
    have hfe := fileStemExt_logfileName id ts hdot
    rw [fromEntry_eq _ _ _ _ hfe, if_neg (by simp), splitOnce_sep id _ hdash]
    show (if id ≠ id then none
      else
        match parseI64 (intToChars ts) with
        | none => none
        | some ts2 => fromTimestamp ts2 0) = _
    have hmin : minDateTimeSecs = -8334601228800 := rfl
    have hmax : maxDateTimeSecs = 8210266876799 := rfl
    rw [if_neg (by simp),
      parseI64_intToChars ts (by omega) (by omega)]
    show fromTimestamp ts 0 = _
    rw [fromTimestamp, if_pos ⟨hlo, hhi, by norm_num⟩]

/-- C3 witness: the accepting branch of the amended theorem at the concrete
identifier `log` and timestamp 1700000000. -/
theorem C3_witness :
    fromEntry (logfileName ['l', 'o', 'g'] 1700000000) ['l', 'o', 'g'] =
      some ⟨1700000000, 0⟩ :=
  C3_logfile_enumeration.2.2.2.2 ['l', 'o', 'g'] 1700000000 (by decide)
    (by decide) (by decide) (by decide)

/-! ## Chunk framing (src/pinenut/src/chunk.rs)

A chunk is a byte slice of length ≥ 60 carrying the packed header
`{magic 0..4, version 4..6, length 6..10, writeback 10, time_range
11..27 (start 11..19, end 19..27), pub_key 27..60}` followed by the
payload. -/

/-- chunk.rs `Header::LEN` (60 bytes). -/
def headerLen : Nat := 60

/-- chunk.rs `Error` (write errors). -/
inductive ChunkError where
  | overflow
deriving DecidableEq, Repr

/-- `Header::payload_len`: the `length` field, `u32` little endian at
offset 6. -/
def chunkPayloadLen (d : List Nat) : Nat := leRead d 6 4

/-- `Chunk::capacity`: backing length minus the header. -/
def chunkCapacity (d : List Nat) : Nat := d.length - headerLen

/-- `Chunk::set_payload_len`: store the length as `u32` little endian.
The Rust `try_into().expect` panics for lengths ≥ 2³²; theorems only use
this below that bound, where the stored bytes are exact. -/
def chunkSetPayloadLen (d : List Nat) (len : Nat) : List Nat :=
  writeBytes d 6 (leBytes 4 len)

/-- `Chunk::write`: fail with `Overflow` when the payload would exceed the
capacity and leave the chunk untouched; otherwise copy the bytes into
`payload[old_len..new_len]` and advance the stored length. -/
def chunkWrite (d bytes : List Nat) : List Nat × Option ChunkError :=
  let oldLen := chunkPayloadLen d
  let newLen := oldLen + bytes.length
  if newLen > chunkCapacity d then (d, some .overflow)
  else (chunkSetPayloadLen (writeBytes d (headerLen + oldLen) bytes) newLen, none)

/-- `impl Deref for Chunk`: the written view is the header plus the payload
clamped to the capacity. -/
def chunkBytesView (d : List Nat) : List Nat :=
  d.take (min (chunkPayloadLen d) (chunkCapacity d) + headerLen)

/-- Reading little-endian bytes back after writing them returns the value
modulo the byte width. -/
theorem leRead_writeBytes_leBytes (k : Nat) : ∀ (d : List Nat) (off v : Nat),
    off + k ≤ d.length →
    leRead (writeBytes d off (leBytes k v)) off k = v % 256 ^ k := by
  induction k with
  | zero => intro d off v h; simp [leRead, leBytes, writeBytes, Nat.mod_one]
  | succ k ih =>
    intro d off v h
    rw [leBytes]
    show leRead (writeBytes (d.set off (v % 256)) (off + 1) (leBytes k (v / 256)))
      off (k + 1) = _
    rw [leRead]
    rw [writeBytes_getD_of_lt _ _ _ _ (Nat.lt_succ_self off)]
    have hofflt : off < d.length := by omega
    have hset : (d.set off (v % 256)).getD off 0 = v % 256 := by
      simp [List.getD_eq_getElem?_getD, List.getElem?_set_eq_of_lt _ hofflt]
    rw [hset, ih (d.set off (v % 256)) (off + 1) (v / 256) (by simp; omega)]
    rw [pow_succ']
    exact (Nat.mod_mul).symm

/-- Bytes outside the written window are unaffected by `leRead` after a
`writeBytes` elsewhere. -/
theorem leRead_writeBytes_disjoint (k : Nat) : ∀ (d bs : List Nat) (off woff : Nat),
    (woff + bs.length ≤ off ∨ off + k ≤ woff) →
    leRead (writeBytes d woff bs) off k = leRead d off k := by
  induction k with
  | zero => intro d bs off woff h; rfl
  | succ k ih =>
    intro d bs off woff h
    rw [leRead, leRead]
    rcases h with h | h
    · rw [writeBytes_getD_of_ge _ _ _ _ (by omega), ih d bs (off + 1) woff (by omega)]
    · rw [writeBytes_getD_of_lt _ _ _ _ (by omega), ih d bs (off + 1) woff (by omega)]

/-- C7: `append` fails with `Overflow` exactly when the current length plus
the input length exceeds the capacity; on failure the chunk is unchanged;
on success the bytes land at `payload[old_len..new_len]`, the stored length
becomes `old_len + len(bytes)`, and all other header fields (magic, version,
writeback, time range, public key) are unchanged. -/
theorem C7_chunk_append (d bytes : List Nat) (hlen : headerLen ≤ d.length)
    (hcap : chunkCapacity d < 2 ^ 32) :
    ((chunkWrite d bytes).2 = some .overflow ↔
      chunkPayloadLen d + bytes.length > chunkCapacity d) ∧
    ((chunkWrite d bytes).2 = some .overflow → (chunkWrite d bytes).1 = d) ∧
    ((chunkWrite d bytes).2 = none →
      chunkPayloadLen (chunkWrite d bytes).1 = chunkPayloadLen d + bytes.length ∧
      (∀ i, i < bytes.length →
        (chunkWrite d bytes).1.getD (headerLen + chunkPayloadLen d + i) 0 =
          bytes.getD i 0) ∧
      (∀ i, i < 6 ∨ (10 ≤ i ∧ i < headerLen) →
        (chunkWrite d bytes).1.getD i 0 = d.getD i 0) ∧
      (chunkWrite d bytes).1.length = d.length) := by
  have h60 : headerLen = 60 := rfl
  have hcd : chunkCapacity d = d.length - headerLen := rfl
  by_cases hov : chunkPayloadLen d + bytes.length > chunkCapacity d
  · have he : chunkWrite d bytes = (d, some .overflow) := by
      rw [chunkWrite, if_pos hov]
    rw [he]
    refine ⟨by simp [hov], fun _ => rfl, fun hc => by simp at hc⟩
  · push_neg at hov
    have he : chunkWrite d bytes =
        (chunkSetPayloadLen (writeBytes d (headerLen + chunkPayloadLen d) bytes)
          (chunkPayloadLen d + bytes.length), none) := by
      rw [chunkWrite, if_neg (by omega)]
    rw [he]
    have hwblen : (writeBytes d (headerLen + chunkPayloadLen d) bytes).length =
        d.length := writeBytes_length _ _ _
    refine ⟨by simp; omega, by simp, fun _ => ⟨?_, ?_, ?_, ?_⟩⟩
    · show leRead (writeBytes _ 6 (leBytes 4 _)) 6 4 = _
      rw [leRead_writeBytes_leBytes 4 _ 6 _ (by omega)]
      have hb : chunkPayloadLen d + bytes.length < 2 ^ 32 := by omega
      have h256 : (256 : Nat) ^ 4 = 2 ^ 32 := by norm_num
      rw [h256]
      exact Nat.mod_eq_of_lt hb
    · intro i hi
      show (writeBytes (writeBytes d (headerLen + chunkPayloadLen d) bytes) 6
        (leBytes 4 _)).getD _ 0 = _
      have hlb : (leBytes 4 (chunkPayloadLen d + bytes.length)).length = 4 := rfl
      rw [writeBytes_getD_of_ge _ _ _ _ (by rw [hlb]; omega)]
      rw [writeBytes_getD_of_mem _ _ _ _ (by omega) (by omega) (by omega)]
      congr 1
      omega
    · intro i hi
      show (writeBytes (writeBytes d (headerLen + chunkPayloadLen d) bytes) 6
        (leBytes 4 _)).getD _ 0 = _
      have hlb : (leBytes 4 (chunkPayloadLen d + bytes.length)).length = 4 := rfl
      have hout : (writeBytes d (headerLen + chunkPayloadLen d) bytes).getD i 0 =
          d.getD i 0 :=
        writeBytes_getD_of_lt _ _ _ _ (by omega)
      rcases hi with hi | hi
      · rw [writeBytes_getD_of_lt _ _ _ _ (by omega), hout]
      · rw [writeBytes_getD_of_ge _ _ _ _ (by rw [hlb]; omega), hout]
    · show (writeBytes _ 6 _).length = _
      rw [writeBytes_length, hwblen]

/-- C7 witness: a concrete successful append and a concrete overflow on a
64-byte chunk (capacity 4). -/
theorem C7_witness :
    ((chunkWrite (List.replicate 64 0) [5, 6]).2 = none →
      chunkPayloadLen (chunkWrite (List.replicate 64 0) [5, 6]).1 = 0 + 2) ∧
    ((chunkWrite (List.replicate 64 0) [1, 2, 3, 4, 5]).2 = some .overflow ↔
      chunkPayloadLen (List.replicate 64 0) + 5 > chunkCapacity (List.replicate 64 0)) := by
  constructor
  · intro h
    have := (C7_chunk_append (List.replicate 64 0) [5, 6] (by decide)
      (by decide)).2.2 h
    simpa using this.1
  · exact (C7_chunk_append (List.replicate 64 0) [1, 2, 3, 4, 5] (by decide)
      (by decide)).1

/-- C10: the whole-byte view of a chunk is exactly the 60-byte header
followed by the payload clamped at `min(stored_length, capacity)`, and its
length never exceeds the backing slice — even when the stored length field
exceeds the capacity. -/
theorem C10_deref_view (d : List Nat) (hlen : headerLen ≤ d.length) :
    chunkBytesView d =
      d.take headerLen ++
        (d.drop headerLen).take (min (chunkPayloadLen d) (chunkCapacity d)) ∧
    (chunkBytesView d).length =
      headerLen + min (chunkPayloadLen d) (chunkCapacity d) ∧
    (chunkBytesView d).length ≤ d.length := by
  have h60 : headerLen = 60 := rfl
  have hcd : chunkCapacity d = d.length - headerLen := rfl
  have hmin : min (chunkPayloadLen d) (chunkCapacity d) ≤ chunkCapacity d :=
    Nat.min_le_right _ _
  have hsum : min (chunkPayloadLen d) (chunkCapacity d) + headerLen ≤ d.length := by
    omega
  refine ⟨?_, ?_, ?_⟩
  · rw [chunkBytesView, Nat.add_comm, List.take_add]
  · rw [chunkBytesView, List.length_take]
    omega
  · rw [chunkBytesView, List.length_take]
    omega

/-- C10 witness: a 64-byte chunk whose corrupted length field (300) exceeds
the capacity (4) still yields a view no longer than the backing slice. -/
theorem C10_witness :
    headerLen ≤ (writeBytes (List.replicate 64 7) 6 (leBytes 4 300)).length ∧
    (chunkBytesView (writeBytes (List.replicate 64 7) 6 (leBytes 4 300))).length ≤
      (writeBytes (List.replicate 64 7) 6 (leBytes 4 300)).length := by
  refine ⟨by decide, (C10_deref_view _ (by decide)).2.2⟩

/-! ## Double buffer (src/pinenut/src/buffer.rs)

The backing memory is a byte list `[8-byte header | alpha | beta]`; the
header is `{magic 0..4 = 0xFEEDCA7B, alpha_side 4..8}` little endian. A
handle named Left or Right resolves to the alpha slot exactly when the
header says its name is the alpha side. -/

/-- buffer.rs `Side` (the name of a buffer handle). -/
inductive Side where
  | left
  | right
deriving DecidableEq, Repr

/-- `Side::raw`: the little-endian tag stored in the header
(`Left = 0xABC`, `Right = 0xDEF`). -/
def Side.raw : Side → List Nat
  | .left => leBytes 4 0xABC
  | .right => leBytes 4 0xDEF

/-- `impl Not for Side`. -/
def Side.not : Side → Side
  | .left => .right
  | .right => .left

/-- `impl TryFrom<[u8; 4]> for Side`. -/
def sideTryFrom (raw : List Nat) : Option Side :=
  if raw = Side.left.raw then some .left
  else if raw = Side.right.raw then some .right
  else none

/-- buffer.rs `Header::LEN` (8 bytes). -/
def bufHeaderLen : Nat := 8

/-- buffer.rs `Header::MAGIC` (0xFEEDCA7B, little endian). -/
def bufMagic : List Nat := leBytes 4 0xFEEDCA7B

/-- The four `alpha_side` header bytes. -/
def alphaRaw (m : List Nat) : List Nat :=
  [m.getD 4 0, m.getD 5 0, m.getD 6 0, m.getD 7 0]

/-- `BufferInner::validate`: magic matches and `alpha_side` holds one of the
two side tags. -/
def bufValidate (m : List Nat) : Prop :=
  [m.getD 0 0, m.getD 1 0, m.getD 2 0, m.getD 3 0] = bufMagic ∧
    (alphaRaw m = Side.left.raw ∨ alphaRaw m = Side.right.raw)

instance (m : List Nat) : Decidable (bufValidate m) := by
  unfold bufValidate; infer_instance

/-- `BufferInner::new` / `initialize`: reset the header to the default
(`magic`, alpha = Left) when validation fails. -/
def bufNew (m : List Nat) : List Nat :=
  if bufValidate m then m else writeBytes m 0 (bufMagic ++ Side.left.raw)

/-- `BufferInner::switch`: flip the stored alpha side, treating an invalid
tag as Left. -/
def bufSwitch (m : List Nat) : List Nat :=
  writeBytes m 4 (((sideTryFrom (alphaRaw m)).getD .left).not).raw

/-- Length of one side: `(len - 8) / 2`. -/
def sideLen (m : List Nat) : Nat := (m.length - bufHeaderLen) / 2

/-- `BufferInner::buffer`: the byte offset of the slice served to the handle
named `side` — the alpha slot iff the header names `side` as alpha. -/
def bufOffset (m : List Nat) (side : Side) : Nat :=
  if alphaRaw m = side.raw then bufHeaderLen else bufHeaderLen + sideLen m

/-- Writing one byte through a handle (`BufferHandle::as_mut_slice`). -/
def handleWrite (m : List Nat) (side : Side) (i v : Nat) : List Nat :=
  m.set (bufOffset m side + i) v

/-- Reading one byte through a handle (`BufferHandle::as_slice`). -/
def handleRead (m : List Nat) (side : Side) (i : Nat) : Nat :=
  m.getD (bufOffset m side + i) 0

/-- Buffer states reachable from construction by switches and in-bounds
handle writes. -/
inductive BufReachable : List Nat → Prop where
  | init (m : List Nat) : BufReachable (bufNew m)
  | switch {m : List Nat} : BufReachable m → BufReachable (bufSwitch m)
  | write {m : List Nat} (side : Side) (i v : Nat) (h : i < sideLen m) :
      BufReachable m → BufReachable (handleWrite m side i v)

/-- The header names a genuine side. -/
def validSide (m : List Nat) : Prop :=
  alphaRaw m = Side.left.raw ∨ alphaRaw m = Side.right.raw

theorem bufNew_length (m : List Nat) : (bufNew m).length = m.length := by
  unfold bufNew
  split
  · rfl
  · exact writeBytes_length _ _ _

theorem bufSwitch_length (m : List Nat) : (bufSwitch m).length = m.length :=
  writeBytes_length _ _ _

theorem handleWrite_length (m : List Nat) (side : Side) (i v : Nat) :
    (handleWrite m side i v).length = m.length := by
  simp [handleWrite]

theorem sideRaw_length (s : Side) : s.raw.length = 4 := by
  cases s <;> rfl

/-- Writing a 4-byte tag at offset 4 replaces the alpha bytes. -/
theorem alphaRaw_writeBytes4 (m raw : List Nat) (h4 : raw.length = 4)
    (hlen : bufHeaderLen ≤ m.length) : alphaRaw (writeBytes m 4 raw) = raw := by
  have h8 : (8 : Nat) ≤ m.length := hlen
  rcases raw with _ | ⟨a, _ | ⟨b, _ | ⟨c, _ | ⟨e, _ | ⟨f, t⟩⟩⟩⟩⟩ <;> simp at h4
  unfold alphaRaw
  rw [writeBytes_getD_of_mem _ _ _ _ (by omega) (by simp) (by omega),
    writeBytes_getD_of_mem _ _ _ _ (by omega) (by simp) (by omega),
    writeBytes_getD_of_mem _ _ _ _ (by omega) (by simp) (by omega),
    writeBytes_getD_of_mem _ _ _ _ (by omega) (by simp) (by omega)]
  rfl

/-- Writing a full default header at offset 0 sets the alpha bytes to the
Left tag. -/
theorem alphaRaw_bufNew_invalid (m : List Nat) (hlen : bufHeaderLen ≤ m.length) :
    alphaRaw (writeBytes m 0 (bufMagic ++ Side.left.raw)) = Side.left.raw := by
  have h8 : (8 : Nat) ≤ m.length := hlen
  have hl : (bufMagic ++ Side.left.raw).length = 8 := rfl
  unfold alphaRaw
  rw [writeBytes_getD_of_mem _ _ _ _ (by omega) (by rw [hl]; omega) (by omega),
    writeBytes_getD_of_mem _ _ _ _ (by omega) (by rw [hl]; omega) (by omega),
    writeBytes_getD_of_mem _ _ _ _ (by omega) (by rw [hl]; omega) (by omega),
    writeBytes_getD_of_mem _ _ _ _ (by omega) (by rw [hl]; omega) (by omega)]
  rfl

/-- Handle writes land past the header and keep the alpha bytes. -/
theorem alphaRaw_handleWrite (m : List Nat) (side : Side) (i v : Nat) :
    alphaRaw (handleWrite m side i v) = alphaRaw m := by
  have hoff : bufHeaderLen ≤ bufOffset m side := by
    unfold bufOffset
    split <;> simp [bufHeaderLen]
  have h8 : (8 : Nat) ≤ bufOffset m side := hoff
  unfold alphaRaw handleWrite
  rw [getD_set_ne _ _ _ _ (by omega), getD_set_ne _ _ _ _ (by omega),
    getD_set_ne _ _ _ _ (by omega), getD_set_ne _ _ _ _ (by omega)]

theorem bufReachable_length_valid (m : List Nat) (hr : BufReachable m) :
    bufHeaderLen ≤ m.length → validSide m := by
  induction hr with
  | init m0 =>
    intro hlen
    rw [bufNew_length] at hlen
    unfold bufNew
    split
    · rename_i hv
      exact hv.2
    · unfold validSide
      rw [alphaRaw_bufNew_invalid m0 hlen]
      exact Or.inl rfl
  | switch hr ih =>
    intro hlen
    rename_i m0
    rw [bufSwitch_length] at hlen
    unfold validSide bufSwitch
    rw [alphaRaw_writeBytes4 _ _ (sideRaw_length _) hlen]
    cases ((sideTryFrom (alphaRaw m0)).getD Side.left).not
    · exact Or.inl rfl
    · exact Or.inr rfl
  | write side i v hi hr ih =>
    intro hlen
    rename_i m0
    rw [handleWrite_length] at hlen
    unfold validSide
    rw [alphaRaw_handleWrite]
    exact ih hlen

/-- Switching flips which physical slot each named handle sees. -/
theorem bufOffset_switch (m : List Nat) (hv : validSide m)
    (hlen : bufHeaderLen ≤ m.length) (side : Side) :
    bufOffset (bufSwitch m) side = bufOffset m side.not := by
  have hlen2 : sideLen (bufSwitch m) = sideLen m := by
    unfold sideLen
    rw [bufSwitch_length]
  rcases hv with hv | hv
  · have hnew : alphaRaw (bufSwitch m) = Side.right.raw := by
      unfold bufSwitch
      rw [alphaRaw_writeBytes4 _ _ (sideRaw_length _) hlen, hv]
      decide
    unfold bufOffset
    rw [hnew, hv, hlen2]
    cases side
    · rw [if_neg (by decide), if_neg (by decide)]
    · rw [if_pos (by decide), if_pos (by decide)]
  · have hnew : alphaRaw (bufSwitch m) = Side.left.raw := by
      unfold bufSwitch
      rw [alphaRaw_writeBytes4 _ _ (sideRaw_length _) hlen, hv]
      decide
    unfold bufOffset
    rw [hnew, hv, hlen2]
    cases side
    · rw [if_pos (by decide), if_pos (by decide)]
    · rw [if_neg (by decide), if_neg (by decide)]

/-- C4: in every reachable double-buffer state the header names a genuine
alpha side; the Left and Right handles resolve to the two disjoint halves
`[8, 8+len)` and `[8+len, 8+2len)` in some order, so no in-bounds index of
one handle aliases one of the other; after `switch()` each named handle
resolves to the physical slot the other name resolved to before; and a byte
written through one handle is read back, after a switch, through the other
handle at the same index. -/
theorem C4_double_buffer (m : List Nat) (hr : BufReachable m)
    (hlen : bufHeaderLen ≤ m.length) :
    validSide m ∧
    ({bufOffset m .left, bufOffset m .right} : Set Nat) =
      {bufHeaderLen, bufHeaderLen + sideLen m} ∧
    (0 < sideLen m → bufOffset m .left ≠ bufOffset m .right) ∧
    (∀ i j, i < sideLen m → j < sideLen m →
      bufOffset m .left + i ≠ bufOffset m .right + j) ∧
    (∀ side, bufOffset (bufSwitch m) side = bufOffset m side.not) ∧
    (∀ side : Side, ∀ i v, i < sideLen m → v < 256 →
      handleRead (bufSwitch (handleWrite m side i v)) side.not i = v) := by
  have hv := bufReachable_length_valid m hr hlen
  have hop : (bufOffset m .left = bufHeaderLen ∧
      bufOffset m .right = bufHeaderLen + sideLen m) ∨
      (bufOffset m .left = bufHeaderLen + sideLen m ∧
      bufOffset m .right = bufHeaderLen) := by
    rcases hv with hv | hv
    · left
      constructor
      · rw [bufOffset, if_pos hv]
      · rw [bufOffset, if_neg (by rw [hv]; decide)]
    · right
      constructor
      · rw [bufOffset, if_neg (by rw [hv]; decide)]
      · rw [bufOffset, if_pos hv]
  have h8 : bufHeaderLen = 8 := rfl
  refine ⟨hv, ?_, ?_, ?_, bufOffset_switch m hv hlen, ?_⟩
  · rcases hop with ⟨h1, h2⟩ | ⟨h1, h2⟩ <;> rw [h1, h2]
    exact Set.pair_comm _ _
  · intro hpos
    rcases hop with ⟨h1, h2⟩ | ⟨h1, h2⟩ <;> omega
  · intro i j hi hj
    rcases hop with ⟨h1, h2⟩ | ⟨h1, h2⟩ <;> omega
  · intro side i v hi _
    have hinb : bufOffset m side + i < m.length := by
      have hsl : sideLen m = (m.length - bufHeaderLen) / 2 := rfl
      rcases hop with ⟨h1, h2⟩ | ⟨h1, h2⟩ <;> cases side <;>
        first
        | (rw [show bufOffset m Side.left = _ from h1]; omega)
        | (rw [show bufOffset m Side.right = _ from h2]; omega)
    have hvw : validSide (handleWrite m side i v) := by
      unfold validSide
      rw [alphaRaw_handleWrite]
      exact hv
    have hlw : bufHeaderLen ≤ (handleWrite m side i v).length := by
      rw [handleWrite_length]
      exact hlen
    unfold handleRead
    rw [bufOffset_switch _ hvw hlw side.not]
    have hnn : side.not.not = side := by cases side <;> rfl
    rw [hnn]
    have hoffw : bufOffset (handleWrite m side i v) side = bufOffset m side := by
      unfold bufOffset
      rw [alphaRaw_handleWrite]
      have hslw : sideLen (handleWrite m side i v) = sideLen m := by
        unfold sideLen
        rw [handleWrite_length]
      rw [hslw]
    rw [hoffw]
    have hoff8 : 8 ≤ bufOffset m side := by
      unfold bufOffset
      split <;> simp [bufHeaderLen]
    have hsw : ∀ j, 8 ≤ j → (bufSwitch (handleWrite m side i v)).getD j 0 =
        (handleWrite m side i v).getD j 0 := by
      intro j hj
      unfold bufSwitch
      apply writeBytes_getD_of_ge
      rw [sideRaw_length]
      omega
    rw [hsw _ (by omega)]
    unfold handleWrite
    simp [List.getD_eq_getElem?_getD,
      List.getElem?_set_eq_of_lt _ hinb]

/-- C4 witness: the guarantees applied to a freshly initialized 24-byte
buffer (side length 8). -/
theorem C4_witness :
    validSide (bufNew (List.replicate 24 0)) ∧
    handleRead (bufSwitch (handleWrite (bufNew (List.replicate 24 0)) .left 3 99))
      Side.left.not 3 = 99 := by
  have h := C4_double_buffer (bufNew (List.replicate 24 0))
    (BufReachable.init _) (by decide)
  exact ⟨h.1, h.2.2.2.2.2 .left 3 99 (by decide) (by decide)⟩

/-! ## Extraction candidate files (src/pinenut/src/extract.rs `logfiles`)

A logfile is represented by its name-embedded datetime (the only field the
selection inspects). `chrono` datetimes compare lexicographically on
(seconds, nanoseconds). -/

/-- Lexicographic `≤` on datetimes (`chrono::DateTime` ordering). -/
def dtLe (a b : DateTime) : Bool :=
  a.secs < b.secs || (a.secs == b.secs && a.nsecs ≤ b.nsecs)

/-- `a ≥ b` on datetimes. -/
def dtGe (a b : DateTime) : Bool := dtLe b a

/-- extract.rs `logfiles` selection loop over the sorted file list: stop at
the first file whose datetime is ≥ the range end; whenever a file's datetime
is ≤ the range start and candidates exist, clear them; then push the
file. -/
def selectGo (startDt endDt : DateTime) (acc : List DateTime) :
    List DateTime → List DateTime
  | [] => acc
  | f :: fs =>
    if dtGe f endDt then acc
    else
      selectGo startDt endDt
        ((if dtLe f startDt ∧ acc ≠ [] then ([] : List DateTime) else acc) ++ [f]) fs

/-- extract.rs `logfiles`: the candidate files the extractor then reads. -/
def selectLogfiles (startDt endDt : DateTime) (files : List DateTime) :
    List DateTime :=
  selectGo startDt endDt [] files

/-- Specification-shaped description of the selection: keep only the suffix
of the below-range-end prefix that starts at the last file whose datetime is
≤ the range start (the whole prefix when there is none). -/
def superseded (startDt : DateTime) : List DateTime → List DateTime
  | [] => []
  | f :: fs =>
    if fs.any (fun g => dtLe g startDt) then superseded startDt fs else f :: fs

theorem superseded_cons (s f : DateTime) (fs : List DateTime) :
    superseded s (f :: fs) =
      if fs.any (fun g => dtLe g s) then superseded s fs else f :: fs := rfl

theorem selectGo_ne_nil (s e : DateTime) (l : List DateTime) :
    ∀ acc : List DateTime, acc ≠ [] →
    selectGo s e acc l =
      if (l.takeWhile (fun f => !dtGe f e)).any (fun g => dtLe g s) then
        superseded s (l.takeWhile (fun f => !dtGe f e))
      else acc ++ l.takeWhile (fun f => !dtGe f e) := by
  induction l with
  | nil => intro acc hacc; simp [selectGo]
  | cons f fs ih =>
    intro acc hacc
    rw [selectGo]
    by_cases hge : dtGe f e
    · rw [if_pos hge]
      have ht : (f :: fs).takeWhile (fun f => !dtGe f e) = [] := by
        simp [List.takeWhile_cons, hge]
      rw [ht]
      simp
    · rw [if_neg hge]
      have ht : (f :: fs).takeWhile (fun f => !dtGe f e) =
          f :: fs.takeWhile (fun f => !dtGe f e) := by
        simp [List.takeWhile_cons, hge]
      rw [ht]
      by_cases hle : dtLe f s = true
      · rw [if_pos ⟨hle, hacc⟩]
        simp only [List.nil_append]
        rw [ih [f] (by simp)]
        have hany : (f :: fs.takeWhile (fun f => !dtGe f e)).any
            (fun g => dtLe g s) = true := by
          simp [hle]
        rw [if_pos hany]
        rw [superseded_cons]
        by_cases hany2 : (fs.takeWhile (fun f => !dtGe f e)).any
            (fun g => dtLe g s) = true
        · rw [if_pos hany2, if_pos hany2]
        · rw [if_neg hany2, if_neg (by simpa using hany2)]
          simp
      · rw [if_neg (by simp [hle])]
        rw [ih (acc ++ [f]) (by simp)]
        have hany : (f :: fs.takeWhile (fun f => !dtGe f e)).any
            (fun g => dtLe g s) =
            (fs.takeWhile (fun f => !dtGe f e)).any (fun g => dtLe g s) := by
          simp [hle]
        by_cases hany2 : (fs.takeWhile (fun f => !dtGe f e)).any
            (fun g => dtLe g s) = true
        · rw [if_pos hany2, if_pos (by rw [hany]; exact hany2)]
          rw [superseded_cons, if_pos hany2]
        · rw [if_neg hany2, if_neg (by rw [hany]; simpa using hany2)]
          simp

/-- C8: the candidate-file selection equals its specification: walk the
sorted list in order, exclude the first file with datetime ≥ the range end
and everything after it (`takeWhile`), and within that prefix discard every
candidate before the last file whose datetime is ≤ the range start
(`superseded`) — the claimed stop-and-supersede walk. The result is the
list of files the extractor subsequently opens and reads. -/
theorem C8_candidate_selection (startDt endDt : DateTime)
    (files : List DateTime) :
    selectLogfiles startDt endDt files =
      superseded startDt (files.takeWhile (fun f => !dtGe f endDt)) := by
  unfold selectLogfiles
  induction files with
  | nil => rfl
  | cons f fs ih =>
    rw [selectGo]
    by_cases hge : dtGe f endDt
    · rw [if_pos hge]
      have ht : (f :: fs).takeWhile (fun f => !dtGe f endDt) = [] := by
        simp [List.takeWhile_cons, hge]
      rw [ht]
      rfl
    · rw [if_neg hge]
      have ht : (f :: fs).takeWhile (fun f => !dtGe f endDt) =
          f :: fs.takeWhile (fun f => !dtGe f endDt) := by
        simp [List.takeWhile_cons, hge]
      rw [ht]
      rw [if_neg (by simp)]
      simp only [List.nil_append]
      rw [selectGo_ne_nil startDt endDt fs [f] (by simp)]
      rw [superseded_cons]
      by_cases hany2 : (fs.takeWhile (fun f => !dtGe f endDt)).any
          (fun g => dtLe g startDt) = true
      · rw [if_pos hany2, if_pos hany2]
      · rw [if_neg hany2, if_neg (by simpa using hany2)]
        simp

/-- C8 has no hypotheses, but a concrete run is still recorded: with range
start 10 and end 50, files at 5, 8, 30, 60 select exactly [8, 30] — the
file at 8 supersedes the one at 5, and 60 (≥ end) stops the walk. -/
theorem C8_example :
    selectLogfiles ⟨10, 0⟩ ⟨50, 0⟩ [⟨5, 0⟩, ⟨8, 0⟩, ⟨30, 0⟩, ⟨60, 0⟩] =
      [⟨8, 0⟩, ⟨30, 0⟩] := by decide

/-! ## AccumulationEncoder (src/pinenut/src/codec.rs, src/pinenut/src/common.rs)

`BytesBuf::buffer` copies `min (bytes.len) (capacity - len)` bytes into the
buffer; `AccumulationEncoder::encode` wraps the sink so that each byte slice
emitted by the value's encoder is pushed through the buffer, flushing the
full buffer to the real sink whenever bytes remain, and finally flushes and
clears the buffer. An encoder run is modelled by the list of byte slices it
emits; a sink by the list of slices it receives. -/

/-- One `loop` of `AccumulationEncoder::encode`'s closure, on one emitted
slice: buffer as much as possible, stop when the slice is exhausted,
otherwise sink the (full) buffer, clear it and continue. Fuel-based;
`bytes.length + 2` fuel always suffices. Returns the buffer state and the
slices sunk. -/
def accumGoF : Nat → Nat → List Nat → List Nat → List Nat × List (List Nat)
  | 0, _, buf, _ => (buf, [])
  | fuel + 1, cap, buf, bytes =>
    if (bytes.drop (min bytes.length (cap - buf.length))).isEmpty then
      (buf ++ bytes.take (min bytes.length (cap - buf.length)), [])
    else
      ((accumGoF fuel cap [] (bytes.drop (cap - buf.length))).1,
        (buf ++ bytes.take (cap - buf.length)) ::
          (accumGoF fuel cap [] (bytes.drop (cap - buf.length))).2)

theorem accumGoF_eq (fuel cap : Nat) (buf bytes : List Nat) :
    accumGoF (fuel + 1) cap buf bytes =
      if bytes.length ≤ cap - buf.length then (buf ++ bytes, [])
      else
        ((accumGoF fuel cap [] (bytes.drop (cap - buf.length))).1,
          (buf ++ bytes.take (cap - buf.length)) ::
            (accumGoF fuel cap [] (bytes.drop (cap - buf.length))).2) := by
  rw [accumGoF]
  by_cases h : bytes.length ≤ cap - buf.length
  · rw [if_pos h, Nat.min_eq_left h, List.drop_length, List.take_length]
    simp
  · have hlt : cap - buf.length < bytes.length := Nat.lt_of_not_le h
    rw [Nat.min_eq_right (Nat.le_of_lt hlt)]
    rw [if_neg (by simp [List.isEmpty_iff_length_eq_zero]; omega), if_neg h]

theorem accumGoF_spec_nil (cap : Nat) (hcap : 0 < cap) :
    ∀ fuel bytes, bytes.length + 1 ≤ fuel →
      (accumGoF fuel cap [] bytes).2.flatten ++ (accumGoF fuel cap [] bytes).1 =
          bytes ∧
        (accumGoF fuel cap [] bytes).1.length ≤ cap := by
  intro fuel
  induction fuel with
  | zero => intro bytes h; omega
  | succ f ih =>
    intro bytes hfuel
    rw [accumGoF_eq]
    simp only [List.length_nil, Nat.sub_zero]
    by_cases h : bytes.length ≤ cap
    · rw [if_pos h]
      exact ⟨by simp, by simpa using h⟩
    · rw [if_neg h]
      have hlt : cap < bytes.length := by omega
      have hrest : (bytes.drop cap).length + 1 ≤ f := by
        rw [List.length_drop]
        omega
      obtain ⟨hjoin, hlen⟩ := ih (bytes.drop cap) hrest
      refine ⟨?_, hlen⟩
      simp only [List.flatten_cons, List.append_assoc]
      rw [hjoin]
      simp only [List.nil_append]
      exact List.take_append_drop _ _

theorem accumGoF_spec (cap : Nat) (hcap : 0 < cap) (buf bytes : List Nat)
    (fuel : Nat) (hbuf : buf.length ≤ cap) (hfuel : bytes.length + 2 ≤ fuel) :
    (accumGoF fuel cap buf bytes).2.flatten ++ (accumGoF fuel cap buf bytes).1 =
        buf ++ bytes ∧
      (accumGoF fuel cap buf bytes).1.length ≤ cap := by
  obtain ⟨f, rfl⟩ : ∃ f, fuel = f + 1 := ⟨fuel - 1, by omega⟩
  rw [accumGoF_eq]
  by_cases h : bytes.length ≤ cap - buf.length
  · rw [if_pos h]
    refine ⟨by simp, ?_⟩
    rw [List.length_append]
    omega
  · rw [if_neg h]
    have hrest : (bytes.drop (cap - buf.length)).length + 1 ≤ f := by
      rw [List.length_drop]
      omega
    obtain ⟨hjoin, hlen⟩ := accumGoF_spec_nil cap hcap f _ hrest
    refine ⟨?_, hlen⟩
    simp only [List.flatten_cons, List.append_assoc]
    rw [hjoin, List.take_append_drop]

/-- `AccumulationEncoder::encode` over the emitted slices of one value:
thread the buffer through `accumGoF` per slice, collecting sunk slices. -/
def accumEncodeGo (cap : Nat) (buf : List Nat) :
    List (List Nat) → List Nat × List (List Nat)
  | [] => (buf, [])
  | e :: es =>
    ((accumEncodeGo cap (accumGoF (e.length + 2) cap buf e).1 es).1,
      (accumGoF (e.length + 2) cap buf e).2 ++
        (accumEncodeGo cap (accumGoF (e.length + 2) cap buf e).1 es).2)

/-- `AccumulationEncoder::encode`: run the emitted slices through the
buffer with a fresh run starting empty, then flush the buffer into the sink
and clear it. Returns (slices the sink received, final buffer). -/
def accumEncode (cap : Nat) (emissions : List (List Nat)) :
    List (List Nat) × List Nat :=
  ((accumEncodeGo cap [] emissions).2 ++ [(accumEncodeGo cap [] emissions).1],
    [])

theorem accumEncodeGo_spec (cap : Nat) (hcap : 0 < cap) :
    ∀ (es : List (List Nat)) (buf : List Nat), buf.length ≤ cap →
      (accumEncodeGo cap buf es).2.flatten ++ (accumEncodeGo cap buf es).1 =
          buf ++ es.flatten ∧
        (accumEncodeGo cap buf es).1.length ≤ cap := by
  intro es
  induction es with
  | nil => intro buf hbuf; simp [accumEncodeGo, hbuf]
  | cons e es ih =>
    intro buf hbuf
    obtain ⟨hj1, hl1⟩ :=
      accumGoF_spec cap hcap buf e (e.length + 2) hbuf (le_refl _)
    obtain ⟨hj2, hl2⟩ := ih (accumGoF (e.length + 2) cap buf e).1 hl1
    refine ⟨?_, hl2⟩
    rw [accumEncodeGo]
    simp only [List.flatten_append, List.flatten_cons, List.append_assoc]
    rw [hj2]
    rw [← List.append_assoc, hj1, List.append_assoc]

/-- C9: encoder transparency. For every positive buffer capacity and every
sequence of byte slices an encoder emits, the bytes delivered to the sink by
`AccumulationEncoder::encode` concatenate to exactly the bytes of a direct
encode (the concatenation of the emitted slices, same order, same content —
only the sink-call granularity differs), and the internal buffer is empty
again when the call returns. -/
theorem C9_accumulation_transparency (cap : Nat) (emissions : List (List Nat))
    (hcap : 0 < cap) :
    (accumEncode cap emissions).1.flatten = emissions.flatten ∧
      (accumEncode cap emissions).2 = [] := by
  obtain ⟨hj, _⟩ := accumEncodeGo_spec cap hcap emissions [] (by simp)
  refine ⟨?_, rfl⟩
  unfold accumEncode
  simp only [List.flatten_append, List.flatten_cons, List.flatten_nil, List.append_nil]
  simpa using hj

/-- C9 witness: capacity 4, emitted slices [1,2,3] and [4,5,6,7,8]; the sink
receives the same 8 bytes in order and the buffer ends empty. -/
theorem C9_witness :
    0 < 4 ∧
      ((accumEncode 4 [[1, 2, 3], [4, 5, 6, 7, 8]]).1.flatten =
          ([[1, 2, 3], [4, 5, 6, 7, 8]] : List (List Nat)).flatten ∧
        (accumEncode 4 [[1, 2, 3], [4, 5, 6, 7, 8]]).2 = []) :=
  ⟨by decide, C9_accumulation_transparency 4 [[1, 2, 3], [4, 5, 6, 7, 8]]
    (by decide)⟩

/-! ## AES-ECB streaming cipher (src/pinenut/src/encrypt.rs, mod aes)

`BLOCK_SIZE = 16`. The block primitive (`Aes128Enc`/`Aes128Dec` on one
16-byte block) is abstracted as a function on byte lists; ECB mode applies
it to each consecutive 16-byte block. The encryptor buffers input in a
256-byte `BytesBuf` (`16 * BLOCK_SIZE`), the decryptor in a 1024-byte one
(`64 * BLOCK_SIZE`). -/

/-- ECB: apply the block function to each consecutive 16-byte block
(fuel-based; `data.length` fuel suffices). -/
def ecbBlocksF (f : List Nat → List Nat) : Nat → List Nat → List Nat
  | 0, _ => []
  | fuel + 1, data =>
    if data.isEmpty then []
    else f (data.take 16) ++ ecbBlocksF f fuel (data.drop 16)

def ecbBlocks (f : List Nat → List Nat) (data : List Nat) : List Nat :=
  ecbBlocksF f data.length data

theorem ecbBlocksF_nil (f : List Nat → List Nat) (fuel : Nat) :
    ecbBlocksF f fuel [] = [] := by
  cases fuel <;> simp [ecbBlocksF]

theorem ecbBlocksF_irrel (f : List Nat → List Nat) :
    ∀ fuel fuel' data, data.length ≤ fuel → data.length ≤ fuel' →
      ecbBlocksF f fuel data = ecbBlocksF f fuel' data := by
  intro fuel
  induction fuel with
  | zero =>
    intro fuel' data h _
    have hnil : data = [] := List.length_eq_zero.mp (Nat.le_zero.mp h)
    rw [hnil, ecbBlocksF_nil, ecbBlocksF_nil]
  | succ n ih =>
    intro fuel' data h h'
    rcases data with _ | ⟨b, rest⟩
    · rw [ecbBlocksF_nil, ecbBlocksF_nil]
    · obtain ⟨m, rfl⟩ : ∃ m, fuel' = m + 1 := ⟨fuel' - 1, by simp at h'; omega⟩
      rw [ecbBlocksF, ecbBlocksF]
      simp only [List.isEmpty_cons, Bool.false_eq_true, if_false]
      rw [ih m ((b :: rest).drop 16) (by simp at h ⊢; omega)
        (by simp at h' ⊢; omega)]

theorem ecbBlocks_nil (f : List Nat → List Nat) : ecbBlocks f [] = [] := rfl

theorem ecbBlocks_ne_nil (f : List Nat → List Nat) (data : List Nat)
    (h : data ≠ []) :
    ecbBlocks f data = f (data.take 16) ++ ecbBlocks f (data.drop 16) := by
  unfold ecbBlocks
  obtain ⟨m, hm⟩ : ∃ m, data.length = m + 1 :=
    ⟨data.length - 1, by have := List.length_pos.mpr h; omega⟩
  rw [hm, ecbBlocksF]
  rw [if_neg (by simpa [List.isEmpty_iff] using h)]
  rw [ecbBlocksF_irrel f m (data.drop 16).length (data.drop 16)
    (by simp; omega) (le_refl _)]

theorem ecbBlocks_append (f : List Nat → List Nat) :
    ∀ n (c w : List Nat), c.length ≤ n → c.length % 16 = 0 →
      ecbBlocks f (c ++ w) = ecbBlocks f c ++ ecbBlocks f w := by
  intro n
  induction n with
  | zero =>
    intro c w h _
    have hnil : c = [] := List.length_eq_zero.mp (Nat.le_zero.mp h)
    simp [hnil, ecbBlocks_nil]
  | succ n ih =>
    intro c w hlen hmod
    by_cases hc : c = []
    · simp [hc, ecbBlocks_nil]
    · have h16 : 16 ≤ c.length := by
        have := List.length_pos.mpr hc
        omega
      rw [ecbBlocks_ne_nil f (c ++ w) (by simp [hc]), ecbBlocks_ne_nil f c hc]
      rw [List.take_append_eq_append_take, List.drop_append_eq_append_drop]
      rw [show 16 - c.length = 0 from by omega]
      simp only [List.take_zero, List.drop_zero, List.append_nil]
      rw [ih (c.drop 16) w (by simp; omega) (by simp; omega)]
      rw [List.append_assoc]

theorem ecbBlocks_length (f : List Nat → List Nat)
    (hf : ∀ b : List Nat, b.length = 16 → (f b).length = 16) :
    ∀ n (t : List Nat), t.length ≤ n → t.length % 16 = 0 →
      (ecbBlocks f t).length = t.length := by
  intro n
  induction n with
  | zero =>
    intro t h _
    have hnil : t = [] := List.length_eq_zero.mp (Nat.le_zero.mp h)
    simp [hnil, ecbBlocks_nil]
  | succ n ih =>
    intro t hlen hmod
    by_cases ht : t = []
    · simp [ht, ecbBlocks_nil]
    · have h16 : 16 ≤ t.length := by
        have := List.length_pos.mpr ht
        omega
      rw [ecbBlocks_ne_nil f t ht, List.length_append]
      rw [hf (t.take 16) (by simp; omega)]
      rw [ih (t.drop 16) (by simp; omega) (by simp; omega)]
      simp only [List.length_drop]
      omega

theorem ecb_roundtrip (e d : List Nat → List Nat)
    (he : ∀ b : List Nat, b.length = 16 → (e b).length = 16)
    (hd : ∀ b : List Nat, b.length = 16 → d (e b) = b) :
    ∀ n (t : List Nat), t.length ≤ n → t.length % 16 = 0 →
      ecbBlocks d (ecbBlocks e t) = t := by
  intro n
  induction n with
  | zero =>
    intro t h _
    have hnil : t = [] := List.length_eq_zero.mp (Nat.le_zero.mp h)
    simp [hnil, ecbBlocks_nil]
  | succ n ih =>
    intro t hlen hmod
    by_cases ht : t = []
    · simp [ht, ecbBlocks_nil]
    · have h16 : 16 ≤ t.length := by
        have := List.length_pos.mpr ht
        omega
      have htake : (t.take 16).length = 16 := by simp; omega
      have helen : (e (t.take 16)).length = 16 := he _ htake
      rw [ecbBlocks_ne_nil e t ht]
      rw [ecbBlocks_append d 16 (e (t.take 16)) (ecbBlocks e (t.drop 16))
        (by rw [helen]) (by simp [helen])]
      rw [ecbBlocks_ne_nil d (e (t.take 16))
        (by intro hnil; rw [hnil] at helen; simp at helen)]
      rw [List.take_of_length_le (by omega : (e (t.take 16)).length ≤ 16),
        List.drop_eq_nil_of_le (by omega : (e (t.take 16)).length ≤ 16),
        ecbBlocks_nil, List.append_nil]
      rw [hd _ htake]
      rw [ih (t.drop 16) (by simp; omega) (by simp; omega)]
      exact List.take_append_drop 16 t

theorem take_append_add (c v : List Nat) (k : Nat) :
    (c ++ v).take (c.length + k) = c ++ v.take k := by
  rw [List.take_append_eq_append_take]
  simp

theorem drop_append_add (c v : List Nat) (k : Nat) :
    (c ++ v).drop (c.length + k) = v.drop k := by
  rw [List.drop_append_eq_append_drop]
  simp

/-- `BytesBuf::sink` as used by the encryptor: with `pad = false`
(`EncryptOp::Input`), encrypt the complete blocks (`len / 16 * 16` bytes,
NoPadding) and drain them; with `pad = true` (`EncryptOp::Flush`), PKCS#7-pad
the whole buffer, encrypt and drain everything. Returns (new buffer, bytes
written to the sink). -/
def encSink (e : List Nat → List Nat) (buf : List Nat) (pad : Bool) :
    List Nat × List Nat :=
  if pad then
    ([], ecbBlocks e
      (buf ++ List.replicate (16 - buf.length % 16) (16 - buf.length % 16)))
  else
    (buf.drop (buf.length / 16 * 16), ecbBlocks e (buf.take (buf.length / 16 * 16)))

/-- One iteration of the `EncryptOp::Input` loop: buffer as much input as
fits (`BytesBuf::buffer`), sink the complete blocks. Returns (new buffer,
sink output, remaining input). -/
def encStep (e : List Nat → List Nat) (buf input : List Nat) :
    List Nat × List Nat × List Nat :=
  ((encSink e (buf ++ input.take (min input.length (256 - buf.length))) false).1,
    (encSink e (buf ++ input.take (min input.length (256 - buf.length))) false).2,
    input.drop (min input.length (256 - buf.length)))

/-- The `EncryptOp::Input` loop (`while !input.is_empty()`), fuel-based;
`input.length + 1` fuel suffices. Returns (new buffer, concatenated sink
output). -/
def encInputGoF (e : List Nat → List Nat) :
    Nat → List Nat → List Nat → List Nat × List Nat
  | 0, buf, _ => (buf, [])
  | fuel + 1, buf, input =>
    if input.isEmpty then (buf, [])
    else
      ((encInputGoF e fuel (encStep e buf input).1 (encStep e buf input).2.2).1,
        (encStep e buf input).2.1 ++
          (encInputGoF e fuel (encStep e buf input).1 (encStep e buf input).2.2).2)

/-- `Encryptor::encrypt(EncryptOp::Input(input))`. -/
def encInput (e : List Nat → List Nat) (buf input : List Nat) :
    List Nat × List Nat :=
  encInputGoF e (input.length + 1) buf input

/-- `Encryptor::encrypt(EncryptOp::Flush)`. -/
def encFlush (e : List Nat → List Nat) (buf : List Nat) : List Nat × List Nat :=
  encSink e buf true

/-- A sequence of `EncryptOp::Input` calls, one per part. -/
def encInputs (e : List Nat → List Nat) (buf : List Nat) :
    List (List Nat) → List Nat × List Nat
  | [] => (buf, [])
  | p :: ps =>
    ((encInputs e (encInput e buf p).1 ps).1,
      (encInput e buf p).2 ++ (encInputs e (encInput e buf p).1 ps).2)

/-- The pure characterization of the encryptor on accumulated data `t`:
buffer holds the trailing partial block, output is the ECB encryption of the
complete blocks. -/
def encChar (e : List Nat → List Nat) (t : List Nat) : List Nat × List Nat :=
  (t.drop (t.length / 16 * 16), ecbBlocks e (t.take (t.length / 16 * 16)))

theorem encChar_fst_length (e : List Nat → List Nat) (t : List Nat) :
    (encChar e t).1.length = t.length % 16 := by
  unfold encChar
  simp only [List.length_drop]
  omega

theorem encChar_append_gen (e : List Nat → List Nat) (c r u : List Nat)
    (hc : c.length % 16 = 0) :
    encChar e (c ++ r ++ u) =
      ((encChar e (r ++ u)).1, ecbBlocks e c ++ (encChar e (r ++ u)).2) := by
  unfold encChar
  rw [List.append_assoc]
  dsimp only
  have harith : (c ++ (r ++ u)).length / 16 * 16 =
      c.length + (r ++ u).length / 16 * 16 := by
    rw [List.length_append]
    omega
  rw [harith, drop_append_add, take_append_add]
  rw [ecbBlocks_append e c.length c ((r ++ u).take ((r ++ u).length / 16 * 16))
    (le_refl _) hc]

theorem encChar_append (e : List Nat → List Nat) (t u : List Nat) :
    encChar e (t ++ u) =
      ((encChar e ((encChar e t).1 ++ u)).1,
        (encChar e t).2 ++ (encChar e ((encChar e t).1 ++ u)).2) := by
  have h := encChar_append_gen e (t.take (t.length / 16 * 16))
    (t.drop (t.length / 16 * 16)) u (by simp; omega)
  rw [List.take_append_drop] at h
  rw [h]
  have hfst : (encChar e t).1 = t.drop (t.length / 16 * 16) := rfl
  have hsnd : (encChar e t).2 = ecbBlocks e (t.take (t.length / 16 * 16)) := rfl
  rw [hfst, hsnd]

theorem encInputGoF_char (e : List Nat → List Nat) :
    ∀ fuel buf input, buf.length < 16 → input.length + 1 ≤ fuel →
      encInputGoF e fuel buf input = encChar e (buf ++ input) := by
  intro fuel
  induction fuel with
  | zero => intro buf input h hf; omega
  | succ n ih =>
    intro buf input hbuf hf
    rw [encInputGoF]
    by_cases hin : input.isEmpty
    · rw [if_pos hin]
      rw [List.isEmpty_iff.mp hin]
      unfold encChar
      have h0 : (buf ++ []).length / 16 * 16 = 0 := by
        simp only [List.append_nil]
        omega
      rw [h0]
      simp [ecbBlocks_nil]
    · rw [if_neg hin]
      have hinlen : 1 ≤ input.length := by
        rcases input with _ | _
        · simp at hin
        · simp
      have hbl : min input.length (256 - buf.length) ≥ 1 := by omega
      have hstep1 : (encStep e buf input).1 =
          (encChar e (buf ++ input.take (min input.length (256 - buf.length)))).1 := rfl
      have hstep2 : (encStep e buf input).2.1 =
          (encChar e (buf ++ input.take (min input.length (256 - buf.length)))).2 := rfl
      have hstep3 : (encStep e buf input).2.2 =
          input.drop (min input.length (256 - buf.length)) := rfl
      rw [hstep1, hstep2, hstep3]
      have hreclen : (input.drop (min input.length (256 - buf.length))).length + 1 ≤ n := by
        simp only [List.length_drop]
        omega
      have hbuflen :
          (encChar e (buf ++ input.take (min input.length (256 - buf.length)))).1.length < 16 := by
        rw [encChar_fst_length]
        omega
      rw [ih _ _ hbuflen hreclen]
      have hjoin : buf ++ input =
          (buf ++ input.take (min input.length (256 - buf.length))) ++
            input.drop (min input.length (256 - buf.length)) := by
        rw [List.append_assoc, List.take_append_drop]
      conv_rhs => rw [hjoin,
        encChar_append e (buf ++ input.take (min input.length (256 - buf.length)))
          (input.drop (min input.length (256 - buf.length)))]

theorem encInput_char (e : List Nat → List Nat) (buf input : List Nat)
    (hbuf : buf.length < 16) :
    encInput e buf input = encChar e (buf ++ input) :=
  encInputGoF_char e (input.length + 1) buf input hbuf (le_refl _)

theorem encInputs_char (e : List Nat → List Nat) :
    ∀ (ps : List (List Nat)) (buf : List Nat), buf.length < 16 →
      encInputs e buf ps = encChar e (buf ++ ps.flatten) := by
  intro ps
  induction ps with
  | nil =>
    intro buf hbuf
    rw [encInputs]
    unfold encChar
    have h0 : (buf ++ List.flatten []).length / 16 * 16 = 0 := by
      simp only [List.flatten_nil, List.append_nil]
      omega
    rw [h0]
    simp [ecbBlocks_nil]
  | cons p ps ih =>
    intro buf hbuf
    rw [encInputs]
    rw [encInput_char e buf p hbuf]
    rw [ih (encChar e (buf ++ p)).1 (by rw [encChar_fst_length]; omega)]
    have hjoin : buf ++ (p :: ps).flatten = (buf ++ p) ++ ps.flatten := by
      rw [List.flatten_cons, List.append_assoc]
    conv_rhs => rw [hjoin, encChar_append e (buf ++ p) ps.flatten]

/-- PKCS#7 padding validity as checked by `block_padding::Pkcs7` on the
last block: the last byte n is in 1..=16 and the last n bytes all equal
n. -/
def pkcs7Ok (t : List Nat) : Bool :=
  (1 ≤ t.getLast?.getD 0 && t.getLast?.getD 0 ≤ 16) &&
    (t.drop (t.length - t.getLast?.getD 0)).all (fun b => b == t.getLast?.getD 0)

/-- PKCS#7 unpadding: remove the last n bytes, n being the last byte. -/
def pkcs7Unpad (t : List Nat) : List Nat :=
  t.take (t.length - t.getLast?.getD 0)

/-- `BytesBuf::sink` as used by the decryptor: with `pad = false`
(not reached to end), decrypt the complete blocks (NoPadding) and drain
them; with `pad = true`, `decrypt_padded::<Pkcs7>` on the whole buffer:
error unless the length is a positive multiple of the block size and the
decrypted data carries valid PKCS#7 padding, else emit the unpadded
plaintext and drain everything. Returns (new buffer, sink output). -/
def decSink (d : List Nat → List Nat) (buf : List Nat) (pad : Bool) :
    Except Unit (List Nat × List Nat) :=
  if pad then
    if buf.length % 16 = 0 ∧ 1 ≤ buf.length ∧ pkcs7Ok (ecbBlocks d buf) then
      .ok ([], pkcs7Unpad (ecbBlocks d buf))
    else .error ()
  else
    .ok (buf.drop (buf.length / 16 * 16), ecbBlocks d (buf.take (buf.length / 16 * 16)))

/-- The `Decryptor::decrypt` loop (`while !input.is_empty()`), fuel-based;
`reached_to_end` is forwarded on the iteration that consumes the rest of the
input (`buffered == input.len()`). Returns (new buffer, concatenated sink
output). -/
def decGoF (d : List Nat → List Nat) :
    Nat → List Nat → List Nat → Bool → Except Unit (List Nat × List Nat)
  | 0, buf, _, _ => .ok (buf, [])
  | fuel + 1, buf, input, rte =>
    if input.isEmpty then .ok (buf, [])
    else
      match decSink d (buf ++ input.take (min input.length (1024 - buf.length)))
          (rte && min input.length (1024 - buf.length) == input.length) with
      | .error e => .error e
      | .ok (buf3, out1) =>
        match decGoF d fuel buf3 (input.drop (min input.length (1024 - buf.length))) rte with
        | .error e => .error e
        | .ok (buf4, out2) => .ok (buf4, out1 ++ out2)

/-- `Decryptor::decrypt(input, reached_to_end)`. -/
def decDecrypt (d : List Nat → List Nat) (buf input : List Nat) (rte : Bool) :
    Except Unit (List Nat × List Nat) :=
  decGoF d (input.length + 1) buf input rte

theorem decGoF_nil (d : List Nat → List Nat) (fuel : Nat) (buf : List Nat)
    (rte : Bool) : decGoF d fuel buf [] rte = .ok (buf, []) := by
  cases fuel <;> simp [decGoF]

theorem pkcs7_append (A B : List Nat) (hB : 16 ≤ B.length) :
    pkcs7Ok (A ++ B) = pkcs7Ok B ∧
      (pkcs7Ok B = true → pkcs7Unpad (A ++ B) = A ++ pkcs7Unpad B) := by
  have hBne : B ≠ [] := by
    intro h
    rw [h] at hB
    simp at hB
  have hlast : (A ++ B).getLast? = B.getLast? := by
    rw [List.getLast?_append]
    cases hb : B.getLast? with
    | none => exact absurd (List.getLast?_eq_none_iff.mp hb) hBne
    | some x => rfl
  by_cases hn : B.getLast?.getD 0 ≤ 16
  · have hdrop : (A ++ B).drop ((A ++ B).length - B.getLast?.getD 0) =
        B.drop (B.length - B.getLast?.getD 0) := by
      have : (A ++ B).length - B.getLast?.getD 0 =
          A.length + (B.length - B.getLast?.getD 0) := by
        rw [List.length_append]
        omega
      rw [this, drop_append_add]
    constructor
    · unfold pkcs7Ok
      rw [hlast, hdrop]
    · intro _
      unfold pkcs7Unpad
      rw [hlast]
      have : (A ++ B).length - B.getLast?.getD 0 =
          A.length + (B.length - B.getLast?.getD 0) := by
        rw [List.length_append]
        omega
      rw [this, take_append_add]
  · constructor
    · unfold pkcs7Ok
      rw [hlast]
      have : (B.getLast?.getD 0 ≤ 16) = False := by simp [hn]
      simp only [decide_eq_true_eq] at *
      rw [Bool.and_comm (decide (1 ≤ B.getLast?.getD 0))]
      simp [hn]
    · intro hok
      exfalso
      unfold pkcs7Ok at hok
      simp only [Bool.and_eq_true, decide_eq_true_eq] at hok
      omega

theorem decSink_pad (d : List Nat → List Nat) (buf : List Nat) :
    decSink d buf true =
      if buf.length % 16 = 0 ∧ 1 ≤ buf.length ∧ pkcs7Ok (ecbBlocks d buf) then
        .ok ([], pkcs7Unpad (ecbBlocks d buf))
      else .error () := rfl

theorem decSink_nopad (d : List Nat → List Nat) (buf : List Nat) :
    decSink d buf false =
      .ok (buf.drop (buf.length / 16 * 16),
        ecbBlocks d (buf.take (buf.length / 16 * 16))) := rfl

theorem decGoF_step_ok (d : List Nat → List Nat) (n : Nat)
    (buf input : List Nat) (rte : Bool) (x1 x2 y1 y2 : List Nat)
    (hne : ¬ input.isEmpty)
    (hs : decSink d (buf ++ input.take (min input.length (1024 - buf.length)))
        (rte && (min input.length (1024 - buf.length) == input.length)) =
        .ok (x1, x2))
    (hr : decGoF d n x1 (input.drop (min input.length (1024 - buf.length))) rte =
        .ok (y1, y2)) :
    decGoF d (n + 1) buf input rte = .ok (y1, x2 ++ y2) := by
  rw [decGoF, if_neg hne, hs]
  show (match decGoF d n x1 (input.drop (min input.length (1024 - buf.length))) rte with
    | Except.error e => Except.error e
    | Except.ok (b4, out2) =>
        (Except.ok (b4, x2 ++ out2) : Except Unit (List Nat × List Nat))) =
      Except.ok (y1, x2 ++ y2)
  rw [hr]

theorem decGoF_true (d : List Nat → List Nat)
    (hdlen : ∀ b : List Nat, b.length = 16 → (d b).length = 16) :
    ∀ fuel buf input, buf.length < 16 → input ≠ [] → input.length + 1 ≤ fuel →
      (buf ++ input).length % 16 = 0 →
      pkcs7Ok (ecbBlocks d (buf ++ input)) = true →
      decGoF d fuel buf input true =
        .ok ([], pkcs7Unpad (ecbBlocks d (buf ++ input))) := by
  intro fuel
  induction fuel with
  | zero =>
    intro buf input _ hne hf _ _
    have := List.length_pos.mpr hne
    omega
  | succ n ih =>
    intro buf input hbuf hne hf hmod hok
    have hinlen : 1 ≤ input.length := List.length_pos.mpr hne
    have hne' : ¬ input.isEmpty := by simpa [List.isEmpty_iff] using hne
    by_cases hfit : min input.length (1024 - buf.length) = input.length
    · have htake : input.take (min input.length (1024 - buf.length)) = input := by
        rw [hfit, List.take_length]
      have hdrop : input.drop (min input.length (1024 - buf.length)) = [] := by
        rw [hfit, List.drop_length]
      have hcond : (true && (min input.length (1024 - buf.length) == input.length)) = true := by
        rw [hfit]
        simp
      have hs : decSink d (buf ++ input.take (min input.length (1024 - buf.length)))
          (true && (min input.length (1024 - buf.length) == input.length)) =
          .ok ([], pkcs7Unpad (ecbBlocks d (buf ++ input))) := by
        rw [htake, hcond, decSink_pad]
        rw [if_pos ⟨hmod, by rw [List.length_append]; omega, hok⟩]
      have hout := decGoF_step_ok d n buf input true []
        (pkcs7Unpad (ecbBlocks d (buf ++ input))) [] [] hne' hs
        (by rw [hdrop]; exact decGoF_nil d n [] true)
      rw [hout, List.append_nil]
    · have hmle : min input.length (1024 - buf.length) ≤ input.length := Nat.min_le_left _ _
      have hmlt : min input.length (1024 - buf.length) < input.length := by omega
      have hm1 : 1 ≤ min input.length (1024 - buf.length) := by omega
      have htklen : (input.take (min input.length (1024 - buf.length))).length =
          min input.length (1024 - buf.length) := by
        simp
      have hcond : (true && (min input.length (1024 - buf.length) == input.length)) = false := by
        simp only [Bool.true_and, beq_eq_false_iff_ne, ne_eq]
        omega
      have hs : decSink d (buf ++ input.take (min input.length (1024 - buf.length)))
          (true && (min input.length (1024 - buf.length) == input.length)) =
          .ok ((buf ++ input.take (min input.length (1024 - buf.length))).drop
                ((buf ++ input.take (min input.length (1024 - buf.length))).length / 16 * 16),
              ecbBlocks d ((buf ++ input.take (min input.length (1024 - buf.length))).take
                ((buf ++ input.take (min input.length (1024 - buf.length))).length / 16 * 16))) := by
        rw [hcond, decSink_nopad]
      have hl2 : (buf ++ input.take (min input.length (1024 - buf.length))).length =
          buf.length + min input.length (1024 - buf.length) := by
        rw [List.length_append, htklen]
      have hbuf3 : ((buf ++ input.take (min input.length (1024 - buf.length))).drop
          ((buf ++ input.take (min input.length (1024 - buf.length))).length / 16 * 16)).length < 16 := by
        simp only [List.length_drop]
        omega
      have hrestne : input.drop (min input.length (1024 - buf.length)) ≠ [] := by
        intro h
        have := congrArg List.length h
        simp only [List.length_drop, List.length_nil] at this
        omega
      have hrestfuel : (input.drop (min input.length (1024 - buf.length))).length + 1 ≤ n := by
        simp only [List.length_drop]
        omega
      have hcmod : ((buf ++ input.take (min input.length (1024 - buf.length))).take
          ((buf ++ input.take (min input.length (1024 - buf.length))).length / 16 * 16)).length % 16 = 0 := by
        simp only [List.length_take]
        omega
      have hdecomp : buf ++ input =
          (buf ++ input.take (min input.length (1024 - buf.length))).take
            ((buf ++ input.take (min input.length (1024 - buf.length))).length / 16 * 16) ++
          ((buf ++ input.take (min input.length (1024 - buf.length))).drop
            ((buf ++ input.take (min input.length (1024 - buf.length))).length / 16 * 16) ++
            input.drop (min input.length (1024 - buf.length))) := by
        rw [← List.append_assoc, List.take_append_drop, List.append_assoc,
          List.take_append_drop]
      have hmod3 : ((buf ++ input.take (min input.length (1024 - buf.length))).drop
          ((buf ++ input.take (min input.length (1024 - buf.length))).length / 16 * 16) ++
          input.drop (min input.length (1024 - buf.length))).length % 16 = 0 := by
        have := congrArg List.length hdecomp
        simp only [List.length_append] at this hmod ⊢
        simp only [List.length_take, List.length_drop] at this ⊢
        omega
      have hB : ecbBlocks d (buf ++ input) =
          ecbBlocks d ((buf ++ input.take (min input.length (1024 - buf.length))).take
            ((buf ++ input.take (min input.length (1024 - buf.length))).length / 16 * 16)) ++
          ecbBlocks d ((buf ++ input.take (min input.length (1024 - buf.length))).drop
            ((buf ++ input.take (min input.length (1024 - buf.length))).length / 16 * 16) ++
            input.drop (min input.length (1024 - buf.length))) := by
        conv_lhs => rw [hdecomp]
        rw [ecbBlocks_append d ((buf ++ input.take (min input.length (1024 - buf.length))).take
            ((buf ++ input.take (min input.length (1024 - buf.length))).length / 16 * 16)).length
          _ _ (le_refl _) hcmod]
      have hBlen : (ecbBlocks d ((buf ++ input.take (min input.length (1024 - buf.length))).drop
          ((buf ++ input.take (min input.length (1024 - buf.length))).length / 16 * 16) ++
          input.drop (min input.length (1024 - buf.length)))).length =
          ((buf ++ input.take (min input.length (1024 - buf.length))).drop
            ((buf ++ input.take (min input.length (1024 - buf.length))).length / 16 * 16) ++
            input.drop (min input.length (1024 - buf.length))).length :=
        ecbBlocks_length d hdlen _ _ (le_refl _) hmod3
      have hBge : 16 ≤ (ecbBlocks d ((buf ++ input.take (min input.length (1024 - buf.length))).drop
          ((buf ++ input.take (min input.length (1024 - buf.length))).length / 16 * 16) ++
          input.drop (min input.length (1024 - buf.length)))).length := by
        rw [hBlen]
        have hrp := List.length_pos.mpr hrestne
        simp only [List.length_append, List.length_drop] at hmod3 ⊢
        omega
      have hpk := pkcs7_append
        (ecbBlocks d ((buf ++ input.take (min input.length (1024 - buf.length))).take
          ((buf ++ input.take (min input.length (1024 - buf.length))).length / 16 * 16)))
        (ecbBlocks d ((buf ++ input.take (min input.length (1024 - buf.length))).drop
          ((buf ++ input.take (min input.length (1024 - buf.length))).length / 16 * 16) ++
          input.drop (min input.length (1024 - buf.length)))) hBge
      rw [hB] at hok
      rw [hpk.1] at hok
      have hih := ih ((buf ++ input.take (min input.length (1024 - buf.length))).drop
          ((buf ++ input.take (min input.length (1024 - buf.length))).length / 16 * 16))
        (input.drop (min input.length (1024 - buf.length))) hbuf3 hrestne hrestfuel hmod3 hok
      have hout := decGoF_step_ok d n buf input true _ _ [] _ hne' hs hih
      rw [hout, hB, hpk.2 hok]

theorem encFlush_eq (e : List Nat → List Nat) (buf : List Nat) :
    encFlush e buf =
      ([], ecbBlocks e
        (buf ++ List.replicate (16 - buf.length % 16) (16 - buf.length % 16))) := rfl

theorem pkcs7_padded (p : List Nat) :
    pkcs7Ok (p ++ List.replicate (16 - p.length % 16) (16 - p.length % 16)) = true ∧
      pkcs7Unpad (p ++ List.replicate (16 - p.length % 16) (16 - p.length % 16)) = p := by
  have hn1 : 1 ≤ 16 - p.length % 16 := by omega
  have hlast : (p ++ List.replicate (16 - p.length % 16) (16 - p.length % 16)).getLast? =
      some (16 - p.length % 16) := by
    rw [List.getLast?_append]
    obtain ⟨m, hm⟩ : ∃ m, 16 - p.length % 16 = m + 1 := ⟨16 - p.length % 16 - 1, by omega⟩
    rw [hm, List.getLast?_replicate]
    rfl
  have hlen : (p ++ List.replicate (16 - p.length % 16) (16 - p.length % 16)).length =
      p.length + (16 - p.length % 16) := by
    simp
  constructor
  · unfold pkcs7Ok
    rw [hlast]
    simp only [Option.getD_some, Bool.and_eq_true, decide_eq_true_eq]
    refine ⟨⟨hn1, by omega⟩, ?_⟩
    rw [hlen]
    rw [show p.length + (16 - p.length % 16) - (16 - p.length % 16) = p.length from by omega]
    rw [List.drop_left]
    simp
  · unfold pkcs7Unpad
    rw [hlast]
    simp only [Option.getD_some]
    rw [hlen]
    rw [show p.length + (16 - p.length % 16) - (16 - p.length % 16) = p.length from by omega]
    rw [List.take_left]

/-- C5: streaming-cipher chunking invariance and round trip. For every
partition of a byte string into consecutive slices, feeding the slices as
successive `Input` operations leaves the encryptor in the same state and
produces the same ciphertext bytes as a single `Input` of the whole string
(so after the common `Flush` the total ciphertexts coincide); and decrypting
that ciphertext with `reached_to_end = true` recovers exactly the original
byte string. Stated over an abstract 16-byte block permutation (e, d):
`e` maps blocks to blocks and `d` inverts it, as AES-128 does. -/
theorem C5_stream_cipher (e d : List Nat → List Nat)
    (he : ∀ b : List Nat, b.length = 16 → (e b).length = 16)
    (hdlen : ∀ b : List Nat, b.length = 16 → (d b).length = 16)
    (hd : ∀ b : List Nat, b.length = 16 → d (e b) = b)
    (parts : List (List Nat)) :
    encInputs e [] parts = encInput e [] parts.flatten ∧
      (encInputs e [] parts).2 ++ (encFlush e (encInputs e [] parts).1).2 =
        (encInput e [] parts.flatten).2 ++
          (encFlush e (encInput e [] parts.flatten).1).2 ∧
      decDecrypt d []
        ((encInput e [] parts.flatten).2 ++
          (encFlush e (encInput e [] parts.flatten).1).2) true =
        .ok ([], parts.flatten) := by
  have hsame : encInputs e [] parts = encInput e [] parts.flatten := by
    rw [encInputs_char e parts [] (by simp), encInput_char e [] parts.flatten (by simp)]
  refine ⟨hsame, by rw [hsame], ?_⟩
  have h1 : encInput e [] parts.flatten = encChar e parts.flatten := by
    rw [encInput_char e [] parts.flatten (by simp), List.nil_append]
  rw [h1]
  have hdl : (encChar e parts.flatten).1.length % 16 =
      parts.flatten.length % 16 := by
    rw [encChar_fst_length]
    omega
  have hct : (encChar e parts.flatten).2 ++ (encFlush e (encChar e parts.flatten).1).2 =
      ecbBlocks e (parts.flatten ++
        List.replicate (16 - parts.flatten.length % 16)
          (16 - parts.flatten.length % 16)) := by
    rw [encFlush_eq]
    rw [hdl]
    show ecbBlocks e (parts.flatten.take (parts.flatten.length / 16 * 16)) ++
        ecbBlocks e (parts.flatten.drop (parts.flatten.length / 16 * 16) ++
          List.replicate (16 - parts.flatten.length % 16)
            (16 - parts.flatten.length % 16)) = _
    rw [← ecbBlocks_append e
      (parts.flatten.take (parts.flatten.length / 16 * 16)).length _ _
      (le_refl _) (by simp only [List.length_take]; omega)]
    rw [← List.append_assoc, List.take_append_drop]
  rw [hct]
  have hplen : (parts.flatten ++
      List.replicate (16 - parts.flatten.length % 16)
        (16 - parts.flatten.length % 16)).length =
      parts.flatten.length + (16 - parts.flatten.length % 16) := by
    simp
  have hpmod : (parts.flatten ++
      List.replicate (16 - parts.flatten.length % 16)
        (16 - parts.flatten.length % 16)).length % 16 = 0 := by
    rw [hplen]
    omega
  have hctlen : (ecbBlocks e (parts.flatten ++
      List.replicate (16 - parts.flatten.length % 16)
        (16 - parts.flatten.length % 16))).length =
      (parts.flatten ++
        List.replicate (16 - parts.flatten.length % 16)
          (16 - parts.flatten.length % 16)).length :=
    ecbBlocks_length e he _ _ (le_refl _) hpmod
  have hctne : ecbBlocks e (parts.flatten ++
      List.replicate (16 - parts.flatten.length % 16)
        (16 - parts.flatten.length % 16)) ≠ [] := by
    intro h
    have := congrArg List.length h
    rw [hctlen, hplen] at this
    simp at this
    omega
  have hrt : ecbBlocks d (ecbBlocks e (parts.flatten ++
      List.replicate (16 - parts.flatten.length % 16)
        (16 - parts.flatten.length % 16))) =
      parts.flatten ++
        List.replicate (16 - parts.flatten.length % 16)
          (16 - parts.flatten.length % 16) :=
    ecb_roundtrip e d he hd _ _ (le_refl _) hpmod
  unfold decDecrypt
  have happly := decGoF_true d hdlen
    ((ecbBlocks e (parts.flatten ++
      List.replicate (16 - parts.flatten.length % 16)
        (16 - parts.flatten.length % 16))).length + 1) []
    (ecbBlocks e (parts.flatten ++
      List.replicate (16 - parts.flatten.length % 16)
        (16 - parts.flatten.length % 16)))
    (by simp) hctne (le_refl _)
    (by rw [List.nil_append, hctlen]; exact hpmod)
    (by rw [List.nil_append, hrt]; exact (pkcs7_padded parts.flatten).1)
  rw [happly]
  rw [List.nil_append, hrt, (pkcs7_padded parts.flatten).2]

/-- C5 witness: block function = list reversal (a 16-byte block permutation
with its own inverse), plaintext [1,2,3,4,5] split as [1,2,3] ++ [4,5]. -/
theorem C5_witness :
    ((∀ b : List Nat, b.length = 16 → (b.reverse).length = 16) ∧
      (∀ b : List Nat, b.length = 16 → (b.reverse).length = 16) ∧
      (∀ b : List Nat, b.length = 16 → (b.reverse).reverse = b)) ∧
      (encInputs List.reverse [] [[1, 2, 3], [4, 5]] =
          encInput List.reverse [] ([[1, 2, 3], [4, 5]] : List (List Nat)).flatten ∧
        (encInputs List.reverse [] [[1, 2, 3], [4, 5]]).2 ++
            (encFlush List.reverse (encInputs List.reverse [] [[1, 2, 3], [4, 5]]).1).2 =
          (encInput List.reverse [] ([[1, 2, 3], [4, 5]] : List (List Nat)).flatten).2 ++
            (encFlush List.reverse
              (encInput List.reverse [] ([[1, 2, 3], [4, 5]] : List (List Nat)).flatten).1).2 ∧
        decDecrypt List.reverse []
          ((encInput List.reverse [] ([[1, 2, 3], [4, 5]] : List (List Nat)).flatten).2 ++
            (encFlush List.reverse
              (encInput List.reverse [] ([[1, 2, 3], [4, 5]] : List (List Nat)).flatten).1).2)
          true = .ok ([], ([[1, 2, 3], [4, 5]] : List (List Nat)).flatten)) :=
  ⟨⟨fun b hb => by rw [List.length_reverse, hb],
    fun b hb => by rw [List.length_reverse, hb],
    fun b _ => List.reverse_reverse b⟩,
    C5_stream_cipher List.reverse List.reverse
      (fun b hb => by rw [List.length_reverse, hb])
      (fun b hb => by rw [List.length_reverse, hb])
      (fun b _ => List.reverse_reverse b) [[1, 2, 3], [4, 5]]⟩

/-! ## Chunk sink of the parser (src/pinenut/src/parse.rs `Processor::chunk_sink`)

Per inbound payload slice the closure does `read_len += bytes.len()`,
computes `reached_to_end = read_len == payload_len` and calls
`decryptor.decrypt(bytes, reached_to_end && !writeback, ..)`. Only the flag
sequence matters here; the slices are abstracted by their contents. -/

/-- The `reached_to_end && !writeback` flags passed to the decryptor for a
sequence of payload slices, starting from accumulated `read_len`. -/
def chunkSinkFlags (payloadLen : Nat) (writeback : Bool) :
    Nat → List (List Nat) → List Bool
  | _, [] => []
  | readLen, b :: bs =>
    ((readLen + b.length == payloadLen) && !writeback) ::
      chunkSinkFlags payloadLen writeback (readLen + b.length) bs

theorem chunkSinkFlags_getD (pl : Nat) (wb : Bool) :
    ∀ (bs : List (List Nat)) (readLen i : Nat), i < bs.length →
      (chunkSinkFlags pl wb readLen bs).getD i false =
        ((readLen + ((bs.take (i + 1)).flatten).length == pl) && !wb) := by
  intro bs
  induction bs with
  | nil => intro _ i hi; simp at hi
  | cons b bs ih =>
    intro readLen i hi
    cases i with
    | zero =>
      rw [chunkSinkFlags, List.getD_cons_zero]
      rw [show (b :: bs).take 1 = [b] from rfl]
      simp
    | succ j =>
      rw [chunkSinkFlags, List.getD_cons_succ]
      rw [ih (readLen + b.length) j (by simpa using hi)]
      rw [show readLen + b.length + ((bs.take (j + 1)).flatten).length =
          readLen + ((((b :: bs).take (j + 1 + 1)).flatten).length) from by
        rw [List.take_succ_cons, List.flatten_cons, List.length_append]
        omega]

theorem chunkSinkFlags_writeback (pl : Nat) :
    ∀ (bs : List (List Nat)) (readLen : Nat),
      (chunkSinkFlags pl true readLen bs).all (fun f => f == false) = true := by
  intro bs
  induction bs with
  | nil => intro readLen; rfl
  | cons b bs ih =>
    intro readLen
    rw [chunkSinkFlags]
    simp only [List.all_cons, Bool.not_true, Bool.and_false]
    rw [ih (readLen + b.length)]
    rfl

theorem decGoF_false (d : List Nat → List Nat) :
    ∀ fuel buf input, buf.length < 16 → input.length + 1 ≤ fuel →
      decGoF d fuel buf input false = .ok (encChar d (buf ++ input)) := by
  intro fuel
  induction fuel with
  | zero => intro buf input h hf; omega
  | succ n ih =>
    intro buf input hbuf hf
    by_cases hin : input.isEmpty
    · rw [decGoF, if_pos hin]
      rw [List.isEmpty_iff.mp hin]
      unfold encChar
      have h0 : (buf ++ []).length / 16 * 16 = 0 := by
        simp only [List.append_nil]
        omega
      rw [h0]
      simp [ecbBlocks_nil]
    · have hinlen : 1 ≤ input.length := by
        rcases input with _ | _
        · simp at hin
        · simp
      have hbl : 1 ≤ min input.length (1024 - buf.length) := by omega
      have hcond : (false && (min input.length (1024 - buf.length) == input.length)) = false := by
        simp
      have hs : decSink d (buf ++ input.take (min input.length (1024 - buf.length)))
          (false && (min input.length (1024 - buf.length) == input.length)) =
          .ok ((encChar d (buf ++ input.take (min input.length (1024 - buf.length)))).1,
            (encChar d (buf ++ input.take (min input.length (1024 - buf.length)))).2) := by
        rw [hcond]
        rfl
      have hbuf3 : (encChar d (buf ++ input.take (min input.length (1024 - buf.length)))).1.length < 16 := by
        rw [encChar_fst_length]
        omega
      have hreclen : (input.drop (min input.length (1024 - buf.length))).length + 1 ≤ n := by
        simp only [List.length_drop]
        omega
      have hr : decGoF d n (encChar d (buf ++ input.take (min input.length (1024 - buf.length)))).1
          (input.drop (min input.length (1024 - buf.length))) false =
          .ok ((encChar d ((encChar d (buf ++ input.take (min input.length (1024 - buf.length)))).1 ++
              input.drop (min input.length (1024 - buf.length)))).1,
            (encChar d ((encChar d (buf ++ input.take (min input.length (1024 - buf.length)))).1 ++
              input.drop (min input.length (1024 - buf.length)))).2) := by
        rw [ih _ _ hbuf3 hreclen]
      have hout := decGoF_step_ok d n buf input false _ _ _ _ hin hs hr
      rw [hout]
      have hjoin : buf ++ input =
          (buf ++ input.take (min input.length (1024 - buf.length))) ++
            input.drop (min input.length (1024 - buf.length)) := by
        rw [List.append_assoc, List.take_append_drop]
      conv_rhs => rw [hjoin,
        encChar_append d (buf ++ input.take (min input.length (1024 - buf.length)))
          (input.drop (min input.length (1024 - buf.length)))]

/-- C6: during parsing of one chunk, the flag handed to the decryptor for
the i-th inbound slice is true iff the cumulative bytes read through that
slice equal the chunk's payload length and the writeback flag is clear; for
a writeback chunk every call (including the final one) passes false, and a
decryptor driven with `reached_to_end = false` emits only whole decrypted
blocks, keeping the trailing truncated block in its buffer — it is never
PKCS#7-unpadded nor emitted. -/
theorem C6_parser_final_flag (payloadLen : Nat) (writeback : Bool)
    (bs : List (List Nat)) (d : List Nat → List Nat) (ct : List Nat)
    (i : Nat) (hi : i < bs.length) :
    ((chunkSinkFlags payloadLen writeback 0 bs).getD i false = true ↔
      (((bs.take (i + 1)).flatten).length = payloadLen ∧ writeback = false)) ∧
      (chunkSinkFlags payloadLen true 0 bs).all (fun f => f == false) = true ∧
      decDecrypt d [] ct false =
        .ok (ct.drop (ct.length / 16 * 16), ecbBlocks d (ct.take (ct.length / 16 * 16))) := by
  refine ⟨?_, chunkSinkFlags_writeback payloadLen bs 0, ?_⟩
  · rw [chunkSinkFlags_getD payloadLen writeback bs 0 i hi]
    cases writeback <;> simp
  · unfold decDecrypt
    rw [decGoF_false d (ct.length + 1) [] ct (by simp) (le_refl _)]
    rw [List.nil_append]
    rfl

/-- C6 witness: payload length 5 over slices [1,2] and [3,4,5] (flag for
slice index 1 is true exactly because 2+3 = 5 and writeback is clear), and a
17-byte ciphertext decrypted with final=false keeps the 17th byte
buffered. -/
theorem C6_witness :
    1 < 2 ∧
      (((chunkSinkFlags 5 false 0 [[1, 2], [3, 4, 5]]).getD 1 false = true ↔
        ((([[1, 2], [3, 4, 5]] : List (List Nat)).take 2).flatten.length = 5 ∧
          false = false)) ∧
        (chunkSinkFlags 5 true 0 [[1, 2], [3, 4, 5]]).all (fun f => f == false) = true ∧
        decDecrypt id []
            [1, 2, 3, 4, 5, 6, 7, 8, 9, 10, 11, 12, 13, 14, 15, 16, 17] false =
          .ok ([17],
            ecbBlocks id [1, 2, 3, 4, 5, 6, 7, 8, 9, 10, 11, 12, 13, 14, 15, 16])) := by
  have h := C6_parser_final_flag 5 false [[1, 2], [3, 4, 5]] id
    [1, 2, 3, 4, 5, 6, 7, 8, 9, 10, 11, 12, 13, 14, 15, 16, 17] 1 (by decide)
  refine ⟨by decide, h.1, h.2.1, ?_⟩
  rw [h.2.2]
  rfl

/-! ## Pipeline infrastructure: sequential chunk writes -/

/-- The payload bytes currently stored in a chunk. -/
def chunkPayload (d : List Nat) : List Nat :=
  (d.drop headerLen).take (chunkPayloadLen d)

theorem writeBytes_splice : ∀ (bs d : List Nat) (off : Nat),
    off + bs.length ≤ d.length →
    writeBytes d off bs = d.take off ++ bs ++ d.drop (off + bs.length) := by
  intro bs
  induction bs with
  | nil =>
    intro d off h
    simp only [writeBytes, List.nil_append, List.length_nil, Nat.add_zero]
    rw [List.append_nil]
    exact (List.take_append_drop off d).symm
  | cons b rest ih =>
    intro d off h
    simp only [List.length_cons] at h
    have hofflt : off < d.length := by omega
    rw [writeBytes, ih (d.set off b) (off + 1) (by simp; omega)]
    rw [List.set_eq_take_append_cons_drop, if_pos hofflt]
    rw [List.take_append_eq_append_take]
    rw [show (d.take off).length = off from by simp; omega]
    rw [List.take_take, show min (off + 1) off = off from by omega]
    rw [show off + 1 - off = 1 from by omega]
    rw [show (b :: d.drop (off + 1)).take 1 = [b] from rfl]
    rw [List.drop_append_eq_append_drop]
    rw [show (d.take off).length = off from by simp; omega]
    have hd1 : (d.take off).drop (off + 1 + rest.length) = [] :=
      List.drop_eq_nil_of_le (by simp; omega)
    rw [hd1, List.nil_append]
    rw [show off + 1 + rest.length - off = rest.length + 1 from by omega]
    rw [show (b :: d.drop (off + 1)).drop (rest.length + 1) =
        (d.drop (off + 1)).drop rest.length from rfl]
    rw [List.drop_drop]
    rw [show off + (b :: rest).length = off + 1 + rest.length from by
      simp; omega]
    simp [List.append_assoc]

theorem chunkSetPayloadLen_drop60 (d : List Nat) (len : Nat)
    (h : 10 ≤ d.length) :
    (chunkSetPayloadLen d len).drop headerLen = d.drop headerLen := by
  have h60 : headerLen = 60 := rfl
  rw [h60]
  unfold chunkSetPayloadLen
  have hlb4 : (leBytes 4 len).length = 4 := rfl
  rw [writeBytes_splice (leBytes 4 len) d 6 (by omega)]
  rw [List.drop_append_eq_append_drop]
  rw [List.drop_append_eq_append_drop]
  have h6 : (d.take 6).length = 6 := by simp; omega
  rw [h6, hlb4]
  rw [List.drop_eq_nil_of_le (by omega : (d.take 6).length ≤ 60)]
  rw [List.drop_eq_nil_of_le (by omega : (leBytes 4 len).length ≤ 60 - 6)]
  rw [List.drop_drop]
  simp only [List.nil_append]
  rw [List.length_append, h6, hlb4]

theorem chunkWrite_success (d bytes : List Nat) (hlen : headerLen ≤ d.length)
    (hcap : chunkCapacity d < 2 ^ 32)
    (hfit : chunkPayloadLen d + bytes.length ≤ chunkCapacity d) :
    (chunkWrite d bytes).2 = none ∧
      (chunkWrite d bytes).1.length = d.length ∧
      chunkPayloadLen (chunkWrite d bytes).1 =
        chunkPayloadLen d + bytes.length ∧
      chunkPayload (chunkWrite d bytes).1 = chunkPayload d ++ bytes := by
  have h60 : headerLen = 60 := rfl
  have hcd : chunkCapacity d = d.length - headerLen := rfl
  have hwin : headerLen + chunkPayloadLen d + bytes.length ≤ d.length := by omega
  have he : chunkWrite d bytes =
      (chunkSetPayloadLen (writeBytes d (headerLen + chunkPayloadLen d) bytes)
        (chunkPayloadLen d + bytes.length), none) := by
    rw [chunkWrite, if_neg (by omega)]
  rw [he]
  have hw1len : (writeBytes d (headerLen + chunkPayloadLen d) bytes).length =
      d.length := writeBytes_length _ _ _
  have hpl : chunkPayloadLen (chunkSetPayloadLen
      (writeBytes d (headerLen + chunkPayloadLen d) bytes)
      (chunkPayloadLen d + bytes.length)) =
      chunkPayloadLen d + bytes.length := by
    show leRead (chunkSetPayloadLen _ _) 6 4 = _
    unfold chunkSetPayloadLen
    rw [leRead_writeBytes_leBytes 4 _ 6 _ (by rw [hw1len]; omega)]
    have hb : chunkPayloadLen d + bytes.length < 256 ^ 4 := by
      have h2 : (256 : Nat) ^ 4 = 2 ^ 32 := by norm_num
      omega
    exact Nat.mod_eq_of_lt hb
  have hslen : (chunkSetPayloadLen (writeBytes d (headerLen + chunkPayloadLen d) bytes)
      (chunkPayloadLen d + bytes.length)).length = d.length := by
    unfold chunkSetPayloadLen
    rw [writeBytes_length, hw1len]
  refine ⟨rfl, hslen, hpl, ?_⟩
  unfold chunkPayload
  rw [hpl]
  rw [chunkSetPayloadLen_drop60 _ _ (by rw [hw1len]; omega)]
  rw [writeBytes_splice bytes d (headerLen + chunkPayloadLen d) hwin]
  rw [List.drop_append_eq_append_drop]
  rw [List.drop_append_eq_append_drop]
  have htk : (d.take (headerLen + chunkPayloadLen d)).length =
      headerLen + chunkPayloadLen d := by
    simp
    omega
  rw [List.length_append, htk]
  rw [show headerLen - (headerLen + chunkPayloadLen d) = 0 from by omega,
    List.drop_zero]
  rw [show headerLen - (headerLen + chunkPayloadLen d + bytes.length) = 0 from by
    omega, List.drop_zero]
  rw [List.drop_take]
  rw [show headerLen + chunkPayloadLen d - headerLen = chunkPayloadLen d from by
    omega]
  rw [List.take_append_eq_append_take]
  rw [List.length_append]
  rw [show ((d.drop headerLen).take (chunkPayloadLen d)).length =
      chunkPayloadLen d from by simp; omega]
  rw [show chunkPayloadLen d + bytes.length -
      (chunkPayloadLen d + bytes.length) = 0 from by omega]
  rw [List.take_zero, List.append_nil]
  rw [List.take_of_length_le (by
    rw [List.length_append]
    rw [show ((d.drop headerLen).take (chunkPayloadLen d)).length =
      chunkPayloadLen d from by simp; omega]
    : ((d.drop headerLen).take (chunkPayloadLen d) ++ bytes).length ≤
      chunkPayloadLen d + bytes.length)]

/-- Sequential `Chunk::write` of a list of byte slices (the chunk sink of
the processor receives the encryptor's emissions one by one). -/
def chunkWriteAll (d : List Nat) : List (List Nat) → List Nat × Option ChunkError
  | [] => (d, none)
  | b :: bs =>
    match chunkWrite d b with
    | (d2, none) => chunkWriteAll d2 bs
    | (d2, some e) => (d2, some e)

theorem chunkWriteAll_success : ∀ (bs : List (List Nat)) (d : List Nat),
    headerLen ≤ d.length → chunkCapacity d < 2 ^ 32 →
    chunkPayloadLen d + bs.flatten.length ≤ chunkCapacity d →
    (chunkWriteAll d bs).2 = none ∧
      (chunkWriteAll d bs).1.length = d.length ∧
      chunkPayloadLen (chunkWriteAll d bs).1 =
        chunkPayloadLen d + bs.flatten.length ∧
      chunkPayload (chunkWriteAll d bs).1 = chunkPayload d ++ bs.flatten := by
  intro bs
  induction bs with
  | nil =>
    intro d hlen hcap hfit
    exact ⟨rfl, rfl, by simp [chunkWriteAll], by simp [chunkWriteAll]⟩
  | cons b rest ih =>
    intro d hlen hcap hfit
    have hbfl : (b :: rest).flatten.length = b.length + rest.flatten.length := by
      simp
    have hs := chunkWrite_success d b hlen hcap (by omega)
    have hd2 : chunkWrite d b = ((chunkWrite d b).1, none) := by
      rw [← hs.1]
    rw [chunkWriteAll, hd2]
    show (chunkWriteAll (chunkWrite d b).1 rest).2 = none ∧
      (chunkWriteAll (chunkWrite d b).1 rest).1.length = d.length ∧
      chunkPayloadLen (chunkWriteAll (chunkWrite d b).1 rest).1 =
        chunkPayloadLen d + (b :: rest).flatten.length ∧
      chunkPayload (chunkWriteAll (chunkWrite d b).1 rest).1 =
        chunkPayload d ++ (b :: rest).flatten
    have hcap2 : chunkCapacity (chunkWrite d b).1 = chunkCapacity d := by
      unfold chunkCapacity
      rw [hs.2.1]
    have hih := ih (chunkWrite d b).1 (by rw [hs.2.1]; exact hlen)
      (by rw [hcap2]; exact hcap)
      (by rw [hcap2, hs.2.2.1]; omega)
    refine ⟨hih.1, by rw [hih.2.1, hs.2.1], ?_, ?_⟩
    · rw [hih.2.2.1, hs.2.2.1, hbfl]
      omega
    · rw [hih.2.2.2, hs.2.2.2, List.flatten_cons, List.append_assoc]

/-! ## Pipeline infrastructure: the chunk sink driving the decryptor -/

/-- Splitting off the decryptor's complete-block prefix keeps the PKCS#7
check and unpadding confined to the remaining data. -/
theorem unpad_strip (d : List Nat → List Nat)
    (hdlen : ∀ b : List Nat, b.length = 16 → (d b).length = 16)
    (t u : List Nat) (hu : u ≠ []) (hmod : (t ++ u).length % 16 = 0) :
    ((encChar d t).1 ++ u).length % 16 = 0 ∧
      (pkcs7Ok (ecbBlocks d (t ++ u)) = pkcs7Ok (ecbBlocks d ((encChar d t).1 ++ u))) ∧
      (pkcs7Ok (ecbBlocks d ((encChar d t).1 ++ u)) = true →
        (encChar d t).2 ++ pkcs7Unpad (ecbBlocks d ((encChar d t).1 ++ u)) =
          pkcs7Unpad (ecbBlocks d (t ++ u))) := by
  have hLt : t.length / 16 * 16 ≤ t.length := Nat.div_mul_le_self _ _
  have hc : (t.take (t.length / 16 * 16)).length = t.length / 16 * 16 := by
    simp
    omega
  have hr : ((encChar d t).1).length = t.length % 16 := encChar_fst_length d t
  have hmod2 : ((encChar d t).1 ++ u).length % 16 = 0 := by
    rw [List.length_append, hr]
    rw [List.length_append] at hmod
    omega
  have hdecomp : t ++ u = t.take (t.length / 16 * 16) ++ ((encChar d t).1 ++ u) := by
    show t ++ u = t.take (t.length / 16 * 16) ++ (t.drop (t.length / 16 * 16) ++ u)
    rw [← List.append_assoc, List.take_append_drop]
  have hdist : ecbBlocks d (t ++ u) =
      ecbBlocks d (t.take (t.length / 16 * 16)) ++
        ecbBlocks d ((encChar d t).1 ++ u) := by
    conv_lhs => rw [hdecomp]
    rw [ecbBlocks_append d (t.take (t.length / 16 * 16)).length _ _ (le_refl _)
      (by rw [hc]; omega)]
  have hBlen : (ecbBlocks d ((encChar d t).1 ++ u)).length =
      ((encChar d t).1 ++ u).length :=
    ecbBlocks_length d hdlen _ _ (le_refl _) hmod2
  have hBge : 16 ≤ (ecbBlocks d ((encChar d t).1 ++ u)).length := by
    rw [hBlen, List.length_append, hr]
    have h1 := List.length_pos.mpr hu
    rw [List.length_append] at hmod
    omega
  have hpk := pkcs7_append (ecbBlocks d (t.take (t.length / 16 * 16)))
    (ecbBlocks d ((encChar d t).1 ++ u)) hBge
  refine ⟨hmod2, by rw [hdist, hpk.1], ?_⟩
  intro hok
  have hc2 : (encChar d t).2 = ecbBlocks d (t.take (t.length / 16 * 16)) := rfl
  rw [hc2, hdist, hpk.2 hok]

/-- `Processor::chunk_sink` driving the decryptor over the payload slices:
`read_len` accumulates, the decryptor is called per slice with
`reached_to_end && !writeback`, outputs stream onward. -/
def parseSinkGo (d : List Nat → List Nat) (payloadLen : Nat) (writeback : Bool) :
    Nat → List Nat → List (List Nat) → Except Unit (List Nat × List Nat)
  | _, buf, [] => .ok (buf, [])
  | readLen, buf, b :: bs =>
    match decDecrypt d buf b
        ((readLen + b.length == payloadLen) && !writeback) with
    | .error e => .error e
    | .ok (buf2, out1) =>
      match parseSinkGo d payloadLen writeback (readLen + b.length) buf2 bs with
      | .error e => .error e
      | .ok (buf3, out2) => .ok (buf3, out1 ++ out2)

theorem parseSinkGo_spec (d : List Nat → List Nat)
    (hdlen : ∀ b : List Nat, b.length = 16 → (d b).length = 16)
    (payloadLen : Nat) :
    ∀ (bs : List (List Nat)) (readLen : Nat) (buf : List Nat),
      bs ≠ [] → (∀ b ∈ bs, b ≠ []) →
      readLen + bs.flatten.length = payloadLen →
      buf.length < 16 →
      (buf ++ bs.flatten).length % 16 = 0 →
      pkcs7Ok (ecbBlocks d (buf ++ bs.flatten)) = true →
      parseSinkGo d payloadLen false readLen buf bs =
        .ok ([], pkcs7Unpad (ecbBlocks d (buf ++ bs.flatten))) := by
  intro bs
  induction bs with
  | nil => intro _ _ h; exact absurd rfl h
  | cons b rest ih =>
    intro readLen buf _ hne hsum hbuf hmod hok
    have hbne : b ≠ [] := hne b (by simp)
    rcases rest with _ | ⟨r0, rest'⟩
    · have hflb : (([b] : List (List Nat))).flatten = b := by simp
      rw [hflb] at hsum hmod hok ⊢
      have hflag : ((readLen + b.length == payloadLen) && !false) = true := by
        simp
        omega
      rw [parseSinkGo, hflag]
      have hdec : decDecrypt d buf b true =
          .ok ([], pkcs7Unpad (ecbBlocks d (buf ++ b))) := by
        unfold decDecrypt
        exact decGoF_true d hdlen (b.length + 1) buf b hbuf hbne (le_refl _)
          hmod hok
      rw [hdec]
      show (Except.ok ([], pkcs7Unpad (ecbBlocks d (buf ++ b)) ++ []) :
        Except Unit (List Nat × List Nat)) = _
      rw [List.append_nil]
    · have hrne : (r0 :: rest').flatten ≠ [] := by
        have hr0 : r0 ≠ [] := hne r0 (by simp)
        simp only [List.flatten_cons]
        intro hcon
        rcases List.append_eq_nil.mp hcon with ⟨h1, _⟩
        exact hr0 h1
      have hflat : (b :: r0 :: rest').flatten = b ++ (r0 :: rest').flatten := by
        simp
      rw [hflat] at hsum hmod hok
      have hflag : ((readLen + b.length == payloadLen) && !false) = false := by
        simp only [Bool.not_false, Bool.and_true, beq_eq_false_iff_ne, ne_eq]
        rw [List.length_append] at hsum
        have := List.length_pos.mpr hrne
        omega
      rw [parseSinkGo, hflag]
      have hdec : decDecrypt d buf b false =
          .ok ((encChar d (buf ++ b)).1, (encChar d (buf ++ b)).2) := by
        unfold decDecrypt
        rw [decGoF_false d (b.length + 1) buf b hbuf (le_refl _)]
      rw [hdec]
      have hmod' : ((buf ++ b) ++ (r0 :: rest').flatten).length % 16 = 0 := by
        rw [List.append_assoc]
        exact hmod
      have hok' : pkcs7Ok (ecbBlocks d ((buf ++ b) ++ (r0 :: rest').flatten)) = true := by
        rw [List.append_assoc]
        exact hok
      have hstrip := unpad_strip d hdlen (buf ++ b) ((r0 :: rest').flatten)
        hrne hmod'
      have hok2 : pkcs7Ok (ecbBlocks d ((encChar d (buf ++ b)).1 ++
          (r0 :: rest').flatten)) = true := by
        rw [← hstrip.2.1]
        exact hok'
      have hih := ih (readLen + b.length) (encChar d (buf ++ b)).1
        (by simp) (fun x hx => hne x (by simp [hx]))
        (by rw [List.length_append] at hsum; omega)
        (by rw [encChar_fst_length]; omega)
        hstrip.1 hok2
      show (match parseSinkGo d payloadLen false (readLen + b.length)
          (encChar d (buf ++ b)).1 (r0 :: rest') with
        | Except.error e => (Except.error e : Except Unit (List Nat × List Nat))
        | Except.ok (buf3, out2) =>
            Except.ok (buf3, (encChar d (buf ++ b)).2 ++ out2)) = _
      rw [hih]
      show (Except.ok ([], (encChar d (buf ++ b)).2 ++
          pkcs7Unpad (ecbBlocks d ((encChar d (buf ++ b)).1 ++
            (r0 :: rest').flatten))) : Except Unit (List Nat × List Nat)) = _
      rw [hstrip.2.2 hok2]
      rw [show (buf ++ b) ++ (r0 :: rest').flatten =
          buf ++ (b :: r0 :: rest').flatten from by
        rw [List.append_assoc, ← hflat]]

/-! ## Pipeline infrastructure: abstract compressor / decompressor

compress.rs defines stream compressors as state machines reacting to
`Input`/`Flush`/`End` and decompressors reacting to input slices; the zstd
pair is external C code, abstracted here as state machines whose round trip
is a hypothesis; the `Option::<T>::None` implementations (`null`
compression: pass input through, ignore `Flush`/`End`) instantiate it. -/

structure StreamComp (σ : Type) where
  input : σ → List Nat → σ × List Nat
  flush : σ → σ × List Nat
  endOp : σ → σ × List Nat

structure StreamDecomp (τ : Type) where
  input : τ → List Nat → τ × List Nat

/-- Feed one record's encoder emissions to the compressor (`CompressOp::Input`
per slice). -/
def compGroup {σ : Type} (C : StreamComp σ) (st : σ) :
    List (List Nat) → σ × List Nat
  | [] => (st, [])
  | sl :: sls =>
    ((compGroup C (C.input st sl).1 sls).1,
      (C.input st sl).2 ++ (compGroup C (C.input st sl).1 sls).2)

/-- Per record: emissions then `CompressOp::Flush`
(logger.rs `Processor::process`, `Operation::Input`). -/
def compRecords {σ : Type} (C : StreamComp σ) (st : σ) :
    List (List (List Nat)) → σ × List Nat
  | [] => (st, [])
  | g :: gs =>
    ((compRecords C (C.flush (compGroup C st g).1).1 gs).1,
      (compGroup C st g).2 ++ (C.flush (compGroup C st g).1).2 ++
        (compRecords C (C.flush (compGroup C st g).1).1 gs).2)

/-- The whole compressed stream: per-record processing followed by
`CompressOp::End` at shutdown (`Operation::Rotate`). -/
def compRun {σ : Type} (C : StreamComp σ) (st : σ)
    (gs : List (List (List Nat))) : List Nat :=
  (compRecords C st gs).2 ++ (C.endOp (compRecords C st gs).1).2

/-- Feed slices of the compressed stream to the decompressor
(parse.rs decompress per decrypted slice). -/
def decompRun {τ : Type} (D : StreamDecomp τ) (st : τ) :
    List (List Nat) → τ × List Nat
  | [] => (st, [])
  | sl :: sls =>
    ((decompRun D (D.input st sl).1 sls).1,
      (D.input st sl).2 ++ (decompRun D (D.input st sl).1 sls).2)

/-- compress.rs `impl Compressor for Option<T>`, `None` case: `Input` writes
its bytes to the sink directly, `Flush`/`End` do nothing. -/
def nullComp : StreamComp Unit :=
  ⟨fun s b => (s, b), fun s => (s, []), fun s => (s, [])⟩

/-- compress.rs `impl Decompressor for Option<T>`, `None` case: input is
passed through to the sink. -/
def nullDecomp : StreamDecomp Unit :=
  ⟨fun s b => (s, b)⟩

theorem nullCompGroup (st : Unit) :
    ∀ g : List (List Nat), compGroup nullComp st g = (st, g.flatten) := by
  intro g
  induction g with
  | nil => rfl
  | cons sl sls ih => rw [compGroup, ih]; rfl

theorem nullCompRun (st : Unit) :
    ∀ gs : List (List (List Nat)),
      compRun nullComp st gs = (gs.map List.flatten).flatten := by
  have hrec : ∀ gs st, compRecords nullComp st gs = (st, (gs.map List.flatten).flatten) := by
    intro gs
    induction gs with
    | nil => intro st; rfl
    | cons g gs ih =>
      intro st
      rw [compRecords, nullCompGroup]
      show ((compRecords nullComp ((nullComp.flush st).1) gs).1,
        g.flatten ++ (nullComp.flush st).2 ++ (compRecords nullComp ((nullComp.flush st).1) gs).2) = _
      rw [show (nullComp.flush st).1 = st from rfl, ih st]
      show (st, g.flatten ++ [] ++ (gs.map List.flatten).flatten) = _
      rw [List.append_nil]
      rfl
  intro gs
  unfold compRun
  rw [hrec gs st]
  show (gs.map List.flatten).flatten ++ [] = _
  rw [List.append_nil]

theorem nullDecompRun (st : Unit) :
    ∀ rsl : List (List Nat), (decompRun nullDecomp st rsl).2 = rsl.flatten := by
  intro rsl
  induction rsl with
  | nil => rfl
  | cons sl sls ih =>
    rw [decompRun]
    show sl ++ (decompRun nullDecomp st sls).2 = _
    rw [ih]
    rfl

theorem accumEncode_flatten (em : List (List Nat)) :
    (accumEncode 256 em).1.flatten = em.flatten := by
  obtain ⟨hj, _⟩ := accumEncodeGo_spec 256 (by omega) em [] (by simp)
  unfold accumEncode
  rw [List.flatten_append]
  show (accumEncodeGo 256 [] em).2.flatten ++ ((accumEncodeGo 256 [] em).1 ++ []) = _
  rw [List.append_nil, hj, List.nil_append]

/-- Total ciphertext of one encryptor session: Inputs totalling `p`, then
`Flush`: the ECB encryption of `p` with its PKCS#7 padding. -/
theorem encrypt_total (e : List Nat → List Nat) (p : List Nat) :
    (encInput e [] p).2 ++ (encFlush e (encInput e [] p).1).2 =
      ecbBlocks e (p ++ List.replicate (16 - p.length % 16) (16 - p.length % 16)) := by
  have h1 : encInput e [] p = encChar e p := by
    rw [encInput_char e [] p (by simp), List.nil_append]
  rw [h1]
  have hdl : (encChar e p).1.length % 16 = p.length % 16 := by
    rw [encChar_fst_length]
    omega
  rw [encFlush_eq]
  rw [hdl]
  show ecbBlocks e (p.take (p.length / 16 * 16)) ++
      ecbBlocks e (p.drop (p.length / 16 * 16) ++
        List.replicate (16 - p.length % 16) (16 - p.length % 16)) = _
  rw [← ecbBlocks_append e (p.take (p.length / 16 * 16)).length _ _
    (le_refl _) (by simp only [List.length_take]; omega)]
  rw [← List.append_assoc, List.take_append_drop]

/-! ## The record parser (src/pinenut/src/parse.rs `RecordParser`)

`parse` buffers as many incoming bytes as fit (`BytesBuf` of capacity
`BUFFER_LEN`), decodes complete records from the front of the buffer
(callback per record), stops at `UnexpectedEnd`, drains the decoded bytes
and reports how many input bytes it consumed; `parse_all` repeats until the
input slice is consumed. Record callbacks are modelled by collecting the
records in order. -/

/-- lib.rs `BUFFER_LEN`. -/
def BUFFER_LEN : Nat := 320 * 1024

/-- The byte stream produced by encoding a sequence of records. -/
def streamOf (rs : List Record) : List Nat := (rs.map encodeRecord).flatten

/-- Parser-buffer invariant: the buffer is empty or holds a strict prefix of
the encoding of the next expected record. -/
def BufInv (pre : List Nat) (rs : List Record) : Prop :=
  pre = [] ∨ ∃ r rs' k, rs = r :: rs' ∧ k < (encodeRecord r).length ∧
    pre = (encodeRecord r).take k

/-- The decode loop of `RecordParser::parse` (fuel-based): decode records
off the front of `source`, remembering `read_len = buffer.len - source.len`
after each success; stop cleanly at the end or at `UnexpectedEnd`. -/
def parseLoopF (bufLen : Nat) : Nat → List Nat → Nat → List Record →
    Except DecodingError (List Record × Nat)
  | 0, _, readLen, acc => .ok (acc.reverse, readLen)
  | fuel + 1, source, readLen, acc =>
    if source.isEmpty then .ok (acc.reverse, readLen)
    else
      match decodeRecord source with
      | .ok (r, rest) => parseLoopF bufLen fuel rest (bufLen - rest.length) (r :: acc)
      | .error (.unexpectedEnd _) => .ok (acc.reverse, readLen)
      | .error e => .error e

/-- One `RecordParser::parse` call: buffer what fits, run the decode loop,
drain the decoded bytes, return (records, new buffer, consumed input). -/
def parseOnce (buf bytes : List Nat) :
    Except DecodingError (List Record × List Nat × Nat) :=
  match parseLoopF (buf ++ bytes.take (min bytes.length (BUFFER_LEN - buf.length))).length
      ((buf ++ bytes.take (min bytes.length (BUFFER_LEN - buf.length))).length + 1)
      (buf ++ bytes.take (min bytes.length (BUFFER_LEN - buf.length))) 0 [] with
  | .error e => .error e
  | .ok (recs, readLen) =>
    .ok (recs,
      (buf ++ bytes.take (min bytes.length (BUFFER_LEN - buf.length))).drop readLen,
      min bytes.length (BUFFER_LEN - buf.length))

/-- `RecordParser::parse_all` (fuel-based): call `parse` until the slice is
consumed. -/
def parseAllF : Nat → List Nat → List Nat →
    Except DecodingError (List Record × List Nat)
  | 0, buf, _ => .ok ([], buf)
  | fuel + 1, buf, bytes =>
    if bytes.isEmpty then .ok ([], buf)
    else
      match parseOnce buf bytes with
      | .error e => .error e
      | .ok (recs, buf2, consumed) =>
        match parseAllF fuel buf2 (bytes.drop consumed) with
        | .error e => .error e
        | .ok (recs2, buf3) => .ok (recs ++ recs2, buf3)

def parseAll (buf bytes : List Nat) : Except DecodingError (List Record × List Nat) :=
  parseAllF (bytes.length + 1) buf bytes

/-- `parse_all` per decompressed slice, threading the parser buffer. -/
def parseSlices : List Nat → List (List Nat) →
    Except DecodingError (List Record × List Nat)
  | buf, [] => .ok ([], buf)
  | buf, sl :: sls =>
    match parseAll buf sl with
    | .error e => .error e
    | .ok (recs, buf2) =>
      match parseSlices buf2 sls with
      | .error e => .error e
      | .ok (recs2, buf3) => .ok (recs ++ recs2, buf3)

theorem encodeRecord_length_pos (r : Record) : 1 ≤ (encodeRecord r).length := by
  show 1 ≤ (encodeMeta r.meta ++ encodeStr r.content).length
  rw [List.length_append]
  show 1 ≤ (encodeLevel r.meta.level ++ encodeDateTime r.meta.datetime ++
    encodeLocation r.meta.location ++ encodeOption encodeStr r.meta.tag ++
    encodeOption encodeVarint r.meta.threadId).length + _
  simp only [List.length_append]
  show 1 ≤ ([r.meta.level.primitive] : List Nat).length + _ + _ + _ + _ + _
  simp only [List.length_singleton]
  omega

theorem streamOf_length_ge (rs : List Record) :
    rs.length ≤ (streamOf rs).length := by
  induction rs with
  | nil => simp [streamOf]
  | cons r rs ih =>
    show (r :: rs).length ≤ ((r :: rs).map encodeRecord).flatten.length
    rw [List.map_cons, List.flatten_cons, List.length_append, List.length_cons]
    have h1 := encodeRecord_length_pos r
    have := ih
    unfold streamOf at this
    omega

/-- Decompose a prefix of an encoded record stream into whole records plus a
strict prefix of the next record's encoding. -/
theorem prefix_decompose : ∀ (rs : List Record) (p w : List Nat),
    streamOf rs = p ++ w →
    ∃ rsDone rs2 pre2,
      rs = rsDone ++ rs2 ∧ p = streamOf rsDone ++ pre2 ∧ BufInv pre2 rs2 ∧
      streamOf rs2 = pre2 ++ w := by
  intro rs
  induction rs with
  | nil =>
    intro p w h
    unfold streamOf at h
    simp only [List.map_nil, List.flatten_nil] at h
    obtain ⟨hp, hw⟩ := List.append_eq_nil.mp h.symm
    exact ⟨[], [], [], rfl, by simp [streamOf, hp], Or.inl rfl,
      by simp [streamOf, hp, hw]⟩
  | cons r rs' ih =>
    intro p w h
    have hs : streamOf (r :: rs') = encodeRecord r ++ streamOf rs' := by
      unfold streamOf
      simp
    rw [hs] at h
    by_cases hlt : p.length < (encodeRecord r).length
    · refine ⟨[], r :: rs', p, rfl, by simp [streamOf], ?_, by rw [hs, ← h]⟩
      right
      refine ⟨r, rs', p.length, rfl, hlt, ?_⟩
      have : p = (p ++ w).take p.length := by simp
      rw [this, ← h, List.take_append_eq_append_take]
      rw [show p.length - (encodeRecord r).length = 0 from by omega]
      simp
    · push_neg at hlt
      have hptake : encodeRecord r = p.take (encodeRecord r).length := by
        have h1 : encodeRecord r = (encodeRecord r ++ streamOf rs').take
            (encodeRecord r).length := by simp
        rw [h1, h, List.take_append_eq_append_take]
        rw [show (encodeRecord r).length - p.length = 0 from by omega]
        simp
      have hrest : streamOf rs' = p.drop (encodeRecord r).length ++ w := by
        have h1 : streamOf rs' = (encodeRecord r ++ streamOf rs').drop
            (encodeRecord r).length := by simp
        rw [h1, h, List.drop_append_eq_append_drop]
        rw [show (encodeRecord r).length - p.length = 0 from by omega]
        simp
      obtain ⟨rsDone, rs2, pre2, h1, h2, h3, h4⟩ :=
        ih (p.drop (encodeRecord r).length) w hrest
      refine ⟨r :: rsDone, rs2, pre2, by rw [List.cons_append, h1], ?_, h3, h4⟩
      have hps : p = encodeRecord r ++ p.drop (encodeRecord r).length := by
        conv_lhs => rw [← List.take_append_drop (encodeRecord r).length p]
        rw [← hptake]
      rw [hps, h2]
      unfold streamOf
      simp [List.append_assoc]

theorem parseLoopF_spec (bufLen : Nat) (rsNext : List Record) (pre : List Nat)
    (hinv : BufInv pre rsNext)
    (hwfN : ∀ r ∈ rsNext, r.WF ∧ 0 ≤ r.meta.datetime.secs) :
    ∀ (rsDone : List Record), (∀ r ∈ rsDone, r.WF ∧ 0 ≤ r.meta.datetime.secs) →
      ∀ (fuel readLen : Nat) (acc : List Record), rsDone.length + 1 ≤ fuel →
        parseLoopF bufLen fuel (streamOf rsDone ++ pre) readLen acc =
          .ok (acc.reverse ++ rsDone,
            if rsDone.isEmpty then readLen else bufLen - pre.length) := by
  intro rsDone
  induction rsDone with
  | nil =>
    intro _ fuel readLen acc hfuel
    obtain ⟨f, rfl⟩ : ∃ f, fuel = f + 1 := ⟨fuel - 1, by omega⟩
    rcases hinv with hpre | ⟨r, rs', k, hrs, hk, hpre⟩
    · subst hpre
      simp [parseLoopF, streamOf]
    · subst hpre
      by_cases hk0 : k = 0
      · subst hk0
        simp [parseLoopF, streamOf]
      · have hwfr := hwfN r (by rw [hrs]; simp)
        obtain ⟨m, hm⟩ := (roundTrips_record r hwfr.1 hwfr.2).2 k hk
        have hsrc : streamOf [] ++ (encodeRecord r).take k =
            (encodeRecord r).take k := by
          simp [streamOf]
        rw [hsrc, parseLoopF]
        rw [if_neg (by
          simp only [List.isEmpty_iff]
          intro hcon
          have hlc := congrArg List.length hcon
          simp only [List.length_take, List.length_nil] at hlc
          omega)]
        rw [hm]
        simp
    | cons r rsRest ih =>
      intro hwfD fuel readLen acc hfuel
      obtain ⟨f, rfl⟩ : ∃ f, fuel = f + 1 := ⟨fuel - 1, by omega⟩
      have hwfr := hwfD r (by simp)
      have hsrc : streamOf (r :: rsRest) ++ pre =
          encodeRecord r ++ (streamOf rsRest ++ pre) := by
        unfold streamOf
        simp
      rw [hsrc, parseLoopF]
      rw [if_neg (by
        simp only [List.isEmpty_iff]
        intro hcon
        have hlc := congrArg List.length hcon
        simp only [List.length_append, List.length_nil] at hlc
        have := encodeRecord_length_pos r
        omega)]
      rw [(roundTrips_record r hwfr.1 hwfr.2).1 (streamOf rsRest ++ pre)]
      show parseLoopF bufLen f (streamOf rsRest ++ pre)
          (bufLen - (streamOf rsRest ++ pre).length) (r :: acc) = _
      rw [ih (fun x hx => hwfD x (by simp [hx])) f
        (bufLen - (streamOf rsRest ++ pre).length) (r :: acc)
        (by simp at hfuel ⊢; omega)]
      have hif : (if rsRest.isEmpty then
          bufLen - (streamOf rsRest ++ pre).length else bufLen - pre.length) =
          bufLen - pre.length := by
        rcases rsRest with _ | _
        · simp [streamOf]
        · rfl
      rw [hif]
      simp

theorem parseOnce_spec (rs : List Record) (pre bytes z : List Nat)
    (hinv : BufInv pre rs)
    (hwf : ∀ r ∈ rs, r.WF ∧ 0 ≤ r.meta.datetime.secs)
    (hlen : ∀ r ∈ rs, (encodeRecord r).length ≤ BUFFER_LEN)
    (hz : streamOf rs = pre ++ (bytes ++ z))
    (hbne : bytes ≠ []) :
    ∃ rsOut rs2 pre2,
      parseOnce pre bytes =
        .ok (rsOut, pre2, min bytes.length (BUFFER_LEN - pre.length)) ∧
      rs = rsOut ++ rs2 ∧ BufInv pre2 rs2 ∧
      streamOf rs2 = pre2 ++
        (bytes.drop (min bytes.length (BUFFER_LEN - pre.length)) ++ z) ∧
      1 ≤ min bytes.length (BUFFER_LEN - pre.length) := by
  have hB : BUFFER_LEN = 327680 := rfl
  have hpreB : pre.length < BUFFER_LEN := by
    rcases hinv with hpre | ⟨r, rs', k, hrs, hk, hpre⟩
    · rw [hpre]
      simp
      omega
    · have hrlen := hlen r (by rw [hrs]; simp)
      rw [hpre]
      simp only [List.length_take]
      omega
  have hbl : 1 ≤ bytes.length := List.length_pos.mpr hbne
  have hm1 : 1 ≤ min bytes.length (BUFFER_LEN - pre.length) := by omega
  have hstream : streamOf rs =
      (pre ++ bytes.take (min bytes.length (BUFFER_LEN - pre.length))) ++
        (bytes.drop (min bytes.length (BUFFER_LEN - pre.length)) ++ z) := by
    rw [hz]
    rw [List.append_assoc, ← List.append_assoc (bytes.take _)]
    rw [List.take_append_drop]
  obtain ⟨rsDone, rs2, pre2, hsplit, hbuf2, hinv2, hstream2⟩ :=
    prefix_decompose rs
      (pre ++ bytes.take (min bytes.length (BUFFER_LEN - pre.length)))
      (bytes.drop (min bytes.length (BUFFER_LEN - pre.length)) ++ z) hstream
  have hwfDone : ∀ r ∈ rsDone, r.WF ∧ 0 ≤ r.meta.datetime.secs :=
    fun x hx => hwf x (by rw [hsplit]; exact List.mem_append.mpr (Or.inl hx))
  have hwf2 : ∀ r ∈ rs2, r.WF ∧ 0 ≤ r.meta.datetime.secs :=
    fun x hx => hwf x (by rw [hsplit]; exact List.mem_append.mpr (Or.inr hx))
  have hfuel : rsDone.length + 1 ≤
      (pre ++ bytes.take (min bytes.length (BUFFER_LEN - pre.length))).length + 1 := by
    have h1 := streamOf_length_ge rsDone
    have h2 := congrArg List.length hbuf2
    simp only [List.length_append] at h2 ⊢
    omega
  have hloop := parseLoopF_spec
    (pre ++ bytes.take (min bytes.length (BUFFER_LEN - pre.length))).length
    rs2 pre2 hinv2 hwf2 rsDone hwfDone
    ((pre ++ bytes.take (min bytes.length (BUFFER_LEN - pre.length))).length + 1)
    0 [] hfuel
  rw [← hbuf2] at hloop
  simp only [List.reverse_nil, List.nil_append] at hloop
  have hdrop : (pre ++ bytes.take (min bytes.length (BUFFER_LEN - pre.length))).drop
      (if rsDone.isEmpty then 0
        else (pre ++ bytes.take (min bytes.length (BUFFER_LEN - pre.length))).length -
          pre2.length) = pre2 := by
    by_cases hD : rsDone = []
    · subst hD
      rw [hbuf2]
      simp [streamOf]
    · rw [if_neg (by simpa [List.isEmpty_iff] using hD)]
      rw [hbuf2]
      rw [show (streamOf rsDone ++ pre2).length - pre2.length =
          (streamOf rsDone).length from by
        simp only [List.length_append]
        omega]
      exact List.drop_left _ _
  refine ⟨rsDone, rs2, pre2, ?_, hsplit, hinv2, hstream2, hm1⟩
  unfold parseOnce
  rw [hloop]
  show Except.ok (rsDone,
    (pre ++ bytes.take (min bytes.length (BUFFER_LEN - pre.length))).drop
      (if rsDone.isEmpty then 0
        else (pre ++ bytes.take (min bytes.length (BUFFER_LEN - pre.length))).length -
          pre2.length),
    min bytes.length (BUFFER_LEN - pre.length)) = _
  rw [hdrop]

theorem parseAllF_spec :
    ∀ (fuel : Nat) (bytes pre : List Nat) (rs : List Record) (z : List Nat),
      BufInv pre rs →
      (∀ r ∈ rs, r.WF ∧ 0 ≤ r.meta.datetime.secs) →
      (∀ r ∈ rs, (encodeRecord r).length ≤ BUFFER_LEN) →
      streamOf rs = pre ++ (bytes ++ z) →
      bytes.length + 1 ≤ fuel →
      ∃ rsOut rs2 pre2,
        parseAllF fuel pre bytes = .ok (rsOut, pre2) ∧
        rs = rsOut ++ rs2 ∧ BufInv pre2 rs2 ∧ streamOf rs2 = pre2 ++ z := by
  intro fuel
  induction fuel with
  | zero => intro bytes pre rs z _ _ _ _ h; omega
  | succ f ih =>
    intro bytes pre rs z hinv hwf hlen hz hfuel
    by_cases hbe : bytes.isEmpty
    · rw [parseAllF, if_pos hbe]
      rw [List.isEmpty_iff.mp hbe] at hz
      exact ⟨[], rs, pre, rfl, rfl, hinv, by rw [hz, List.nil_append]⟩
    · have hbne : bytes ≠ [] := by simpa [List.isEmpty_iff] using hbe
      obtain ⟨rsOut1, rs2a, pre2a, honce, hsplit1, hinv1, hstream1, hm1⟩ :=
        parseOnce_spec rs pre bytes z hinv hwf hlen hz hbne
      have hwf1 : ∀ r ∈ rs2a, r.WF ∧ 0 ≤ r.meta.datetime.secs :=
        fun x hx => hwf x (by rw [hsplit1]; exact List.mem_append.mpr (Or.inr hx))
      have hlen1 : ∀ r ∈ rs2a, (encodeRecord r).length ≤ BUFFER_LEN :=
        fun x hx => hlen x (by rw [hsplit1]; exact List.mem_append.mpr (Or.inr hx))
      have hfuel2 : (bytes.drop (min bytes.length (BUFFER_LEN - pre.length))).length + 1 ≤ f := by
        simp only [List.length_drop]
        omega
      obtain ⟨rsOut2, rs2, pre2, hrec, hsplit2, hinv2, hstream2⟩ :=
        ih (bytes.drop (min bytes.length (BUFFER_LEN - pre.length))) pre2a rs2a z
          hinv1 hwf1 hlen1 hstream1 hfuel2
      refine ⟨rsOut1 ++ rsOut2, rs2, pre2, ?_, ?_, hinv2, hstream2⟩
      · rw [parseAllF, if_neg hbe, honce]
        show (match parseAllF f pre2a
            (bytes.drop (min bytes.length (BUFFER_LEN - pre.length))) with
          | Except.error e => (Except.error e :
              Except DecodingError (List Record × List Nat))
          | Except.ok (recs2, buf3) => Except.ok (rsOut1 ++ recs2, buf3)) = _
        rw [hrec]
      · rw [hsplit1, hsplit2, List.append_assoc]

theorem parseSlices_spec :
    ∀ (sls : List (List Nat)) (pre : List Nat) (rs : List Record) (z : List Nat),
      BufInv pre rs →
      (∀ r ∈ rs, r.WF ∧ 0 ≤ r.meta.datetime.secs) →
      (∀ r ∈ rs, (encodeRecord r).length ≤ BUFFER_LEN) →
      streamOf rs = pre ++ (sls.flatten ++ z) →
      ∃ rsOut rs2 pre2,
        parseSlices pre sls = .ok (rsOut, pre2) ∧
        rs = rsOut ++ rs2 ∧ BufInv pre2 rs2 ∧ streamOf rs2 = pre2 ++ z := by
  intro sls
  induction sls with
  | nil =>
    intro pre rs z hinv hwf hlen hz
    exact ⟨[], rs, pre, rfl, rfl, hinv, by
      rw [hz]
      simp⟩
  | cons sl sls ih =>
    intro pre rs z hinv hwf hlen hz
    have hz1 : streamOf rs = pre ++ (sl ++ (sls.flatten ++ z)) := by
      rw [hz, List.flatten_cons, List.append_assoc]
    obtain ⟨rsOut1, rs2a, pre2a, hall, hsplit1, hinv1, hstream1⟩ :=
      parseAllF_spec (sl.length + 1) sl pre rs (sls.flatten ++ z) hinv hwf hlen
        hz1 (le_refl _)
    have hwf1 : ∀ r ∈ rs2a, r.WF ∧ 0 ≤ r.meta.datetime.secs :=
      fun x hx => hwf x (by rw [hsplit1]; exact List.mem_append.mpr (Or.inr hx))
    have hlen1 : ∀ r ∈ rs2a, (encodeRecord r).length ≤ BUFFER_LEN :=
      fun x hx => hlen x (by rw [hsplit1]; exact List.mem_append.mpr (Or.inr hx))
    obtain ⟨rsOut2, rs2, pre2, hrec, hsplit2, hinv2, hstream2⟩ :=
      ih pre2a rs2a z hinv1 hwf1 hlen1 hstream1
    refine ⟨rsOut1 ++ rsOut2, rs2, pre2, ?_, ?_, hinv2, hstream2⟩
    · rw [parseSlices]
      rw [show parseAll pre sl = parseAllF (sl.length + 1) pre sl from rfl, hall]
      show (match parseSlices pre2a sls with
        | Except.error e => (Except.error e :
            Except DecodingError (List Record × List Nat))
        | Except.ok (recs2, buf3) => Except.ok (rsOut1 ++ recs2, buf3)) = _
      rw [hrec]
    · rw [hsplit1, hsplit2, List.append_assoc]

theorem parser_final (rs2 : List Record) (pre2 : List Nat)
    (hinv : BufInv pre2 rs2) (hstream : streamOf rs2 = pre2 ++ []) :
    rs2 = [] ∧ pre2 = [] := by
  rw [List.append_nil] at hstream
  rcases hinv with hpre | ⟨r, rs', k, hrs, hk, hpre⟩
  · subst hpre
    refine ⟨?_, rfl⟩
    rcases rs2 with _ | ⟨r, rs'⟩
    · rfl
    · exfalso
      have h1 := congrArg List.length hstream
      have h2 := streamOf_length_ge (r :: rs')
      simp only [List.length_nil, List.length_cons] at h1 h2
      omega
  · exfalso
    subst hpre hrs
    have h1 := congrArg List.length hstream
    have h2 : (streamOf (r :: rs')).length =
        (encodeRecord r).length + (streamOf rs').length := by
      unfold streamOf
      simp
    simp only [List.length_take] at h1
    omega

/-- C1 (amended): the full pipeline round trip. Records are encoded through
the `AccumulationEncoder`, the emissions compressed (abstract stream
compressor, `Flush` per record, `End` at shutdown), the compressed stream
encrypted (AES-ECB model over an abstract 16-byte block permutation) and the
ciphertext written slice-wise into a chunk; parsing reads the payload back
in arbitrary nonempty slices, the chunk sink drives the decryptor (final
flag on the last slice), the plaintext is decompressed (abstract
decompressor inverting the compressor) and the record parser decodes and
calls back. For well-formed records with nonnegative (post-1970) timestamps
whose encodings fit the parser buffer, with the ciphertext fitting the
chunk, the callback receives exactly the logged records, in order, all
fields equal, and every intermediate stage is lossless. The original claim
over all records is refuted separately: pre-1970 timestamps are clamped by
the encoder. -/
theorem C1_pipeline_roundtrip {σ τ : Type}
    (C : StreamComp σ) (c0 : σ) (D : StreamDecomp τ) (t0 : τ)
    (e d : List Nat → List Nat)
    (he : ∀ b : List Nat, b.length = 16 → (e b).length = 16)
    (hdlen : ∀ b : List Nat, b.length = 16 → (d b).length = 16)
    (hd : ∀ b : List Nat, b.length = 16 → d (e b) = b)
    (Hcd : ∀ (gs : List (List (List Nat))) (rsl : List (List Nat)),
      rsl.flatten = compRun C c0 gs →
      (decompRun D t0 rsl).2 = (gs.map List.flatten).flatten)
    (rs : List Record) (ems : List (List (List Nat)))
    (hems : ems.map List.flatten = rs.map encodeRecord)
    (hwf : ∀ r ∈ rs, r.WF ∧ 0 ≤ r.meta.datetime.secs)
    (hrlen : ∀ r ∈ rs, (encodeRecord r).length ≤ BUFFER_LEN)
    (cparts : List (List Nat))
    (hcp : cparts.flatten = compRun C c0 (ems.map (fun em => (accumEncode 256 em).1)))
    (ctSlices : List (List Nat))
    (hct : ctSlices.flatten =
      (encInputs e [] cparts).2 ++ (encFlush e (encInputs e [] cparts).1).2)
    (d0 : List Nat) (hd0len : headerLen ≤ d0.length)
    (hd0cap : chunkCapacity d0 < 2 ^ 32) (hd0empty : chunkPayloadLen d0 = 0)
    (hfit : ctSlices.flatten.length ≤ chunkCapacity d0)
    (paySlices : List (List Nat))
    (hpay : paySlices.flatten = chunkPayload (chunkWriteAll d0 ctSlices).1)
    (hpne : ∀ b ∈ paySlices, b ≠ []) (hpsne : paySlices ≠ [])
    (rsl : List (List Nat))
    (hrsl : rsl.flatten = pkcs7Unpad (ecbBlocks d paySlices.flatten))
    (pslices : List (List Nat))
    (hpsl : pslices.flatten = (decompRun D t0 rsl).2) :
    (chunkWriteAll d0 ctSlices).2 = none ∧
      chunkPayload (chunkWriteAll d0 ctSlices).1 = ctSlices.flatten ∧
      parseSinkGo d (chunkPayloadLen (chunkWriteAll d0 ctSlices).1) false 0 []
          paySlices =
        .ok ([], pkcs7Unpad (ecbBlocks d paySlices.flatten)) ∧
      (decompRun D t0 rsl).2 = (rs.map encodeRecord).flatten ∧
      parseSlices [] pslices = .ok (rs, []) := by
  have hgsmap : ((ems.map (fun em => (accumEncode 256 em).1)).map List.flatten).flatten =
      (rs.map encodeRecord).flatten := by
    rw [List.map_map]
    rw [show (List.flatten ∘ fun em : List (List Nat) => (accumEncode 256 em).1) =
        List.flatten from funext fun em => accumEncode_flatten em]
    rw [hems]
  have hIC : encInputs e [] cparts = encInput e [] cparts.flatten := by
    rw [encInputs_char e cparts [] (by simp), encInput_char e [] cparts.flatten (by simp)]
  have hctv : ctSlices.flatten =
      ecbBlocks e (cparts.flatten ++
        List.replicate (16 - cparts.flatten.length % 16)
          (16 - cparts.flatten.length % 16)) := by
    rw [hct, hIC, encrypt_total]
  obtain ⟨P, hP⟩ : ∃ P, cparts.flatten = P := ⟨_, rfl⟩
  rw [hP] at hctv hcp
  have hpadmod : (P ++ List.replicate (16 - P.length % 16) (16 - P.length % 16)).length % 16 = 0 := by
    simp only [List.length_append, List.length_replicate]
    omega
  have hctlen : ctSlices.flatten.length =
      (P ++ List.replicate (16 - P.length % 16) (16 - P.length % 16)).length := by
    rw [hctv]
    exact ecbBlocks_length e he _ _ (le_refl _) hpadmod
  have hpd0 : chunkPayload d0 = [] := by
    unfold chunkPayload
    rw [hd0empty, List.take_zero]
  have hcw := chunkWriteAll_success ctSlices d0 hd0len hd0cap (by omega)
  have hcw2 : chunkPayload (chunkWriteAll d0 ctSlices).1 = ctSlices.flatten := by
    rw [hcw.2.2.2, hpd0, List.nil_append]
  have hcwlen : chunkPayloadLen (chunkWriteAll d0 ctSlices).1 =
      ctSlices.flatten.length := by
    rw [hcw.2.2.1, hd0empty]
    omega
  have hpayflat : paySlices.flatten = ctSlices.flatten := by rw [hpay, hcw2]
  have hsink := parseSinkGo_spec d hdlen
    (chunkPayloadLen (chunkWriteAll d0 ctSlices).1) paySlices 0 [] hpsne hpne
    (by rw [hpayflat, hcwlen]; omega)
    (by simp)
    (by rw [List.nil_append, hpayflat, hctlen]; exact hpadmod)
    (by
      rw [List.nil_append, hpayflat, hctv,
        ecb_roundtrip e d he hd _ _ (le_refl _) hpadmod]
      exact (pkcs7_padded P).1)
  rw [List.nil_append] at hsink
  have hplain : pkcs7Unpad (ecbBlocks d paySlices.flatten) = P := by
    rw [hpayflat, hctv, ecb_roundtrip e d he hd _ _ (le_refl _) hpadmod]
    exact (pkcs7_padded P).2
  have hdec : (decompRun D t0 rsl).2 = (rs.map encodeRecord).flatten := by
    have h := Hcd (ems.map (fun em => (accumEncode 256 em).1)) rsl
      (by rw [hrsl, hplain]; exact hcp)
    rw [h, hgsmap]
  refine ⟨hcw.1, hcw2, hsink, hdec, ?_⟩
  have hstream : streamOf rs = [] ++ (pslices.flatten ++ []) := by
    rw [List.nil_append, List.append_nil, hpsl, hdec]
    rfl
  obtain ⟨rsOut, rs2, pre2, hps, hsplit, hinv2, hstream2⟩ :=
    parseSlices_spec pslices [] rs [] (Or.inl rfl) hwf hrlen hstream
  obtain ⟨hrs2, hpre2⟩ := parser_final rs2 pre2 hinv2 hstream2
  subst hrs2 hpre2
  rw [List.append_nil] at hsplit
  rw [hps, hsplit]

/-- A well-formed record with a pre-1970 datetime (`secs = -1`). -/
def negRecord : Record :=
  { meta :=
      { level := .info
        datetime := { secs := -1, nsecs := 0 }
        location := { file := none, func := none, line := none }
        tag := none
        threadId := none }
    content := [] }

/-- `negRecord` with its datetime clamped to the epoch — what the read
pipeline returns for it. -/
def clampedNegRecord : Record :=
  { negRecord with
    meta := { negRecord.meta with datetime := { secs := 0, nsecs := 0 } } }

/-- A fresh 128-byte chunk backing (68 bytes of payload capacity). -/
def cxChunk0 : List Nat := List.replicate 128 0

/-- The ciphertext the write pipeline produces for `negRecord` with the null
compressor and the reversal block function. -/
def cxCt : List Nat :=
  (encInput List.reverse []
    (compRun nullComp () [(accumEncode 256 [encodeRecord negRecord]).1])).2 ++
  (encFlush List.reverse (encInput List.reverse []
    (compRun nullComp () [(accumEncode 256 [encodeRecord negRecord]).1])).1).2

/-- The plaintext the chunk sink recovers from the written chunk. -/
def cxPlain : List Nat :=
  pkcs7Unpad (ecbBlocks List.reverse
    (chunkPayload (chunkWriteAll cxChunk0 [cxCt]).1))

set_option maxRecDepth 100000 in
/-- C1 counterexample: the claim fails for a record with a pre-1970
datetime. Logging `negRecord` (secs = -1) through the full pipeline — encode,
accumulation buffer, (null) compression, ECB encryption with PKCS#7 padding,
chunk write — and parsing the chunk back — decrypt with the final flag,
(null) decompression, record decode — invokes the callback with the record
clamped to the epoch, not the logged record. -/
theorem C1_counterexample :
    negRecord.meta.datetime.secs < 0 ∧
      (chunkWriteAll cxChunk0 [cxCt]).2 = none ∧
      parseSinkGo List.reverse (chunkPayloadLen (chunkWriteAll cxChunk0 [cxCt]).1)
          false 0 [] [chunkPayload (chunkWriteAll cxChunk0 [cxCt]).1] =
        .ok ([], cxPlain) ∧
      parseSlices [] [(decompRun nullDecomp () [cxPlain]).2] =
        .ok ([clampedNegRecord], []) ∧
      clampedNegRecord ≠ negRecord := by decide

/-- Witness chunk backing: 512 bytes. -/
def wD0 : List Nat := List.replicate 512 0

/-- Witness compressed stream (null compressor) for one `sampleRecord`. -/
def wCparts : List (List Nat) :=
  [compRun nullComp ()
    ([[encodeRecord sampleRecord]].map (fun em => (accumEncode 256 em).1))]

/-- Witness ciphertext. -/
def wCt : List Nat :=
  (encInputs List.reverse [] wCparts).2 ++
    (encFlush List.reverse (encInputs List.reverse [] wCparts).1).2

/-- Witness chunk payload read back. -/
def wPay : List Nat := chunkPayload (chunkWriteAll wD0 [wCt]).1

/-- Witness decrypted plaintext. -/
def wPlain : List Nat := pkcs7Unpad (ecbBlocks List.reverse wPay)

set_option maxRecDepth 1000000 in
/-- C1 witness: one well-formed record with a post-1970 timestamp pushed
through the entire pipeline (null compressor, reversal block function,
512-byte chunk) is handed back to the parse callback exactly. -/
theorem C1_witness :
    (∀ r ∈ [sampleRecord], r.WF ∧ 0 ≤ r.meta.datetime.secs) ∧
      parseSlices [] [(decompRun nullDecomp () [wPlain]).2] =
        .ok ([sampleRecord], []) :=
  ⟨by decide,
    (C1_pipeline_roundtrip nullComp () nullDecomp () List.reverse List.reverse
      (fun b hb => by rw [List.length_reverse, hb])
      (fun b hb => by rw [List.length_reverse, hb])
      (fun b _ => List.reverse_reverse b)
      (fun gs rsl h => by rw [nullDecompRun, h, nullCompRun])
      [sampleRecord] [[encodeRecord sampleRecord]]
      (by simp)
      (by decide)
      (by decide)
      wCparts (by simp [wCparts])
      [wCt] (by simp [wCt])
      wD0 (by decide) (by decide) (by decide)
      (by decide)
      [wPay] (by simp [wPay])
      (by decide) (by decide)
      [wPlain] (by simp [wPlain])
      [(decompRun nullDecomp () [wPlain]).2] (by simp)).2.2.2.2⟩

end Pinenut
